import Mathlib

/-!
Shallow embedding of the MMR (Merkle Mountain Range) core from `mmr.c` / `mmr.h`
(jjyr/mmr-c).  Machine integers are modelled as `Nat`; the C routines act on
64-bit words whose values, throughout the algorithms, stay far below 2^64, so
no wrap-around is modelled.  The user-supplied merge callback
`merge(dst, a, b)` is modelled positionally as `merge : D → D → D` applied as
`merge a b`.  While-loops are modelled by structural recursion on an explicit
fuel argument that visibly dominates the loop's iteration count (each such
function comes with a fuel-irrelevance lemma), so that every definition is
executable by the kernel.
-/

namespace Mmr

/-- Fuel-indexed helper for `bit_length`: counts binary digits of `n`. -/
def blAux : Nat → Nat → Nat
  | 0, _ => 0
  | fuel + 1, n => if n = 0 then 0 else blAux fuel (n / 2) + 1

/-- Number of binary digits of `n`.  The C code obtains it as
`64 - count_zeros(n, 1)` (64 minus the number of leading zero bits of the
64-bit word `n`); for `n < 2^64` that equals the number of binary digits. -/
def bit_length (n : Nat) : Nat := blAux n n

/-- `jump_left` from mmr.c with the power idealized to the exact
`2^(bit_length pos - 1)`.  The C writes that power as `1 << (bit_length - 1)`
whose left operand is a 32-bit `int`, so the two agree only while
`bit_length ≤ 31` (every loop state of positions `< 2^31 - 1`, which covers
every position the builder and verifier routines of this development touch);
`jump_left32` below models the 32-bit shift exactly. -/
def jump_left (pos : Nat) : Nat := pos - (2 ^ (bit_length pos - 1) - 1)

/-- The C's `size_t most_significant_bits = 1 << (bit_length - 1)`: the shift
is performed on the `int` literal `1` (32 bits).  For shift counts up to 30 it
equals `2 ^ (bit_length - 1)`; for larger counts the behaviour is undefined,
and this model fixes the mainstream x86-64 outcome: the count is taken modulo
32, and `1 << 31` yields `INT_MIN`, which converts to the 64-bit `size_t` as
`2^64 - 2^31`. -/
def msb32 (bl : Nat) : Nat :=
  if (bl - 1) % 32 = 31 then 2 ^ 64 - 2 ^ 31 else 2 ^ ((bl - 1) % 32)

/-- `jump_left` from mmr.c with the 32-bit `int` shift modelled exactly; the
subtraction wraps modulo `2^64`, the width of `pos`. -/
def jump_left32 (pos : Nat) : Nat :=
  (pos + 2 ^ 64 - (msb32 (bit_length pos) - 1)) % 2 ^ 64

/-- `is_all_one_bits` from mmr.c: `n ≠ 0` and all binary digits of `n` are 1,
which the C detects as `count_zeros(n, 0) == count_zeros(n, 1)` (no zero bit
below the most significant one); equivalently `n + 1 = 2^(bit_length n)`. -/
def is_all_one_bits (n : Nat) : Bool := n != 0 && n + 1 == 2 ^ bit_length n

/-- Fuel-indexed loop of `pos_height_in_tree`: repeatedly `jump_left` until the
value is all ones, then report `bit_length - 1`. -/
def phAux : Nat → Nat → Nat
  | 0, _ => 0
  | fuel + 1, q => if is_all_one_bits q then bit_length q - 1 else phAux fuel (jump_left q)

/-- The `while (!is_all_one_bits(pos)) pos = jump_left(pos)` loop of
`pos_height_in_tree` over the exact 32-bit-shift `jump_left32`; `none` when
the given fuel runs out before the loop condition ever becomes false. -/
def phAux32 : Nat → Nat → Option Nat
  | 0, _ => none
  | fuel + 1, q =>
    if is_all_one_bits q then some (bit_length q - 1) else phAux32 fuel (jump_left32 q)

/-- Height of the value `q = pos + 1` under the jump-left iteration. -/
def hIdx (q : Nat) : Nat := phAux q q

/-- `pos_height_in_tree` from mmr.c: height of the node at position `pos`. -/
def pos_height_in_tree (pos : Nat) : Nat := hIdx (pos + 1)

/-- `parent_offset` from mmr.c: `2 << height`. -/
def parent_offset (height : Nat) : Nat := 2 <<< height

/-- `sibling_offset` from mmr.c: `(2 << height) - 1`. -/
def sibling_offset (height : Nat) : Nat := (2 <<< height) - 1

/-- Descent loop of `get_right_peak` from mmr.c: while the candidate position is
outside the mmr, move to the left child (or give up at height 0). -/
def grpLoop : Nat → Nat → Nat → Nat × Nat
  | 0, pos, mmr_size => if pos > mmr_size - 1 then (0, 0) else (0, pos)
  | height + 1, pos, mmr_size =>
    if pos > mmr_size - 1 then grpLoop height (pos - parent_offset height) mmr_size
    else (height + 1, pos)

/-- `get_right_peak` from mmr.c: from peak `(height, pos)` move to the right
sibling position and descend left until inside the mmr; `(0, 0)` signals that
no right peak exists. -/
def get_right_peak (height pos mmr_size : Nat) : Nat × Nat :=
  grpLoop height (pos + sibling_offset height) mmr_size

/-- `left_peak_pos_by_height` from mmr.c: `(1 << (height + 1)) - 2`. -/
def left_peak_pos_by_height (height : Nat) : Nat := (1 <<< (height + 1)) - 2

/-- Search loop of `left_peak_height_pos` from mmr.c.  The C keeps the previous
position in `prev_pos`; along the loop `prev_pos = left_peak_pos_by_height
(height - 1)` (both start as `0 = left_peak_pos_by_height 0`), which is how the
result is expressed here. -/
def lphpAux (mmr_size : Nat) : Nat → Nat → Nat × Nat
  | 0, height => (height - 1, left_peak_pos_by_height (height - 1))
  | fuel + 1, height =>
    if left_peak_pos_by_height height < mmr_size then lphpAux mmr_size fuel (height + 1)
    else (height - 1, left_peak_pos_by_height (height - 1))

/-- `left_peak_height_pos` from mmr.c: height and position of the leftmost peak. -/
def left_peak_height_pos (mmr_size : Nat) : Nat × Nat := lphpAux mmr_size (mmr_size + 1) 1

/-- Emission loop of `get_peaks` from mmr.c: after the leftmost peak, keep
taking the next right peak while the current height is positive and a right
peak exists. -/
def getPeaksAux (mmr_size : Nat) : Nat → Nat → Nat → List Nat
  | 0, _, _ => []
  | fuel + 1, height, pos =>
    if height > 0 then
      let rp := get_right_peak height pos mmr_size
      if rp.1 = 0 ∧ rp.2 = 0 then []
      else rp.2 :: getPeaksAux mmr_size fuel rp.1 rp.2
    else []

/-- `get_peaks` from mmr.c: the positions of all peaks, left to right. -/
def get_peaks (left_peak : Nat × Nat) (mmr_size : Nat) : List Nat :=
  left_peak.2 :: getPeaksAux mmr_size (mmr_size + 1) left_peak.1 left_peak.2

/-- Bisection loop of `binary_search` from mmr.c, followed by the final
`arr[b]` / `arr[e]` checks. -/
def bsAux (arr : List Nat) (target : Nat) : Nat → Nat → Nat → Int
  | 0, _, _ => -1
  | fuel + 1, b, e =>
    if b + 1 ≠ e then
      let i := (b + e) / 2
      if arr.getD i 0 < target then bsAux arr target fuel i e
      else if arr.getD i 0 > target then bsAux arr target fuel b i
      else (i : Int)
    else
      if arr.getD b 0 = target then (b : Int)
      else if e < arr.length ∧ arr.getD e 0 = target then (e : Int)
      else -1

/-- `binary_search` from mmr.c: index of `target` in the sorted array `arr`,
`-1` if absent. -/
def binary_search (arr : List Nat) (target : Nat) : Int :=
  if arr.length = 0 then -1 else bsAux arr target (arr.length + 1) 0 arr.length

/-- `simple_log2` from mmr.c counts how often `n` can be halved before
reaching 0, i.e. `bit_length n - 1` for `n ≥ 1` (and 0 for `n = 0`). -/
def simple_log2 (n : Nat) : Nat := bit_length n - 1

/-- Stripping loop of `mmr_compute_pos_by_leaf_index`: while more than one leaf
remains, strip a highest-power-of-two peak.  State: `(leaves, tree_node_count,
height, mmr_size)`.  (The C computes `peak_leaves` as `(uint32_t)1 << height`,
idealized here to `2 ^ height`.) -/
def cpbliLoop : Nat → Nat → Nat → Nat → Nat → Nat × Nat × Nat × Nat
  | 0, leaves, tnc, height, mmr_size => (leaves, tnc, height, mmr_size)
  | fuel + 1, leaves, tnc, height, mmr_size =>
    if leaves > 1 then
      let height' := simple_log2 leaves
      let peak_leaves := 2 ^ height'
      let sub_tree_node_count := left_peak_pos_by_height height' + 1
      cpbliLoop fuel (leaves - peak_leaves) (tnc + sub_tree_node_count) height'
        (mmr_size + (peak_leaves * 2 - 1))
    else (leaves, tnc, height, mmr_size)

/-- `mmr_compute_pos_by_leaf_index` from mmr.c: `(mmr_size, pos)` of a leaf
index, where `mmr_size` is the mmr size at the moment this leaf is the last
one. -/
def mmr_compute_pos_by_leaf_index (index : Nat) : Nat × Nat :=
  if index = 0 then (1, 0)
  else
    let r := cpbliLoop (index + 2) (index + 1) 0 0 0
    if r.1 = 1 then (r.2.2.2 + 1, r.2.1)
    else (r.2.2.2, r.2.1 - 1 - r.2.2.1)

/-- `compute_pos_by_leaf_index` from mmr.h: same stripping loop, but the
`index = 0` early return is `(0, 0)` there instead of `(1, 0)`. -/
def compute_pos_by_leaf_index (index : Nat) : Nat × Nat :=
  if index = 0 then (0, 0)
  else
    let r := cpbliLoop (index + 2) (index + 1) 0 0 0
    if r.1 = 1 then (r.2.2.2 + 1, r.2.1)
    else (r.2.2.2, r.2.1 - 1 - r.2.2.1)

/-- The builder state of mmr.c's `MMRContext`: current size, node buffer
(position-indexed store of digests), and buffer capacity. -/
structure MMRContext (D : Type) where
  mmr_size : Nat
  tree_buf : Nat → D
  tree_buf_size : Nat

/-- A single store into the node buffer. -/
def writeBuf {D : Type} (buf : Nat → D) (p : Nat) (v : D) : Nat → D :=
  fun q => if q = p then v else buf q

/-- Merge cascade of `mmr_push` from mmr.c: while the next position is an
internal node, write the merge of its two children; returns `(code, buffer,
final i)`, code `-1` when the capacity check `i >= tree_buf_size` fails. -/
def pushLoop {D : Type} (merge : D → D → D) (cap : Nat) :
    Nat → (Nat → D) → Nat → Nat → Int × (Nat → D) × Nat
  | 0, buf, i, _ => (-1, buf, i)
  | fuel + 1, buf, i, height =>
    if pos_height_in_tree (i + 1) > height then
      if i + 1 ≥ cap then (-1, buf, i + 1)
      else
        let left_pos := i + 1 - parent_offset height
        let right_pos := left_pos + sibling_offset height
        let buf' := writeBuf buf (i + 1) (merge (buf left_pos) (buf right_pos))
        pushLoop merge cap fuel buf' (i + 1) (height + 1)
    else (0, buf, i)

/-- `mmr_push` from mmr.c: write the leaf at position `mmr_size`, run the merge
cascade, and update `mmr_size` only on success.  (The C also stores the byte
`1` at `tree_buf[pos][0]` just before copying the leaf; that write is
immediately overwritten and is not modelled.)  On failure (`-1`) the size field
is left as it was, while buffer writes already performed remain. -/
def mmr_push {D : Type} (merge : D → D → D) (ctx : MMRContext D) (leaf : D) :
    Int × MMRContext D :=
  if ctx.mmr_size ≥ ctx.tree_buf_size then (-1, ctx)
  else
    let buf := writeBuf ctx.tree_buf ctx.mmr_size leaf
    let r := pushLoop merge ctx.tree_buf_size (ctx.tree_buf_size + 2) buf ctx.mmr_size 0
    if r.1 = 0 then (0, ⟨r.2.2 + 1, r.2.1, ctx.tree_buf_size⟩)
    else (-1, ⟨ctx.mmr_size, r.2.1, ctx.tree_buf_size⟩)

/-- `bag_rhs_peaks` from mmr.c: gather the digests of all peaks right of
`skip_pos` and fold them from the right, each step merging
`(right_accumulator, left_peak)` in that argument order; `none` models the
"no peaks to bag" return of `-1`. -/
def bag_rhs_peaks {D : Type} (merge : D → D → D) (buf : Nat → D) (skip_pos : Nat)
    (peaks : List Nat) : Option D :=
  let elems := (peaks.filter (fun p => p > skip_pos)).map buf
  match elems.reverse with
  | [] => none
  | r :: rest => some (rest.foldl merge r)

/-- `mmr_get_root` from mmr.c: `none` models the `-1` return. -/
def mmr_get_root {D : Type} (merge : D → D → D) (ctx : MMRContext D) : Option D :=
  if ctx.mmr_size = 0 then none
  else if ctx.mmr_size = 1 then some (ctx.tree_buf 0)
  else
    let left_peak := left_peak_height_pos ctx.mmr_size
    let peaks := get_peaks left_peak ctx.mmr_size
    bag_rhs_peaks merge ctx.tree_buf 0 peaks

/-- Climb loop of `mmr_gen_proof` from mmr.c: collect sibling positions while
climbing from `pos` towards its peak; stops at the peak (sibling position out
of range) or when `pos` leaves the mmr. -/
def genClimbAux (S : Nat) : Nat → Nat → Nat → List Nat × Nat
  | 0, pos, _ => ([], pos)
  | fuel + 1, pos, height =>
    if pos < S then
      let ph := pos_height_in_tree pos
      let nh := pos_height_in_tree (pos + 1)
      let sib_pos := if nh > ph then pos - sibling_offset height else pos + sibling_offset height
      let next_pos := if nh > ph then pos + 1 else pos + parent_offset height
      if sib_pos > S - 1 then ([], pos)
      else
        let r := genClimbAux S fuel next_pos (height + 1)
        (sib_pos :: r.1, r.2)
    else ([], pos)

/-- `mmr_gen_proof` from mmr.c: climb siblings, then the bagged right peaks (if
any), then the left peaks in descending position order.  `none` models the `-1`
buffer-too-small return: the C fails as soon as an append would reach
`proof_max_len` items, and it additionally requires a free slot before the
bagging step even when bagging produces nothing. -/
def mmr_gen_proof {D : Type} (merge : D → D → D) (ctx : MMRContext D)
    (proof_max_len : Nat) (pos : Nat) : Option (List D) :=
  let c := genClimbAux ctx.mmr_size (ctx.mmr_size + 1) pos 0
  if c.1.length ≥ proof_max_len then none
  else
    let left_peak := left_peak_height_pos ctx.mmr_size
    let peaks := get_peaks left_peak ctx.mmr_size
    let bag := bag_rhs_peaks merge ctx.tree_buf c.2 peaks
    let proof1 := c.1.map ctx.tree_buf ++ (match bag with | some h => [h] | none => [])
    let lefts := (peaks.reverse.filter (fun p => p < c.2)).map ctx.tree_buf
    if proof1.length + lefts.length > proof_max_len then none
    else some (proof1 ++ lefts)

/-- `compute_peak_root` from mmr.c: rebuild the peak digest from a leaf and the
proof items, stopping at a peak position or when the proof is exhausted.
Returns `(digest, final pos, number of proof items consumed)`. -/
def compute_peak_root {D : Type} (merge : D → D → D) (peaks : List Nat) :
    D → Nat → Nat → List D → D × Nat × Nat
  | acc, pos, _, [] => (acc, pos, 0)
  | acc, pos, height, item :: rest =>
    if binary_search peaks pos ≥ 0 then (acc, pos, 0)
    else
      let ph := pos_height_in_tree pos
      let nh := pos_height_in_tree (pos + 1)
      if nh > ph then
        let r := compute_peak_root merge peaks (merge item acc) (pos + 1) (height + 1) rest
        (r.1, r.2.1, r.2.2 + 1)
      else
        let r := compute_peak_root merge peaks (merge acc item) (pos + parent_offset height)
          (height + 1) rest
        (r.1, r.2.1, r.2.2 + 1)

/-- Bagging loop of `mmr_compute_proof_root` from mmr.c. -/
def baggingLoop {D : Type} (merge : D → D → D) : D → Bool → List D → D
  | acc, _, [] => acc
  | acc, bagging_left, item :: rest =>
    if bagging_left then baggingLoop merge (merge acc item) true rest
    else baggingLoop merge (merge item acc) true rest

/-- `mmr_compute_proof_root` from mmr.c.  The second component is the caller's
proof buffer after the call: the source never writes to `proof`, so it is
returned unchanged. -/
def mmr_compute_proof_root {D : Type} (merge : D → D → D) (mmr_size : Nat)
    (leaf_hash : D) (pos : Nat) (proof : List D) : D × List D :=
  let left_peak := left_peak_height_pos mmr_size
  let peaks := get_peaks left_peak mmr_size
  let r := compute_peak_root merge peaks leaf_hash pos 0 proof
  let rest := proof.drop r.2.2
  (baggingLoop merge r.1 (r.2.1 == mmr_size - 1) rest, proof)

/-- `mmr_compute_new_root_from_last_leaf_proof` from mmr.c.  `new_leaf_pos` is
the `(mmr_size, pos)` pair of the new leaf.  The second component is the
caller's proof buffer after the call: in the left-branch case the source
rewrites it in place (slot 0 gets the rebuilt peak digest, slots `1 ..
proof_len - i` get the old items `i ..` shifted down, later slots keep their
old contents); the right-branch case works in a fresh buffer and leaves the
caller's proof untouched. -/
def mmr_compute_new_root_from_last_leaf_proof {D : Type} (merge : D → D → D)
    (mmr_size : Nat) (leaf_hash : D) (leaf_pos : Nat) (proof : List D)
    (new_leaf_hash : D) (new_leaf_pos : Nat × Nat) : D × List D :=
  if mmr_size = 0 then (new_leaf_hash, proof)
  else
    let ph := pos_height_in_tree new_leaf_pos.2
    let nh := pos_height_in_tree (new_leaf_pos.2 + 1)
    if nh > ph then
      let new_proof := leaf_hash :: proof
      ((mmr_compute_proof_root merge new_leaf_pos.1 new_leaf_hash new_leaf_pos.2
        new_proof).1, proof)
    else
      let left_peak := left_peak_height_pos mmr_size
      let peaks := get_peaks left_peak mmr_size
      let r := compute_peak_root merge peaks leaf_hash leaf_pos 0 proof
      let new_proof := r.1 :: proof.drop r.2.2
      let buf_after := new_proof ++ proof.drop (proof.length + 1 - r.2.2)
      ((mmr_compute_proof_root merge new_leaf_pos.1 new_leaf_hash new_leaf_pos.2
        new_proof).1, buf_after)

/-- A fresh builder context of capacity `cap` over an all-`d0` buffer, as set
up by `mmr_initialize_context(ctx, 0, buf, cap, merge)`. -/
def initialContext {D : Type} (cap : Nat) (d0 : D) : MMRContext D :=
  ⟨0, fun _ => d0, cap⟩

/-- Push a list of leaves in order. -/
def pushAll {D : Type} (merge : D → D → D) (ctx : MMRContext D) (L : List D) :
    MMRContext D :=
  L.foldl (fun c l => (mmr_push merge c l).2) ctx

/-- All pushes of `L` succeed (each `mmr_push` returns 0). -/
def pushAllOk {D : Type} (merge : D → D → D) (ctx : MMRContext D) : List D → Bool
  | [] => true
  | l :: rest =>
    (mmr_push merge ctx l).1 == 0 && pushAllOk merge (mmr_push merge ctx l).2 rest

/-- Modelled from the spec sentence quoted by claim C3: fold the peak digests
right to left, initial accumulator the rightmost digest, step
`bag(acc, next) = merge(next, acc)` (spec §3 fixes `merge(left, right)` as the
argument order of the merge function, so the step passes `next` on the left). -/
def specC3Fold {D : Type} (merge : D → D → D) (peakDigests : List D) : Option D :=
  match peakDigests.reverse with
  | [] => none
  | r :: rest => some (rest.foldl (fun acc next => merge next acc) r)

/-- The amended fold of claim C3: same right-to-left traversal and initial
accumulator, but the step is `bag(acc, next) = merge(acc, next)` — the
accumulated right side is the first (left) argument of the merge callback. -/
def specC3FoldAmended {D : Type} (merge : D → D → D) (peakDigests : List D) : Option D :=
  match peakDigests.reverse with
  | [] => none
  | r :: rest => some (rest.foldl merge r)

/-! ### Reference model: the mmr as a forest of perfect merge trees

The buffer contents of a builder reachable by pushes are characterized by a
forest of perfect binary merge trees (the "peaks" with their subtrees), listed
left to right with strictly decreasing heights, stored in post order.  The
following definitions build that reference model; the theorems below prove
that `mmr_push` maintains it and that the proof generator and verifier are
correct with respect to it. -/

/-- Binary tree of digests; internal nodes carry their digest. -/
inductive PTree (D : Type) where
  | leaf : D → PTree D
  | node : PTree D → PTree D → D → PTree D

/-- Digest at the root. -/
def PTree.rt {D : Type} : PTree D → D
  | .leaf d => d
  | .node _ _ d => d

/-- Number of nodes. -/
def PTree.sizeT {D : Type} : PTree D → Nat
  | .leaf _ => 1
  | .node l r _ => l.sizeT + r.sizeT + 1

/-- Post-order flattening: exactly the mmr storage layout of a peak subtree. -/
def PTree.flat {D : Type} : PTree D → List D
  | .leaf d => [d]
  | .node l r d => l.flat ++ r.flat ++ [d]

/-- Well-formed perfect merge tree of a given height. -/
inductive WfT {D : Type} (merge : D → D → D) : PTree D → Nat → Prop where
  | leaf (d : D) : WfT merge (.leaf d) 0
  | node {l r : PTree D} {h : Nat} : WfT merge l h → WfT merge r h →
      WfT merge (.node l r (merge l.rt r.rt)) (h + 1)

/-- Forest, leftmost tree first, each tree paired with its height. -/
def flatF {D : Type} : List (PTree D × Nat) → List D
  | [] => []
  | t :: rest => t.1.flat ++ flatF rest

/-- Total node count of a forest, computed from the heights. -/
def sizeF {D : Type} : List (PTree D × Nat) → Nat
  | [] => 0
  | t :: rest => (2 ^ (t.2 + 1) - 1) + sizeF rest

/-- Total leaf count of a forest, computed from the heights. -/
def leavesF {D : Type} : List (PTree D × Nat) → Nat
  | [] => 0
  | t :: rest => 2 ^ t.2 + leavesF rest

/-- Well-formed forest: trees are well formed and heights strictly decrease
left to right. -/
def WfF {D : Type} (merge : D → D → D) : List (PTree D × Nat) → Prop
  | [] => True
  | t :: rest => WfT merge t.1 t.2 ∧ (∀ x ∈ rest, x.2 < t.2) ∧ WfF merge rest

/-- The carry loop of a push, on the reversed (rightmost-first) forest:
merge the incoming tree with the last tree while their heights coincide. -/
def carryR {D : Type} (merge : D → D → D) :
    PTree D × Nat → List (PTree D × Nat) → List (PTree D × Nat)
  | c, [] => [c]
  | c, t :: rest =>
    if t.2 = c.2 then carryR merge (.node t.1 c.1 (merge t.1.rt c.1.rt), c.2 + 1) rest
    else c :: t :: rest

/-- Push a leaf into a forest. -/
def fpush {D : Type} (merge : D → D → D) (F : List (PTree D × Nat)) (l : D) :
    List (PTree D × Nat) :=
  (carryR merge (.leaf l, 0) F.reverse).reverse

/-- The forest obtained by pushing a list of leaves in order. -/
def forestOf {D : Type} (merge : D → D → D) (L : List D) : List (PTree D × Nat) :=
  L.foldl (fpush merge) []

/-- Peak positions of a forest whose first tree starts at `base`:
the cumulative sizes, each minus one. -/
def peakPosF {D : Type} : List (PTree D × Nat) → Nat → List Nat
  | [], _ => []
  | t :: rest, base =>
    (base + (2 ^ (t.2 + 1) - 1) - 1) :: peakPosF rest (base + (2 ^ (t.2 + 1) - 1))

/-- Peak digests of a forest, left to right. -/
def rootsF {D : Type} (F : List (PTree D × Nat)) : List D :=
  F.map (fun t => t.1.rt)

/-- The root of a forest: fold the peak digests from the right, the
accumulated right side passed as the first merge argument. -/
def rootF {D : Type} (merge : D → D → D) (F : List (PTree D × Nat)) : Option D :=
  match (rootsF F).reverse with
  | [] => none
  | r :: rest => some (rest.foldl merge r)

/-- `LeafAt t b p d`: in tree `t` based at absolute position `b`, position `p`
is a leaf carrying digest `d`. -/
inductive LeafAt {D : Type} : PTree D → Nat → Nat → D → Prop where
  | leaf (d : D) (b : Nat) : LeafAt (.leaf d) b b d
  | inl {l r : PTree D} {dd : D} {b p : Nat} {d : D} :
      LeafAt l b p d → LeafAt (.node l r dd) b p d
  | inr {l r : PTree D} {dd : D} {b p : Nat} {d : D} :
      LeafAt r (b + l.sizeT) p d → LeafAt (.node l r dd) b p d

/-- `FLeafAt F b p d`: position `p` is a leaf with digest `d` in the forest
`F` based at `b`. -/
def FLeafAt {D : Type} : List (PTree D × Nat) → Nat → Nat → D → Prop
  | [], _, _, _ => False
  | t :: rest, b, p, d => LeafAt t.1 b p d ∨ FLeafAt rest (b + t.1.sizeT) p d

/-- Positions of the siblings along the path from leaf `p` up to the root of
`t` (based at `b`), bottom-up: exactly the climbing part of a merkle proof. -/
def sibsOf {D : Type} : PTree D → Nat → Nat → List Nat
  | .leaf _, _, _ => []
  | .node l r _, b, p =>
    if p < b + l.sizeT then sibsOf l b p ++ [b + l.sizeT + r.sizeT - 1]
    else sibsOf r (b + l.sizeT) p ++ [b + l.sizeT - 1]

/-- `Strip b m`: heights of positions `b + r` for `1 ≤ r ≤ m` agree with the
heights of the local positions `r` (the prefix of the layout up to `b`
consists of complete trees that `jump_left` strips away). -/
def Strip (b m : Nat) : Prop := ∀ r, 1 ≤ r → r ≤ m → hIdx (b + r) = hIdx r

/-- The buffer agrees with a digest list on all its positions. -/
def bufMatches {D : Type} [Inhabited D] (buf : Nat → D) (l : List D) : Prop :=
  ∀ p, p < l.length → buf p = l.getD p default

/-- Sibling digests along the path from leaf `p` up to the root of `t`
(the digest counterpart of `sibsOf`). -/
def proofD {D : Type} : PTree D → Nat → Nat → List D
  | .leaf _, _, _ => []
  | .node l r _, b, p =>
    if p < b + l.sizeT then proofD l b p ++ [r.rt] else proofD r (b + l.sizeT) p ++ [l.rt]

/-- The root digest of a forest: peak digests bagged from the right, the
accumulated right side passed first to the merge (`default` when empty). -/
def rootD {D : Type} [Inhabited D] (merge : D → D → D) (F : List (PTree D × Nat)) : D :=
  ((rootsF F).reverse.tail).foldl merge ((rootsF F).reverse.headD default)

/-- Well-formed reversed forest (rightmost tree first): heights strictly
increase along the list. -/
def WfR {D : Type} (merge : D → D → D) : List (PTree D × Nat) → Prop
  | [] => True
  | t :: rest => WfT merge t.1 t.2 ∧ (∀ x ∈ rest, t.2 < x.2) ∧ WfR merge rest

/-- The builder invariant: the context is the image of a well-formed forest. -/
def Inv {D : Type} [Inhabited D] (merge : D → D → D) (ctx : MMRContext D)
    (F : List (PTree D × Nat)) : Prop :=
  WfF merge F ∧ ctx.mmr_size = sizeF F ∧ bufMatches ctx.tree_buf (flatF F)

/-- The storage position that leaf `i` received when it was pushed: the mmr
size just before its push. -/
def leafPos {D : Type} (merge : D → D → D) (L : List D) (i : Nat) : Nat :=
  sizeF (forestOf merge (L.take i))

/-- The tree built by a carry cascade that merges the trees of `M` (rightmost
first) onto `c`. -/
def chainT {D : Type} (merge : D → D → D) : List (PTree D × Nat) → PTree D → PTree D
  | [], c => c
  | t :: rest, c => chainT merge rest (.node t.1 c (merge t.1.rt c.rt))

/-- Total node count of a forest, computed from the trees themselves. -/
def sizeTF {D : Type} (F : List (PTree D × Nat)) : Nat :=
  (F.map (fun t => t.1.sizeT)).sum

/-! ### Theorems -/

theorem blAux_congr : ∀ n f1 f2, n ≤ f1 → n ≤ f2 → blAux f1 n = blAux f2 n := by
  intro n
  induction n using Nat.strong_induction_on with
  | _ n ih =>
    intro f1 f2 h1 h2
    match f1, f2 with
    | 0, 0 => rfl
    | 0, g2 + 1 =>
      interval_cases n
      simp [blAux]
    | g1 + 1, 0 =>
      interval_cases n
      simp [blAux]
    | g1 + 1, g2 + 1 =>
      simp only [blAux]
      by_cases hn : n = 0
      · simp [hn]
      · simp only [hn, if_false]
        have hlt : n / 2 < n := Nat.div_lt_self (Nat.pos_of_ne_zero hn) (by omega)
        rw [ih (n / 2) hlt g1 g2 (by omega) (by omega)]

theorem bit_length_zero : bit_length 0 = 0 := rfl

theorem bit_length_rec (n : Nat) (hn : 1 ≤ n) :
    bit_length n = bit_length (n / 2) + 1 := by
  unfold bit_length
  match hn' : n, hn with
  | m + 1, _ =>
    simp only [blAux]
    rw [if_neg (by omega)]
    congr 1
    exact blAux_congr _ _ _ (by omega) (by omega)

/-- Characterization: for `n ≥ 1`, `2^(bit_length n - 1) ≤ n < 2^(bit_length n)`. -/
theorem bit_length_spec : ∀ n, 1 ≤ n →
    2 ^ (bit_length n - 1) ≤ n ∧ n < 2 ^ bit_length n := by
  intro n
  induction n using Nat.strong_induction_on with
  | _ n ih =>
    intro hn
    rcases Nat.lt_or_ge n 2 with h2 | h2
    · interval_cases n
      constructor <;> simp [bit_length, blAux]
    · have hrec := bit_length_rec n (by omega)
      have hdiv : 1 ≤ n / 2 := by omega
      have hlt : n / 2 < n := Nat.div_lt_self (by omega) (by omega)
      obtain ⟨hlo, hhi⟩ := ih (n / 2) hlt hdiv
      have hblpos : 1 ≤ bit_length (n / 2) := by
        by_contra h
        have : bit_length (n / 2) = 0 := by omega
        rw [this] at hhi
        omega
      constructor
      · rw [hrec]
        have : 2 ^ (bit_length (n / 2) + 1 - 1) = 2 ^ (bit_length (n / 2) - 1) * 2 := by
          rw [Nat.add_sub_cancel]
          rw [← Nat.pow_succ]
          congr 1
          omega
        rw [this]
        omega
      · rw [hrec]
        rw [Nat.pow_succ]
        omega

theorem bit_length_unique {n k : Nat} (hlo : 2 ^ k ≤ n) (hhi : n < 2 ^ (k + 1)) :
    bit_length n = k + 1 := by
  have hn : 1 ≤ n := le_trans (Nat.one_le_two_pow) hlo
  obtain ⟨hl, hh⟩ := bit_length_spec n hn
  have hblpos : 1 ≤ bit_length n := by
    by_contra h
    have : bit_length n = 0 := by omega
    rw [this] at hh
    omega
  by_contra hne
  rcases Nat.lt_or_ge (bit_length n) (k + 1) with hc | hc
  · have : 2 ^ bit_length n ≤ 2 ^ k := Nat.pow_le_pow_right (by omega) (by omega)
    omega
  · have hk : k + 1 ≤ bit_length n - 1 := by omega
    have : 2 ^ (k + 1) ≤ 2 ^ (bit_length n - 1) := Nat.pow_le_pow_right (by omega) hk
    omega

theorem bit_length_pow_sub_one (k : Nat) (hk : 1 ≤ k) :
    bit_length (2 ^ k - 1) = k := by
  have h1 : 2 ^ (k - 1) ≤ 2 ^ k - 1 := by
    have h2 : 2 ^ (k - 1) * 2 = 2 ^ k := by
      rw [← Nat.pow_succ]
      congr 1
      omega
    have := Nat.one_le_two_pow (n := k - 1)
    omega
  have h2 : 2 ^ k - 1 < 2 ^ (k - 1 + 1) := by
    have : k - 1 + 1 = k := by omega
    rw [this]
    have := Nat.one_le_two_pow (n := k)
    omega
  have := bit_length_unique h1 h2
  omega

theorem is_all_one_bits_true_iff (n : Nat) :
    is_all_one_bits n = true ↔ n ≠ 0 ∧ n + 1 = 2 ^ bit_length n := by
  unfold is_all_one_bits
  simp

theorem is_all_one_bits_pow (k : Nat) (hk : 1 ≤ k) :
    is_all_one_bits (2 ^ k - 1) = true := by
  rw [is_all_one_bits_true_iff]
  rw [bit_length_pow_sub_one k hk]
  have h1 : 2 ^ 1 ≤ 2 ^ k := Nat.pow_le_pow_right (by omega) hk
  omega

/-- A non-all-ones `n ≥ 1` is at least 2. -/
theorem not_all_one_ge_two {n : Nat} (hn : 1 ≤ n) (h : is_all_one_bits n = false) :
    2 ≤ n := by
  rcases Nat.lt_or_ge n 2 with h2 | h2
  · exfalso
    have hn1 : n = 1 := by omega
    subst hn1
    have ht : is_all_one_bits 1 = true := by
      have := is_all_one_bits_pow 1 (by omega)
      simpa using this
    rw [ht] at h
    cases h
  · exact h2

theorem jump_left_lt {n : Nat} (hn : 2 ≤ n) : jump_left n < n := by
  unfold jump_left
  have hbl : bit_length n = bit_length (n / 2) + 1 := bit_length_rec n (by omega)
  have hdiv : 1 ≤ n / 2 := by omega
  obtain ⟨hl, _⟩ := bit_length_spec (n / 2) hdiv
  have hpos : 1 ≤ bit_length (n / 2) := by
    by_contra hc
    have h0 : bit_length (n / 2) = 0 := by omega
    obtain ⟨_, hh⟩ := bit_length_spec (n / 2) hdiv
    rw [h0] at hh
    omega
  have : 2 ^ (bit_length n - 1) - 1 ≥ 1 := by
    rw [hbl]
    have : bit_length (n / 2) + 1 - 1 = bit_length (n / 2) := by omega
    rw [this]
    have : 2 ^ 1 ≤ 2 ^ bit_length (n / 2) := Nat.pow_le_pow_right (by omega) hpos
    omega
  omega

theorem jump_left_pos {n : Nat} (hn : 1 ≤ n) : 1 ≤ jump_left n := by
  unfold jump_left
  obtain ⟨hl, _⟩ := bit_length_spec n hn
  omega

theorem phAux_congr : ∀ q f1 f2, 1 ≤ q → q ≤ f1 → q ≤ f2 → phAux f1 q = phAux f2 q := by
  intro q
  induction q using Nat.strong_induction_on with
  | _ q ih =>
    intro f1 f2 hq h1 h2
    obtain ⟨g1, rfl⟩ : ∃ g, f1 = g + 1 := ⟨f1 - 1, by omega⟩
    obtain ⟨g2, rfl⟩ : ∃ g, f2 = g + 1 := ⟨f2 - 1, by omega⟩
    · simp only [phAux]
      by_cases hone : is_all_one_bits q
      · simp [hone]
      · simp only [Bool.not_eq_true] at hone
        simp only [hone, if_false]
        have hq2 : 2 ≤ q := not_all_one_ge_two hq hone
        have hlt : jump_left q < q := jump_left_lt hq2
        have hpos : 1 ≤ jump_left q := jump_left_pos (by omega)
        exact ih (jump_left q) hlt g1 g2 hpos (by omega) (by omega)

theorem hIdx_all_ones (k : Nat) : hIdx (2 ^ (k + 1) - 1) = k := by
  have hk1 : (1:Nat) ≤ k + 1 := by omega
  have hpos : 1 ≤ 2 ^ (k + 1) - 1 := by
    have : 2 ^ 1 ≤ 2 ^ (k + 1) := Nat.pow_le_pow_right (by omega) hk1
    omega
  unfold hIdx
  obtain ⟨m, hm⟩ : ∃ m, 2 ^ (k + 1) - 1 = m + 1 := ⟨2 ^ (k + 1) - 2, by omega⟩
  rw [hm]
  simp only [phAux]
  rw [← hm, if_pos (is_all_one_bits_pow (k + 1) hk1),
    bit_length_pow_sub_one (k + 1) hk1]
  omega

theorem hIdx_one : hIdx 1 = 0 := by
  have := hIdx_all_ones 0
  simpa using this

/-- Strip lemma: prepending a full left subtree of `2^(H+1) - 1` nodes does not
change the height of a position inside the following `2^(H+1) - 1` slots. -/
theorem hIdx_strip (H r : Nat) (h1 : 1 ≤ r) (h2 : r ≤ 2 ^ (H + 1) - 1) :
    hIdx (2 ^ (H + 1) - 1 + r) = hIdx r := by
  set s := 2 ^ (H + 1) - 1 with hs
  have hsge : 2 ^ 1 ≤ 2 ^ (H + 1) := Nat.pow_le_pow_right (by omega) (by omega)
  have hspos : 1 ≤ s := by omega
  set q := s + r with hqdef
  have hql : 2 ^ (H + 1) ≤ q := by omega
  have hqh : q < 2 ^ (H + 2) := by
    have : 2 ^ (H + 2) = 2 ^ (H + 1) * 2 := by rw [← Nat.pow_succ]
    omega
  have hbl : bit_length q = H + 2 := bit_length_unique hql (by omega)
  have hnotones : is_all_one_bits q = false := by
    by_contra hc
    simp only [Bool.not_eq_false] at hc
    rw [is_all_one_bits_true_iff] at hc
    obtain ⟨_, heq⟩ := hc
    rw [hbl] at heq
    have : 2 ^ (H + 2) = 2 ^ (H + 1) * 2 := by rw [← Nat.pow_succ]
    omega
  have hjump : jump_left q = r := by
    unfold jump_left
    rw [hbl]
    have : H + 2 - 1 = H + 1 := by omega
    rw [this]
    omega
  have hqpos : 1 ≤ q := by omega
  unfold hIdx
  rw [show q = (q - 1) + 1 from by omega]
  simp only [phAux]
  rw [show q - 1 + 1 = q from by omega, hnotones]
  simp only [Bool.false_eq_true, if_false]
  rw [hjump]
  exact phAux_congr r _ _ h1 (by omega) (by omega)

theorem parent_offset_eq (height : Nat) : parent_offset height = 2 ^ (height + 1) := by
  unfold parent_offset
  rw [Nat.shiftLeft_eq]
  rw [Nat.pow_succ]
  omega

theorem sibling_offset_eq (height : Nat) : sibling_offset height = 2 ^ (height + 1) - 1 := by
  unfold sibling_offset
  rw [Nat.shiftLeft_eq]
  rw [Nat.pow_succ]
  omega

theorem left_peak_pos_by_height_eq (height : Nat) :
    left_peak_pos_by_height height = 2 ^ (height + 1) - 2 := by
  unfold left_peak_pos_by_height
  rw [Nat.shiftLeft_eq]
  omega

theorem bit_length_le_of_lt_pow {a m : Nat} (ha : a < 2 ^ m) : bit_length a ≤ m := by
  rcases Nat.eq_zero_or_pos a with rfl | hpos
  · rw [bit_length_zero]
    omega
  · obtain ⟨hlo, _⟩ := bit_length_spec a hpos
    by_contra hc
    have hm : m ≤ bit_length a - 1 := by omega
    have : 2 ^ m ≤ 2 ^ (bit_length a - 1) := Nat.pow_le_pow_right (by omega) hm
    omega

theorem bit_length_jump_left_lt {q : Nat} (hq : 2 ≤ q) (h : is_all_one_bits q = false) :
    bit_length (jump_left q) < bit_length q := by
  obtain ⟨hlo, hhi⟩ := bit_length_spec q (by omega)
  have hbl2 : 2 ≤ bit_length q := by
    by_contra hc
    have h1 : bit_length q ≤ 1 := by omega
    have : 2 ^ bit_length q ≤ 2 ^ 1 := Nat.pow_le_pow_right (by omega) h1
    omega
  have hne : q + 1 ≠ 2 ^ bit_length q := by
    intro heq
    have ht : is_all_one_bits q = true := by
      rw [is_all_one_bits_true_iff]
      exact ⟨by omega, heq⟩
    rw [ht] at h
    cases h
  have hq_le : q ≤ 2 ^ bit_length q - 2 := by omega
  have hpow : 2 ^ bit_length q = 2 ^ (bit_length q - 1) * 2 := by
    rw [← Nat.pow_succ]
    congr 1
    omega
  have hjq : jump_left q < 2 ^ (bit_length q - 1) := by
    unfold jump_left
    omega
  have : bit_length (jump_left q) ≤ bit_length q - 1 := bit_length_le_of_lt_pow hjq
  omega

theorem hIdx_jump {q : Nat} (hq : 1 ≤ q) (h : is_all_one_bits q = false) :
    hIdx q = hIdx (jump_left q) := by
  have hq2 : 2 ≤ q := not_all_one_ge_two hq h
  have hlt : jump_left q < q := jump_left_lt hq2
  have hpos : 1 ≤ jump_left q := jump_left_pos (by omega)
  unfold hIdx
  rw [show q = (q - 1) + 1 from by omega]
  simp only [phAux]
  rw [show q - 1 + 1 = q from by omega, h]
  simp only [Bool.false_eq_true, if_false]
  exact phAux_congr (jump_left q) _ _ hpos (by omega) (by omega)

theorem hIdx_of_all_ones {q : Nat} (hq : 1 ≤ q) (h : is_all_one_bits q = true) :
    hIdx q = bit_length q - 1 := by
  unfold hIdx
  rw [show q = (q - 1) + 1 from by omega]
  simp only [phAux]
  rw [show q - 1 + 1 = q from by omega, h]
  simp

theorem jump_iter_reaches_all_ones :
    ∀ q, 1 ≤ q → ∃ k, k + 1 ≤ bit_length q ∧
      is_all_one_bits (jump_left^[k] q) = true ∧
      hIdx q = bit_length (jump_left^[k] q) - 1 := by
  intro q
  induction q using Nat.strong_induction_on with
  | _ q ih =>
    intro hq
    by_cases hone : is_all_one_bits q = true
    · refine ⟨0, ?_, by simpa using hone, ?_⟩
      · obtain ⟨_, hhi⟩ := bit_length_spec q hq
        have : 1 ≤ bit_length q := by
          by_contra hc
          have h0 : bit_length q = 0 := by omega
          rw [h0] at hhi
          omega
        omega
      · simpa using hIdx_of_all_ones hq hone
    · have hone' : is_all_one_bits q = false := by
        cases hx : is_all_one_bits q
        · rfl
        · exact absurd hx hone
      have hq2 : 2 ≤ q := not_all_one_ge_two hq hone'
      have hlt : jump_left q < q := jump_left_lt hq2
      have hpos : 1 ≤ jump_left q := jump_left_pos (by omega)
      obtain ⟨k, hk, hones, hval⟩ := ih (jump_left q) hlt hpos
      have hbl : bit_length (jump_left q) < bit_length q := bit_length_jump_left_lt hq2 hone'
      refine ⟨k + 1, by omega, ?_, ?_⟩
      · rw [Function.iterate_succ_apply]
        exact hones
      · rw [Function.iterate_succ_apply]
        rw [hIdx_jump hq hone']
        exact hval

theorem jump_left32_eq {q : Nat} (h1 : 1 ≤ q) (h2 : q < 2 ^ 31) :
    jump_left32 q = jump_left q := by
  obtain ⟨hlo, hhi⟩ := bit_length_spec q h1
  have hble : bit_length q ≤ 31 := bit_length_le_of_lt_pow h2
  have hpos : 1 ≤ bit_length q := by
    by_contra hc
    have h0 : bit_length q = 0 := by omega
    rw [h0] at hhi
    simp at hhi
    omega
  have hmod : (bit_length q - 1) % 32 = bit_length q - 1 := Nat.mod_eq_of_lt (by omega)
  have hne : ¬ (bit_length q - 1) % 32 = 31 := by omega
  unfold jump_left32 msb32
  rw [if_neg hne, hmod]
  have hq64 : q < 2 ^ 64 := by
    have hx : (2:Nat) ^ 31 ≤ 2 ^ 64 := Nat.pow_le_pow_right (by omega) (by omega)
    omega
  rw [show q + 2 ^ 64 - (2 ^ (bit_length q - 1) - 1)
    = 2 ^ 64 + (q - (2 ^ (bit_length q - 1) - 1)) from by omega]
  rw [Nat.add_mod_left, Nat.mod_eq_of_lt (by omega)]
  rfl

theorem jump_iter32_eq : ∀ (k q : Nat), 1 ≤ q → q < 2 ^ 31 →
    jump_left32^[k] q = jump_left^[k] q := by
  intro k
  induction k with
  | zero =>
    intro q _ _
    rfl
  | succ k ih =>
    intro q h1 h2
    rw [Function.iterate_succ_apply, Function.iterate_succ_apply]
    rw [jump_left32_eq h1 h2]
    refine ih (jump_left q) (jump_left_pos h1) ?_
    have hle : jump_left q ≤ q := Nat.sub_le _ _
    omega

theorem bit_length_two_pow_32 : bit_length (2 ^ 32) = 33 :=
  bit_length_unique (le_refl _) (by
    rw [Nat.pow_succ]
    have h1 := Nat.one_le_two_pow (n := 32)
    omega)

theorem jump_left32_fixed : jump_left32 (2 ^ 32) = 2 ^ 32 := by
  unfold jump_left32 msb32
  rw [bit_length_two_pow_32]
  decide

theorem is_all_one_two_pow_32 : is_all_one_bits (2 ^ 32) = false := by
  unfold is_all_one_bits
  rw [bit_length_two_pow_32]
  decide

theorem phAux32_stuck : ∀ fuel, phAux32 fuel (2 ^ 32) = none := by
  intro fuel
  induction fuel with
  | zero => rfl
  | succ fuel ih =>
    simp only [phAux32]
    rw [is_all_one_two_pow_32]
    rw [if_neg (show ¬ (false = true) from by simp)]
    rw [jump_left32_fixed]
    exact ih

/-- C8 counterexample: the C computes `most_significant_bits` as
`1 << (bit_length - 1)` on a 32-bit `int`.  Under the exact model of that
shift (`jump_left32`, mainstream masked-shift behaviour for the UB cases), the
loop value `2^32` — reached immediately at position `p = 2^32 - 1` — is a
fixed point of `jump_left32` that is not all ones, so the while-loop of
`pos_height_in_tree` never exits, for any amount of fuel. -/
theorem c8_counterexample :
    jump_left32 (2 ^ 32) = 2 ^ 32 ∧ is_all_one_bits (2 ^ 32) = false ∧
    ∀ fuel, phAux32 fuel (2 ^ 32 - 1 + 1) = none := by
  refine ⟨jump_left32_fixed, is_all_one_two_pow_32, ?_⟩
  intro fuel
  rw [show (2:Nat) ^ 32 - 1 + 1 = 2 ^ 32 from by
    have h1 := Nat.one_le_two_pow (n := 32)
    omega]
  exact phAux32_stuck fuel

/-- C8 (amended): the `jump_left` iteration of `pos_height_in_tree` terminates
for every position `p` with `p + 1 < 2^31` — on that domain the C's 32-bit
shift `1 << (bit_length - 1)` is exact, `jump_left32` agrees with the ideal
`jump_left`, and the loop reaches an all-ones value within fewer than 32
steps, reporting `bit_length - 1` of it.  For larger positions the shift
overflows the `int` and the loop can hang (see the counterexample), so the
original every-64-bit-position claim fails. -/
theorem c8_pos_height_terminates (p : Nat) (hp : p + 1 < 2 ^ 31) :
    ∃ k, k < 32 ∧ is_all_one_bits (jump_left32^[k] (p + 1)) = true ∧
      pos_height_in_tree p = bit_length (jump_left32^[k] (p + 1)) - 1 := by
  obtain ⟨k, hk, hones, hval⟩ := jump_iter_reaches_all_ones (p + 1) (by omega)
  have hb : bit_length (p + 1) ≤ 31 := bit_length_le_of_lt_pow hp
  have heq := jump_iter32_eq k (p + 1) (by omega) hp
  exact ⟨k, by omega, by rw [heq]; exact hones, by rw [heq]; exact hval⟩

theorem c8_pos_height_terminates_witness :
    5 + 1 < 2 ^ 31 ∧
    ∃ k, k < 32 ∧ is_all_one_bits (jump_left32^[k] (5 + 1)) = true ∧
      pos_height_in_tree 5 = bit_length (jump_left32^[k] (5 + 1)) - 1 :=
  ⟨by norm_num, c8_pos_height_terminates 5 (by norm_num)⟩

/-- C4 counterexample: the claim asserts `size_pos_of_leaf(0) = (1, 0)` for
every variant in the source, but the mmr.h variant `compute_pos_by_leaf_index`
returns `(0, 0)` at index 0. -/
theorem c4_counterexample : ¬ compute_pos_by_leaf_index 0 = (1, 0) := by decide

/-- C4 (amended): the boundary values `(1,0)`, `(3,1)`, `(4,3)` hold for
`mmr_compute_pos_by_leaf_index` (mmr.c); the mmr.h variant agrees at indices 1
and 2 but returns `(0, 0)` at index 0. -/
theorem c4_boundary_values :
    mmr_compute_pos_by_leaf_index 0 = (1, 0) ∧
    mmr_compute_pos_by_leaf_index 1 = (3, 1) ∧
    mmr_compute_pos_by_leaf_index 2 = (4, 3) ∧
    compute_pos_by_leaf_index 0 = (0, 0) ∧
    compute_pos_by_leaf_index 1 = (3, 1) ∧
    compute_pos_by_leaf_index 2 = (4, 3) := by decide

/-- C9: whenever `mmr_push` returns `-1`, the context's `mmr_size` field is
exactly what it was before the call (the C assigns `ctx->mmr_size` only after
the cascade loop has finished successfully), even though buffer slots at and
beyond the old size may already have been written. -/
theorem c9_push_failure_preserves_size {D : Type} (merge : D → D → D)
    (ctx : MMRContext D) (leaf : D) (h : (mmr_push merge ctx leaf).1 = -1) :
    (mmr_push merge ctx leaf).2.mmr_size = ctx.mmr_size := by
  by_cases h1 : ctx.mmr_size ≥ ctx.tree_buf_size
  · simp only [mmr_push, if_pos h1]
  · by_cases h2 : (pushLoop merge ctx.tree_buf_size (ctx.tree_buf_size + 2)
        (writeBuf ctx.tree_buf ctx.mmr_size leaf) ctx.mmr_size 0).1 = 0
    · exfalso
      simp only [mmr_push, if_neg h1, h2, if_pos] at h
      exact absurd h (by decide)
    · simp only [mmr_push, if_neg h1, h2, if_false, if_neg h2]

theorem c9_push_failure_preserves_size_witness :
    ((mmr_push (fun a b : Nat => a + b)
        ((mmr_push (fun a b : Nat => a + b) (initialContext 2 0) 7).2) 8).1 = -1) ∧
    (mmr_push (fun a b : Nat => a + b)
        ((mmr_push (fun a b : Nat => a + b) (initialContext 2 0) 7).2) 8).2.mmr_size =
      ((mmr_push (fun a b : Nat => a + b) (initialContext 2 0) 7).2).mmr_size :=
  ⟨by decide, c9_push_failure_preserves_size (fun a b : Nat => a + b) _ 8 (by decide)⟩

/-- C10: `mmr_compute_proof_root` performs no write to the proof array, the
leaf hash or the verify context — in this embedding, its returned proof buffer
equals the input buffer for all inputs — whereas the left-branch case of
`mmr_compute_new_root_from_last_leaf_proof` rewrites the caller's proof buffer
in place, witnessed by a concrete input where the buffer changes. -/
theorem c10_verifier_frame :
    (∀ {D : Type} (merge : D → D → D) (S : Nat) (leaf : D) (pos : Nat) (proof : List D),
      (mmr_compute_proof_root merge S leaf pos proof).2 = proof) ∧
    (mmr_compute_new_root_from_last_leaf_proof (fun a b : Nat => 2 * a + 3 * b) 3 2 1 [1] 3
        (4, 3)).2 ≠ [1] := by
  refine ⟨?_, by decide⟩
  intro D merge S leaf pos proof
  rfl

/-- C3 counterexample: for the 3-leaf MMR (size 4, peaks at positions 2 and 3),
the root computed by `mmr_get_root` differs from the fold stated by the claim
(step `bag(acc, next) = merge(next, acc)`): the code folds `merge(acc, next)`,
passing the accumulated right side as the first (left) argument of the merge
callback. -/
theorem c3_counterexample :
    mmr_get_root (fun a b : Nat => 2 * a + 3 * b)
        (pushAll (fun a b : Nat => 2 * a + 3 * b) (initialContext 8 0) [1, 2, 3]) ≠
      specC3Fold (fun a b : Nat => 2 * a + 3 * b)
        ((get_peaks (left_peak_height_pos
            (pushAll (fun a b : Nat => 2 * a + 3 * b) (initialContext 8 0)
              [1, 2, 3]).mmr_size)
            (pushAll (fun a b : Nat => 2 * a + 3 * b) (initialContext 8 0)
              [1, 2, 3]).mmr_size).map
          (pushAll (fun a b : Nat => 2 * a + 3 * b) (initialContext 8 0) [1, 2, 3]).tree_buf) := by
  decide

theorem left_peak_pos_by_height_lt (h1 h2 : Nat) (h : h1 < h2) :
    left_peak_pos_by_height h1 < left_peak_pos_by_height h2 := by
  rw [left_peak_pos_by_height_eq, left_peak_pos_by_height_eq]
  have hp : 2 ^ (h1 + 1) < 2 ^ (h2 + 1) := Nat.pow_lt_pow_right (by omega) (by omega)
  have h2p : 2 ^ 1 ≤ 2 ^ (h1 + 1) := Nat.pow_le_pow_right (by omega) (by omega)
  omega

theorem left_peak_pos_by_height_ge_self (h : Nat) : h ≤ left_peak_pos_by_height h := by
  rw [left_peak_pos_by_height_eq]
  have := Nat.lt_two_pow (h + 1)
  omega

theorem lphpAux_spec (S : Nat) :
    ∀ fuel h, 1 ≤ h → left_peak_pos_by_height (h - 1) < S → S ≤ fuel + h →
    ∃ H, lphpAux S fuel h = (H, left_peak_pos_by_height H) ∧
      left_peak_pos_by_height H < S ∧ S ≤ left_peak_pos_by_height (H + 1) ∧ h - 1 ≤ H := by
  intro fuel
  induction fuel with
  | zero =>
    intro h hh hlt hfuel
    refine ⟨h - 1, rfl, hlt, ?_, le_refl _⟩
    have hh1 : h - 1 + 1 = h := by omega
    rw [hh1]
    have := left_peak_pos_by_height_ge_self h
    omega
  | succ fuel ih =>
    intro h hh hlt hfuel
    simp only [lphpAux]
    by_cases hc : left_peak_pos_by_height h < S
    · rw [if_pos hc]
      have hfuel2 : S ≤ fuel + (h + 1) := by omega
      obtain ⟨H, heq, hH1, hH2, hH3⟩ := ih (h + 1) (by omega) (by simpa using hc) hfuel2
      exact ⟨H, heq, hH1, hH2, by omega⟩
    · rw [if_neg hc]
      refine ⟨h - 1, rfl, hlt, ?_, le_refl _⟩
      have hh1 : h - 1 + 1 = h := by omega
      rw [hh1]
      omega

/-- Characterization of `left_peak_height_pos`: for `S ≥ 1` it returns
`(H, 2^(H+1) - 2)` for the unique `H` with
`left_peak_pos_by_height H < S ≤ left_peak_pos_by_height (H+1)`. -/
theorem left_peak_height_pos_spec (S : Nat) (hS : 1 ≤ S) :
    ∃ H, left_peak_height_pos S = (H, left_peak_pos_by_height H) ∧
      left_peak_pos_by_height H < S ∧ S ≤ left_peak_pos_by_height (H + 1) := by
  have h0 : left_peak_pos_by_height (1 - 1) < S := by
    show left_peak_pos_by_height 0 < S
    rw [left_peak_pos_by_height_eq]
    omega
  obtain ⟨H, heq, h1, h2, _⟩ := lphpAux_spec S (S + 1) 1 (by omega) h0 (by omega)
  exact ⟨H, heq, h1, h2⟩

theorem grpLoop_spec (S : Nat) :
    ∀ height base,
    (grpLoop height (base + 2 ^ (height + 1) - 1) S = (0, 0) ∧ S ≤ base + 1) ∨
    ∃ h2, h2 ≤ height ∧
      grpLoop height (base + 2 ^ (height + 1) - 1) S = (h2, base + 2 ^ (h2 + 1) - 1) ∧
      base + 2 ^ (h2 + 1) - 1 ≤ S - 1 ∧
      ((h2 < height ∧ S ≤ base + 2 ^ (h2 + 2) - 1) ∨
        (h2 = height ∧ base + 2 ^ (height + 1) - 1 ≤ S - 1)) := by
  intro height
  induction height with
  | zero =>
    intro base
    simp only [grpLoop]
    by_cases hc : base + 2 ^ (0 + 1) - 1 > S - 1
    · rw [if_pos hc]
      exact Or.inl ⟨rfl, by omega⟩
    · rw [if_neg hc]
      exact Or.inr ⟨0, le_refl _, rfl, by omega, Or.inr ⟨rfl, by omega⟩⟩
  | succ height ih =>
    intro base
    simp only [grpLoop]
    by_cases hc : base + 2 ^ (height + 1 + 1) - 1 > S - 1
    · rw [if_pos hc]
      have harith : base + 2 ^ (height + 1 + 1) - 1 - parent_offset height =
          base + 2 ^ (height + 1) - 1 := by
        rw [parent_offset_eq]
        have he : 2 ^ (height + 1 + 1) = 2 ^ (height + 1) * 2 := by rw [← Nat.pow_succ]
        have h2p : 2 ^ 1 ≤ 2 ^ (height + 1) := Nat.pow_le_pow_right (by omega) (by omega)
        omega
      rw [harith]
      rcases ih base with ⟨hs, hsb⟩ | ⟨h2, hle, heq, hb, hbud⟩
      · exact Or.inl ⟨hs, hsb⟩
      · refine Or.inr ⟨h2, by omega, heq, hb, Or.inl ⟨by omega, ?_⟩⟩
        rcases hbud with ⟨_, hbud⟩ | ⟨heq2, hin⟩
        · exact hbud
        · have hpe : 2 ^ (h2 + 2) = 2 ^ (height + 1 + 1) := by
            have h22 : h2 + 2 = height + 1 + 1 := by omega
            rw [h22]
          have h2p : 2 ^ 1 ≤ 2 ^ (height + 1 + 1) := Nat.pow_le_pow_right (by omega) (by omega)
          omega
    · rw [if_neg hc]
      exact Or.inr ⟨height + 1, le_refl _, rfl, by omega, Or.inr ⟨rfl, by omega⟩⟩

theorem get_right_peak_spec (h p S : Nat) :
    (get_right_peak h p S = (0, 0) ∧ S ≤ p + 1) ∨
    ∃ h2, h2 ≤ h ∧ get_right_peak h p S = (h2, p + 2 ^ (h2 + 1) - 1) ∧
      p + 2 ^ (h2 + 1) - 1 ≤ S - 1 ∧
      ((h2 < h ∧ S ≤ p + 2 ^ (h2 + 2) - 1) ∨ (h2 = h ∧ p + 2 ^ (h + 1) - 1 ≤ S - 1)) := by
  have harg : p + sibling_offset h = p + 2 ^ (h + 1) - 1 := by
    rw [sibling_offset_eq]
    have h2p : 2 ^ 1 ≤ 2 ^ (h + 1) := Nat.pow_le_pow_right (by omega) (by omega)
    omega
  unfold get_right_peak
  rw [harg]
  exact grpLoop_spec S h p

/-- From the last position of the mmr there is never a right peak. -/
theorem get_right_peak_from_last (h S : Nat) : get_right_peak h (S - 1) S = (0, 0) := by
  rcases get_right_peak_spec h (S - 1) S with ⟨hs, _⟩ | ⟨h2, _, _, hb, _⟩
  · exact hs
  · exfalso
    have h2p : 2 ^ 1 ≤ 2 ^ (h2 + 1) := Nat.pow_le_pow_right (by omega) (by omega)
    omega

theorem getPeaksAux_from_last (S : Nat) : ∀ fuel h, getPeaksAux S fuel h (S - 1) = [] := by
  intro fuel h
  cases fuel with
  | zero => rfl
  | succ fuel =>
    simp only [getPeaksAux]
    by_cases hh : h > 0
    · rw [if_pos hh]
      rw [get_right_peak_from_last h S]
      simp
    · rw [if_neg hh]

theorem getPeaksAux_height_zero (S : Nat) : ∀ fuel p, getPeaksAux S fuel 0 p = [] := by
  intro fuel p
  cases fuel with
  | zero => rfl
  | succ fuel => simp [getPeaksAux]

theorem getPeaksAux_length_le (S : Nat) :
    ∀ fuel h p, 1 ≤ h → S ≤ p + 2 ^ (h + 1) → (getPeaksAux S fuel h p).length ≤ h := by
  intro fuel
  induction fuel with
  | zero =>
    intro h p _ _
    simp [getPeaksAux]
  | succ fuel ih =>
    intro h p hh hbud
    simp only [getPeaksAux]
    rw [if_pos (by omega : h > 0)]
    rcases get_right_peak_spec h p S with ⟨hs, _⟩ | ⟨h2, hle, heq, hb, hcase⟩
    · rw [hs]
      simp
    · rw [heq]
      have hp2pos : 1 ≤ 2 ^ (h2 + 1) - 1 := by
        have h2p : 2 ^ 1 ≤ 2 ^ (h2 + 1) := Nat.pow_le_pow_right (by omega) (by omega)
        omega
      have hne : ¬ ((h2, p + 2 ^ (h2 + 1) - 1).1 = 0 ∧ (h2, p + 2 ^ (h2 + 1) - 1).2 = 0) := by
        show ¬ (h2 = 0 ∧ p + 2 ^ (h2 + 1) - 1 = 0)
        rintro ⟨h20, hp0⟩
        omega
      rw [if_neg hne]
      dsimp only
      simp only [List.length_cons]
      rcases hcase with ⟨hstrict, hbud2⟩ | ⟨heq2, hin⟩
      · rcases Nat.eq_zero_or_pos h2 with h20 | h2pos
        · rw [h20, getPeaksAux_height_zero]
          simp only [List.length_nil]
          omega
        · have hrec := ih h2 (p + 2 ^ (h2 + 1) - 1) h2pos (by
            have he1 : 2 ^ (h2 + 2) = 2 ^ (h2 + 1) * 2 := by rw [← Nat.pow_succ]
            have h2p : 2 ^ 1 ≤ 2 ^ (h2 + 1) := Nat.pow_le_pow_right (by omega) (by omega)
            omega)
          omega
      · -- same-height right peak: it must sit at the last position, so nothing follows
        have he2 : 2 ^ (h2 + 1) = 2 ^ (h + 1) := by rw [heq2]
        have h2p : 2 ^ 1 ≤ 2 ^ (h + 1) := Nat.pow_le_pow_right (by omega) (by omega)
        have hlast : p + 2 ^ (h2 + 1) - 1 = S - 1 := by omega
        rw [hlast, getPeaksAux_from_last]
        simp only [List.length_nil]
        omega

/-- C5 counterexample: the peak count exceeds `left_peak_height_pos(S).height`
— the number of slots `mmr_get_root`, `mmr_gen_proof` and
`mmr_compute_proof_root` allocate for the peak buffer — already at the very
first mmr sizes: at `S = 1` and `S = 2` one peak is emitted while the
reported height is 0 (a zero-slot buffer), and at `S = 4` two peaks are
emitted against height 1. -/
theorem c5_counterexample :
    (¬ (get_peaks (left_peak_height_pos 1) 1).length ≤ (left_peak_height_pos 1).1) ∧
    (¬ (get_peaks (left_peak_height_pos 2) 2).length ≤ (left_peak_height_pos 2).1) ∧
    (¬ (get_peaks (left_peak_height_pos 4) 4).length ≤ (left_peak_height_pos 4).1) := by
  decide

/-- C5 (amended): for every `mmr_size S ≥ 1` the number of peaks emitted by
`get_peaks` is at most `⌈log2 S⌉ + 1`; the claim's other conjunct is false —
the count can exceed `left_peak_height_pos(S).height`, the size of the peak
buffer the source allocates, already at `S = 1` (see the counterexample). -/
theorem c5_peak_count_bound (S : Nat) (hS : 1 ≤ S) :
    (get_peaks (left_peak_height_pos S) S).length ≤ Nat.clog 2 S + 1 := by
  obtain ⟨H, heq, hlo, hhi⟩ := left_peak_height_pos_spec S hS
  rw [heq]
  unfold get_peaks
  simp only [List.length_cons]
  rcases Nat.eq_zero_or_pos H with rfl | hHpos
  · rw [getPeaksAux_height_zero]
    simp
  · have hbud : S ≤ left_peak_pos_by_height H + 2 ^ (H + 1) := by
      rw [left_peak_pos_by_height_eq] at hhi ⊢
      have he1 : 2 ^ (H + 1 + 1) = 2 ^ (H + 1) * 2 := by rw [← Nat.pow_succ]
      have h2p : 2 ^ 1 ≤ 2 ^ (H + 1) := Nat.pow_le_pow_right (by omega) (by omega)
      omega
    have hlen := getPeaksAux_length_le S (S + 1) H (left_peak_pos_by_height H) hHpos hbud
    have hHclog : H < Nat.clog 2 S := by
      rw [← Nat.pow_lt_iff_lt_clog (by omega)]
      rw [left_peak_pos_by_height_eq] at hlo
      have he1 : 2 ^ (H + 1) = 2 ^ H * 2 := by rw [← Nat.pow_succ]
      have h2p : 2 ^ 1 ≤ 2 ^ H := Nat.pow_le_pow_right (by omega) (by omega)
      omega
    omega

theorem c5_peak_count_bound_witness :
    1 ≤ 7 ∧
    (get_peaks (left_peak_height_pos 7) 7).length ≤ Nat.clog 2 7 + 1 :=
  ⟨by decide, c5_peak_count_bound 7 (by decide)⟩

/-- C7 counterexample: `mmr_get_root` also reports the error `-1` (modelled as
`none`) for a context of `mmr_size = 2`, not only at `mmr_size = 0`:
at size 2 the only enumerated peak is position 0, which `bag_rhs_peaks`
skips, so "no peaks to bag" is reported through the same `-1`. -/
theorem c7_counterexample :
    mmr_get_root (fun a b : Nat => a + b) ⟨2, fun _ => 0, 4⟩ = none ∧ (2 : Nat) ≠ 0 := by
  constructor
  · decide
  · decide

theorem bag_rhs_peaks_cons_some {D : Type} (merge : D → D → D) (buf : Nat → D)
    (skip p : Nat) (rest : List Nat) (hp : p > skip) :
    ∃ d, bag_rhs_peaks merge buf skip (p :: rest) = some d := by
  have hfil : List.filter (fun q => decide (q > skip)) (p :: rest) =
      p :: List.filter (fun q => decide (q > skip)) rest := by
    rw [List.filter_cons]
    simp [hp]
  simp only [bag_rhs_peaks]
  rw [hfil, List.map_cons]
  have hne : (buf p :: List.map buf (List.filter (fun q => decide (q > skip)) rest)).reverse
      ≠ [] := by simp
  obtain ⟨r, rest2, hrr⟩ := List.exists_cons_of_ne_nil hne
  rw [hrr]
  exact ⟨_, rfl⟩

/-- C7 (amended): `mmr_get_root` reports the error exactly when `mmr_size` is 0
or 2 (the latter is not a reachable mmr size); on a size-1 mmr it returns the
single stored digest unchanged. -/
theorem c7_root_contract {D : Type} (merge : D → D → D) (ctx : MMRContext D) :
    (mmr_get_root merge ctx = none ↔ ctx.mmr_size = 0 ∨ ctx.mmr_size = 2) ∧
    (ctx.mmr_size = 1 → mmr_get_root merge ctx = some (ctx.tree_buf 0)) := by
  rcases Nat.lt_or_ge ctx.mmr_size 3 with hlt3 | hge3
  · interval_cases hS : ctx.mmr_size
    · refine ⟨⟨fun _ => Or.inl rfl, fun _ => ?_⟩, fun h1 => by omega⟩
      rw [mmr_get_root, if_pos hS]
    · refine ⟨⟨fun hnone => ?_, fun hor => by omega⟩, fun _ => ?_⟩
      · rw [mmr_get_root, if_neg (by omega), if_pos hS] at hnone
        cases hnone
      · rw [mmr_get_root, if_neg (by omega), if_pos hS]
    · refine ⟨⟨fun _ => Or.inr rfl, fun _ => ?_⟩, fun h1 => by omega⟩
      rw [mmr_get_root, if_neg (by omega), if_neg (by omega), hS]
      show bag_rhs_peaks merge ctx.tree_buf 0 (get_peaks (left_peak_height_pos 2) 2) = none
      have hgp : get_peaks (left_peak_height_pos 2) 2 = [0] := by decide
      rw [hgp]
      rfl
  · -- mmr_size ≥ 3: the root is always produced
    obtain ⟨H, heq, hlo, hhi⟩ := left_peak_height_pos_spec ctx.mmr_size (by omega)
    have hHpos : 1 ≤ H := by
      by_contra hc
      have hH0 : H = 0 := by omega
      rw [hH0, left_peak_pos_by_height_eq] at hhi
      omega
    have hpos2 : 2 ≤ left_peak_pos_by_height H := by
      rw [left_peak_pos_by_height_eq]
      have h4 : 2 ^ 2 ≤ 2 ^ (H + 1) := Nat.pow_le_pow_right (by omega) (by omega)
      omega
    refine ⟨⟨fun hnone => ?_, fun hor => absurd hor (by rintro (h | h) <;> omega)⟩,
      fun h1 => absurd h1 (by omega)⟩
    exfalso
    rw [mmr_get_root, if_neg (by omega), if_neg (by omega), heq] at hnone
    have hnone2 : bag_rhs_peaks merge ctx.tree_buf 0
        (get_peaks (H, left_peak_pos_by_height H) ctx.mmr_size) = none := hnone
    simp only [get_peaks] at hnone2
    obtain ⟨d, hd⟩ := bag_rhs_peaks_cons_some merge ctx.tree_buf 0
      (H, left_peak_pos_by_height H).2
      (getPeaksAux ctx.mmr_size (ctx.mmr_size + 1) (H, left_peak_pos_by_height H).1
        (H, left_peak_pos_by_height H).2)
      (by show left_peak_pos_by_height H > 0; omega)
    rw [hd] at hnone2
    cases hnone2

theorem c7_root_contract_witness :
    mmr_get_root (fun a b : Nat => a + b)
        (⟨1, fun _ => 7, 3⟩ : MMRContext Nat) = some ((⟨1, fun _ => 7, 3⟩ : MMRContext Nat).tree_buf 0) :=
  (c7_root_contract (fun a b : Nat => a + b) ⟨1, fun _ => 7, 3⟩).2 rfl

/-! ### Basic facts about trees and forests -/

theorem PTree.flat_length {D : Type} (t : PTree D) : t.flat.length = t.sizeT := by
  induction t with
  | leaf d => rfl
  | node l r d ihl ihr =>
    simp only [PTree.flat, PTree.sizeT, List.length_append, List.length_cons,
      List.length_nil, ihl, ihr]

theorem sizeT_of_wf {D : Type} {merge : D → D → D} {t : PTree D} {H : Nat}
    (h : WfT merge t H) : t.sizeT = 2 ^ (H + 1) - 1 := by
  induction h with
  | leaf d => rfl
  | node hl hr ihl ihr =>
    rename_i l r hh
    simp only [PTree.sizeT, ihl, ihr]
    have h1 : 2 ^ 1 ≤ 2 ^ (hh + 1) := Nat.pow_le_pow_right (by omega) (by omega)
    have h2 : 2 ^ (hh + 1 + 1) = 2 ^ (hh + 1) * 2 := by rw [← Nat.pow_succ]
    omega

theorem flatF_append {D : Type} (A B : List (PTree D × Nat)) :
    flatF (A ++ B) = flatF A ++ flatF B := by
  induction A with
  | nil => rfl
  | cons t rest ih =>
    simp only [List.cons_append, flatF, List.append_assoc, List.append_eq]
    rw [ih]

theorem sizeF_append {D : Type} (A B : List (PTree D × Nat)) :
    sizeF (A ++ B) = sizeF A + sizeF B := by
  induction A with
  | nil =>
    simp only [List.nil_append, sizeF]
    omega
  | cons t rest ih =>
    simp only [List.cons_append, sizeF, List.append_eq, ih]
    omega

theorem leavesF_append {D : Type} (A B : List (PTree D × Nat)) :
    leavesF (A ++ B) = leavesF A + leavesF B := by
  induction A with
  | nil =>
    simp only [List.nil_append, leavesF]
    omega
  | cons t rest ih =>
    simp only [List.cons_append, leavesF, List.append_eq, ih]
    omega

theorem peakPosF_append {D : Type} (A B : List (PTree D × Nat)) (b : Nat) :
    peakPosF (A ++ B) b = peakPosF A b ++ peakPosF B (b + sizeF A) := by
  induction A generalizing b with
  | nil => simp only [List.nil_append, peakPosF, sizeF, Nat.add_zero]
  | cons t rest ih =>
    simp only [List.cons_append, peakPosF, List.append_eq, ih, sizeF]
    have harg : b + (2 ^ (t.2 + 1) - 1) + sizeF rest = b + ((2 ^ (t.2 + 1) - 1) + sizeF rest) := by
      omega
    rw [harg]

theorem flatF_length {D : Type} {merge : D → D → D} :
    ∀ {F : List (PTree D × Nat)}, WfF merge F → (flatF F).length = sizeF F := by
  intro F
  induction F with
  | nil => intro _; simp [flatF, sizeF]
  | cons t rest ih =>
    intro hwf
    obtain ⟨hwt, _, hrest⟩ := hwf
    simp only [flatF, sizeF, List.length_append, PTree.flat_length, ih hrest,
      sizeT_of_wf hwt]

theorem WfF_append {D : Type} {merge : D → D → D} :
    ∀ {A B : List (PTree D × Nat)}, WfF merge (A ++ B) ↔
      (WfF merge A ∧ WfF merge B ∧ ∀ b ∈ B, ∀ a ∈ A, b.2 < a.2) := by
  intro A
  induction A with
  | nil =>
    intro B
    simp [WfF]
  | cons t rest ih =>
    intro B
    simp only [List.cons_append, List.append_eq, WfF, ih]
    constructor
    · rintro ⟨hwt, hbelow, hA, hB, hcross⟩
      refine ⟨⟨hwt, ?_, hA⟩, hB, ?_⟩
      · intro x hx
        exact hbelow x (List.mem_append_left _ hx)
      · intro b hb a ha
        rcases List.mem_cons.mp ha with rfl | ha2
        · exact hbelow b (List.mem_append_right _ hb)
        · exact hcross b hb a ha2
    · rintro ⟨⟨hwt, hbelow, hA⟩, hB, hcross⟩
      refine ⟨hwt, ?_, hA, hB, ?_⟩
      · intro x hx
        rcases List.mem_append.mp hx with hx1 | hx2
        · exact hbelow x hx1
        · exact hcross x hx2 t (List.mem_cons_self _ _)
      · intro b hb a ha
        exact hcross b hb a (List.mem_cons_of_mem _ ha)

theorem leavesF_lt {D : Type} {merge : D → D → D} :
    ∀ (F : List (PTree D × Nat)), WfF merge F → ∀ H, (∀ x ∈ F, x.2 < H) →
      leavesF F ≤ 2 ^ H - 1 := by
  intro F
  induction F with
  | nil =>
    intro _ H _
    simp only [leavesF]
    have := Nat.one_le_two_pow (n := H)
    omega
  | cons t rest ih =>
    intro hwf H hlt
    obtain ⟨_, hbelow, hrest⟩ := hwf
    have hrest_le : leavesF rest ≤ 2 ^ t.2 - 1 := ih hrest t.2 hbelow
    have hth : t.2 + 1 ≤ H := by
      have := hlt t (List.mem_cons_self _ _)
      omega
    simp only [leavesF]
    have h1 : 2 ^ (t.2 + 1) = 2 ^ t.2 * 2 := by rw [← Nat.pow_succ]
    have h2 : 2 ^ (t.2 + 1) ≤ 2 ^ H := Nat.pow_le_pow_right (by omega) hth
    have h3 := Nat.one_le_two_pow (n := t.2)
    omega

theorem sizeF_bound {D : Type} {merge : D → D → D} :
    ∀ (F : List (PTree D × Nat)), WfF merge F → ∀ lo hi, lo ≤ hi →
      (∀ x ∈ F, lo ≤ x.2 ∧ x.2 < hi) →
      sizeF F + 2 ^ (lo + 1) ≤ 2 ^ (hi + 1) := by
  intro F
  induction F with
  | nil =>
    intro _ lo hi hlh _
    simp only [sizeF]
    have h1 : 2 ^ (lo + 1) ≤ 2 ^ (hi + 1) := Nat.pow_le_pow_right (by omega) (by omega)
    omega
  | cons t rest ih =>
    intro hwf lo hi hlh hbound
    obtain ⟨_, hbelow, hrest⟩ := hwf
    obtain ⟨hlo_t, hhi_t⟩ := hbound t (List.mem_cons_self _ _)
    have hih := ih hrest lo t.2 hlo_t (by
      intro x hx
      exact ⟨(hbound x (List.mem_cons_of_mem _ hx)).1, hbelow x hx⟩)
    simp only [sizeF]
    have h1 : 2 ^ (t.2 + 2) = 2 ^ (t.2 + 1) * 2 := by rw [← Nat.pow_succ]
    have h2 : 2 ^ (t.2 + 2) ≤ 2 ^ (hi + 1) := Nat.pow_le_pow_right (by omega) (by omega)
    have h3 := Nat.one_le_two_pow (n := t.2 + 1)
    omega

/-- Bound for a forest whose heights lie strictly below `H`:
its size is at most `2 ^ (H + 1) - 2`. -/
theorem sizeF_tail_le {D : Type} {merge : D → D → D} {F : List (PTree D × Nat)}
    (hwf : WfF merge F) {H : Nat} (hlt : ∀ x ∈ F, x.2 < H) :
    sizeF F ≤ 2 ^ (H + 1) - 2 := by
  have := sizeF_bound F hwf 0 H (by omega) (fun x hx => ⟨by omega, hlt x hx⟩)
  omega

theorem getD_flat_root {D : Type} (t : PTree D) (d0 : D) :
    t.flat.getD (t.sizeT - 1) d0 = t.rt := by
  induction t with
  | leaf d => rfl
  | node l r d ihl ihr =>
    simp only [PTree.flat, PTree.sizeT, PTree.rt]
    rw [List.append_assoc]
    rw [List.getD_append_right _ _ _ _ (by simp only [PTree.flat_length]; omega)]
    rw [List.getD_append_right _ _ _ _ (by simp only [PTree.flat_length]; omega)]
    rw [PTree.flat_length, PTree.flat_length]
    have : l.sizeT + r.sizeT + 1 - 1 - l.sizeT - r.sizeT = 0 := by omega
    rw [this]
    rfl

theorem LeafAt_range {D : Type} {t : PTree D} {b p : Nat} {d : D}
    (h : LeafAt t b p d) : b ≤ p ∧ p < b + t.sizeT := by
  induction h with
  | leaf d b =>
    simp only [PTree.sizeT]
    omega
  | inl hl ih =>
    simp only [PTree.sizeT]
    omega
  | inr hr ih =>
    simp only [PTree.sizeT]
    omega

theorem LeafAt_flat_value {D : Type} {t : PTree D} {b p : Nat} {d : D} (d0 : D)
    (h : LeafAt t b p d) : t.flat.getD (p - b) d0 = d := by
  induction h with
  | leaf d b =>
    simp only [PTree.flat, Nat.sub_self]
    rfl
  | inl hl ih =>
    rename_i l r dd b2 p2 d2
    simp only [PTree.flat]
    obtain ⟨hge, hlt⟩ := LeafAt_range hl
    rw [List.append_assoc, List.getD_append _ _ _ _ (by rw [PTree.flat_length]; omega)]
    exact ih
  | inr hr ih =>
    rename_i l r dd b2 p2 d2
    simp only [PTree.flat]
    obtain ⟨hge, hlt⟩ := LeafAt_range hr
    rw [List.append_assoc, List.getD_append_right _ _ _ _ (by rw [PTree.flat_length]; omega)]
    rw [PTree.flat_length]
    have : p2 - b2 - l.sizeT = p2 - (b2 + l.sizeT) := by omega
    rw [this]
    rw [List.getD_append _ _ _ _ (by rw [PTree.flat_length]; omega)]
    exact ih

theorem sizeF_reverse {D : Type} (F : List (PTree D × Nat)) :
    sizeF F.reverse = sizeF F := by
  induction F with
  | nil => rfl
  | cons t rest ih =>
    rw [List.reverse_cons, sizeF_append]
    simp only [sizeF]
    omega

theorem leavesF_reverse {D : Type} (F : List (PTree D × Nat)) :
    leavesF F.reverse = leavesF F := by
  induction F with
  | nil => rfl
  | cons t rest ih =>
    rw [List.reverse_cons, leavesF_append]
    simp only [leavesF]
    omega

theorem length_le_sizeF {D : Type} (F : List (PTree D × Nat)) :
    F.length ≤ sizeF F := by
  induction F with
  | nil => simp [sizeF]
  | cons t rest ih =>
    simp only [List.length_cons, sizeF]
    have := Nat.one_le_two_pow (n := t.2 + 1)
    have h2 : 2 ^ 1 ≤ 2 ^ (t.2 + 1) := Nat.pow_le_pow_right (by omega) (by omega)
    omega

theorem sizeF_le_two_leavesF {D : Type} (F : List (PTree D × Nat)) :
    sizeF F ≤ 2 * leavesF F := by
  induction F with
  | nil => simp [sizeF, leavesF]
  | cons t rest ih =>
    simp only [sizeF, leavesF]
    have h1 : 2 ^ (t.2 + 1) = 2 ^ t.2 * 2 := by rw [← Nat.pow_succ]
    omega

/-! ### Strip machinery: discarding complete trees on the left of a position -/

theorem jump_left_le (n : Nat) : jump_left n ≤ n := Nat.sub_le _ _

theorem jump_iter_le (k n : Nat) : jump_left^[k] n ≤ n := by
  induction k generalizing n with
  | zero => simp
  | succ k ih =>
    rw [Function.iterate_succ_apply]
    exact le_trans (ih (jump_left n)) (jump_left_le n)

/-- Any position's reported height is small enough that a complete tree of that
height fits below the position: `2^(hIdx r + 1) - 1 ≤ r`. -/
theorem hIdx_ge {r : Nat} (hr : 1 ≤ r) : 2 ^ (hIdx r + 1) - 1 ≤ r := by
  obtain ⟨k, _, hones, hval⟩ := jump_iter_reaches_all_ones r hr
  rw [is_all_one_bits_true_iff] at hones
  obtain ⟨hpos, heq⟩ := hones
  have hble : 1 ≤ bit_length (jump_left^[k] r) := by
    by_contra hc
    have h0 : bit_length (jump_left^[k] r) = 0 := by omega
    rw [h0] at heq
    simp at heq
    omega
  have hle := jump_iter_le k r
  have h1 : hIdx r + 1 = bit_length (jump_left^[k] r) := by omega
  rw [h1, ← heq]
  omega

theorem hIdx_pow {k : Nat} (hk : 1 ≤ k) : hIdx (2 ^ k) = 0 := by
  have hbl : bit_length (2 ^ k) = k + 1 :=
    bit_length_unique (le_refl _) (by rw [Nat.pow_succ]; have := Nat.one_le_two_pow (n := k); omega)
  have h2 : 2 ^ 1 ≤ 2 ^ k := Nat.pow_le_pow_right (by omega) hk
  have hones : is_all_one_bits (2 ^ k) = false := by
    cases hx : is_all_one_bits (2 ^ k) with
    | false => rfl
    | true =>
      exfalso
      rw [is_all_one_bits_true_iff] at hx
      obtain ⟨_, hx2⟩ := hx
      rw [hbl, Nat.pow_succ] at hx2
      omega
  have hjump : jump_left (2 ^ k) = 1 := by
    unfold jump_left
    rw [hbl]
    have hk1 : k + 1 - 1 = k := by omega
    rw [hk1]
    omega
  rw [hIdx_jump (by omega) hones, hjump, hIdx_one]

theorem Strip_zero (m : Nat) : Strip 0 m := by
  intro r _ _
  rw [Nat.zero_add]

theorem Strip_mono {b m m' : Nat} (h : Strip b m) (hle : m' ≤ m) : Strip b m' := by
  intro r h1 h2
  exact h r h1 (by omega)

/-- Stepping the strip over one complete tree of height `H`. -/
theorem Strip_tree {b H m : Nat} (h : Strip b (2 ^ (H + 1) - 1 + m))
    (hm : m ≤ 2 ^ (H + 1) - 1) : Strip (b + (2 ^ (H + 1) - 1)) m := by
  intro r h1 h2
  have hadd : b + (2 ^ (H + 1) - 1) + r = b + (2 ^ (H + 1) - 1 + r) := by omega
  rw [hadd, h (2 ^ (H + 1) - 1 + r) (by omega) (by omega)]
  exact hIdx_strip H r h1 (by omega)

/-- Stripping a well-formed forest whose heights are all at least `lo`:
positions of local index up to `m ≤ 2^(lo+1) - 1` past the forest keep their
local height. -/
theorem forest_strip {D : Type} {merge : D → D → D} :
    ∀ (F : List (PTree D × Nat)), WfF merge F → ∀ lo, (∀ x ∈ F, lo ≤ x.2) →
      ∀ m, m ≤ 2 ^ (lo + 1) - 1 → ∀ b, Strip b (sizeF F + m) →
      Strip (b + sizeF F) m := by
  intro F
  induction F with
  | nil =>
    intro _ lo _ m _ b h
    simpa [sizeF] using Strip_mono h (by simp [sizeF])
  | cons t rest ih =>
    intro hwf lo hlo m hm b h
    obtain ⟨_, hbelow, hrest⟩ := hwf
    have hlot : lo ≤ t.2 := hlo t (List.mem_cons_self _ _)
    have hrest_lo : ∀ x ∈ rest, lo ≤ x.2 := fun x hx => hlo x (List.mem_cons_of_mem _ hx)
    have hrest_size : sizeF rest + 2 ^ (lo + 1) ≤ 2 ^ (t.2 + 1) :=
      sizeF_bound rest hrest lo t.2 hlot (fun x hx => ⟨hrest_lo x hx, hbelow x hx⟩)
    have hsz : sizeF (t :: rest) = 2 ^ (t.2 + 1) - 1 + sizeF rest := by
      simp [sizeF]
    have h1 : Strip b (2 ^ (t.2 + 1) - 1 + (sizeF rest + m)) := by
      have harr : 2 ^ (t.2 + 1) - 1 + (sizeF rest + m) = sizeF (t :: rest) + m := by
        rw [hsz]; omega
      rw [harr]
      exact h
    have h2 : Strip (b + (2 ^ (t.2 + 1) - 1)) (sizeF rest + m) :=
      Strip_tree h1 (by have := Nat.one_le_two_pow (n := lo); omega)
    have h3 := ih hrest lo hrest_lo m hm (b + (2 ^ (t.2 + 1) - 1)) h2
    have harr2 : b + (2 ^ (t.2 + 1) - 1) + sizeF rest = b + sizeF (t :: rest) := by
      rw [hsz]; omega
    rw [harr2] at h3
    exact h3

/-- Strip at base 0, the form used for a forest that starts the buffer. -/
theorem forest_strip0 {D : Type} {merge : D → D → D} {F : List (PTree D × Nat)}
    (hwf : WfF merge F) {lo : Nat} (hlo : ∀ x ∈ F, lo ≤ x.2) {m : Nat}
    (hm : m ≤ 2 ^ (lo + 1) - 1) : Strip (sizeF F) m := by
  have h := forest_strip F hwf lo hlo m hm 0 (Strip_zero _)
  simpa using h

/-! ### The peak enumeration of a well-formed forest -/

theorem rootsF_cons {D : Type} (t : PTree D × Nat) (R : List (PTree D × Nat)) :
    rootsF (t :: R) = t.1.rt :: rootsF R := rfl

theorem peakPosF_bounds {D : Type} :
    ∀ (F : List (PTree D × Nat)) (b : Nat), ∀ x ∈ peakPosF F b, b ≤ x ∧ x < b + sizeF F := by
  intro F
  induction F with
  | nil =>
    intro b x hx
    simp [peakPosF] at hx
  | cons t rest ih =>
    intro b x hx
    have hs : 1 ≤ 2 ^ (t.2 + 1) := Nat.one_le_two_pow
    simp only [peakPosF, List.mem_cons] at hx
    rcases hx with rfl | hx
    · simp only [sizeF]
      omega
    · obtain ⟨h1, h2⟩ := ih (b + (2 ^ (t.2 + 1) - 1)) x hx
      simp only [sizeF]
      omega

theorem peakPosF_sorted {D : Type} :
    ∀ (F : List (PTree D × Nat)) (b : Nat), List.Pairwise (· < ·) (peakPosF F b) := by
  intro F
  induction F with
  | nil => intro b; simp [peakPosF]
  | cons t rest ih =>
    intro b
    simp only [peakPosF]
    refine List.Pairwise.cons ?_ (ih _)
    intro x hx
    obtain ⟨h1, _⟩ := peakPosF_bounds rest _ x hx
    have hs : 1 ≤ 2 ^ (t.2 + 1) := Nat.one_le_two_pow
    omega

theorem peakPosF_pos {D : Type} (t : PTree D × Nat) (rest : List (PTree D × Nat))
    (ht : 1 ≤ t.2) : ∀ x ∈ peakPosF (t :: rest) 0, 1 ≤ x := by
  intro x hx
  simp only [peakPosF, List.mem_cons] at hx
  have hs4 : 2 ^ 2 ≤ 2 ^ (t.2 + 1) := Nat.pow_le_pow_right (by omega) (by omega)
  rcases hx with rfl | hx
  · omega
  · obtain ⟨h1, _⟩ := peakPosF_bounds rest _ x hx
    omega

/-- The `left_peak_height_pos` search lands exactly on the first (tallest) tree
of a well-formed forest. -/
theorem left_peak_forest {D : Type} {merge : D → D → D} {t : PTree D × Nat}
    {rest : List (PTree D × Nat)} (hwf : WfF merge (t :: rest)) :
    left_peak_height_pos (sizeF (t :: rest)) = (t.2, left_peak_pos_by_height t.2) := by
  obtain ⟨hwt, hbelow, hrest⟩ := hwf
  have hrest_le : sizeF rest ≤ 2 ^ (t.2 + 1) - 2 := sizeF_tail_le hrest hbelow
  have hs2 : 2 ^ 1 ≤ 2 ^ (t.2 + 1) := Nat.pow_le_pow_right (by omega) (by omega)
  have hS : sizeF (t :: rest) = 2 ^ (t.2 + 1) - 1 + sizeF rest := by simp [sizeF]
  obtain ⟨H, heq, hlo, hhi⟩ := left_peak_height_pos_spec (sizeF (t :: rest)) (by omega)
  have hHt : H = t.2 := by
    by_contra hne
    rcases Nat.lt_or_ge H t.2 with hlt | hge
    · rw [left_peak_pos_by_height_eq] at hhi
      have hp : 2 ^ (H + 1 + 1) ≤ 2 ^ (t.2 + 1) := Nat.pow_le_pow_right (by omega) (by omega)
      omega
    · have hgt : t.2 < H := by omega
      rw [left_peak_pos_by_height_eq] at hlo
      have hp : 2 ^ (t.2 + 1 + 1) ≤ 2 ^ (H + 1) := Nat.pow_le_pow_right (by omega) (by omega)
      omega
  rw [heq, hHt]

/-- The emission loop of `get_peaks` walks exactly over the remaining trees of
the forest, reporting each tree's root position. -/
theorem getPeaksAux_forest {D : Type} {merge : D → D → D} (S : Nat) :
    ∀ (rest : List (PTree D × Nat)), WfF merge rest → ∀ fuel h p,
      (∀ x ∈ rest, x.2 < h) → S = p + 1 + sizeF rest → S - p ≤ fuel →
      getPeaksAux S fuel h p = peakPosF rest (p + 1) := by
  intro rest
  induction rest with
  | nil =>
    intro _ fuel h p _ hS _
    have hp : p = S - 1 := by
      simp only [sizeF] at hS
      omega
    rw [hp, getPeaksAux_from_last]
    simp [peakPosF]
  | cons t' rest' ih =>
    intro hwf fuel h p hlt hS hfuel
    obtain ⟨hwt, hbelow, hrest⟩ := hwf
    have hh : 1 ≤ h := by
      have := hlt t' (List.mem_cons_self _ _)
      omega
    have hs2 : 2 ^ 1 ≤ 2 ^ (t'.2 + 1) := Nat.pow_le_pow_right (by omega) (by omega)
    have hszc : sizeF (t' :: rest') = 2 ^ (t'.2 + 1) - 1 + sizeF rest' := by simp [sizeF]
    obtain ⟨f, rfl⟩ : ∃ f, fuel = f + 1 := ⟨fuel - 1, by omega⟩
    simp only [getPeaksAux]
    rw [if_pos (by omega : h > 0)]
    rcases get_right_peak_spec h p S with ⟨_, hsb⟩ | ⟨h2, hle, heq, hb, hcase⟩
    · exfalso
      omega
    · have hrest'_le : sizeF rest' ≤ 2 ^ (t'.2 + 1) - 2 := sizeF_tail_le hrest hbelow
      have h2le : h2 ≤ t'.2 := by
        by_contra hc
        have hp2 : 2 ^ (t'.2 + 1 + 1) ≤ 2 ^ (h2 + 1) := Nat.pow_le_pow_right (by omega) (by omega)
        omega
      have h2eq : h2 = t'.2 := by
        rcases hcase with ⟨hstrict, hbud⟩ | ⟨heqh, _⟩
        · have hbud2 : S ≤ p + 2 ^ (h2 + 1 + 1) - 1 := hbud
          by_contra hc
          have hp2 : 2 ^ (h2 + 1 + 1) ≤ 2 ^ (t'.2 + 1) := Nat.pow_le_pow_right (by omega) (by omega)
          have hs3 : 2 ^ 1 ≤ 2 ^ (h2 + 1) := Nat.pow_le_pow_right (by omega) (by omega)
          omega
        · have := hlt t' (List.mem_cons_self _ _)
          omega
      subst h2eq
      rw [heq]
      have hne : ¬ ((t'.2, p + 2 ^ (t'.2 + 1) - 1).1 = 0 ∧ (t'.2, p + 2 ^ (t'.2 + 1) - 1).2 = 0) := by
        show ¬ (t'.2 = 0 ∧ p + 2 ^ (t'.2 + 1) - 1 = 0)
        rintro ⟨h20, hp0⟩
        omega
      rw [if_neg hne]
      dsimp only
      simp only [peakPosF]
      congr 1
      · omega
      · rw [ih hrest f t'.2 (p + 2 ^ (t'.2 + 1) - 1) hbelow (by omega) (by omega)]
        congr 1
        omega

/-- `get_peaks` on a nonempty well-formed forest enumerates exactly the root
positions of its trees, left to right. -/
theorem get_peaks_forest {D : Type} {merge : D → D → D} :
    ∀ (F : List (PTree D × Nat)), WfF merge F → F ≠ [] →
      get_peaks (left_peak_height_pos (sizeF F)) (sizeF F) = peakPosF F 0 := by
  intro F hwf hne
  match F, hne with
  | t :: rest, _ =>
    obtain ⟨hwt, hbelow, hrest⟩ := hwf
    have hs2 : 2 ^ 1 ≤ 2 ^ (t.2 + 1) := Nat.pow_le_pow_right (by omega) (by omega)
    have hszc : sizeF (t :: rest) = 2 ^ (t.2 + 1) - 1 + sizeF rest := by simp [sizeF]
    rw [left_peak_forest ⟨hwt, hbelow, hrest⟩]
    show left_peak_pos_by_height t.2 ::
        getPeaksAux (sizeF (t :: rest)) (sizeF (t :: rest) + 1) t.2
          (left_peak_pos_by_height t.2) = peakPosF (t :: rest) 0
    rw [getPeaksAux_forest (sizeF (t :: rest)) rest hrest (sizeF (t :: rest) + 1) t.2
      (left_peak_pos_by_height t.2) hbelow
      (by rw [left_peak_pos_by_height_eq]; omega) (by omega)]
    simp only [peakPosF]
    rw [left_peak_pos_by_height_eq]
    congr 1
    · omega
    · congr 1
      omega

/-- The buffer digests at the peak positions are the tree roots. -/
theorem map_buf_peakPosF {D : Type} [Inhabited D] {merge : D → D → D} {buf : Nat → D} :
    ∀ (R A : List (PTree D × Nat)), WfF merge (A ++ R) →
      bufMatches buf (flatF (A ++ R)) →
      (peakPosF R (sizeF A)).map buf = rootsF R := by
  intro R
  induction R with
  | nil =>
    intro A _ _
    simp [peakPosF, rootsF]
  | cons t R' ih =>
    intro A hwf hbuf
    obtain ⟨hwfA, hwfR, hcross⟩ := WfF_append.mp hwf
    obtain ⟨hwt, hbelow, hrest⟩ := hwfR
    have hst : t.1.sizeT = 2 ^ (t.2 + 1) - 1 := sizeT_of_wf hwt
    have hs2 : 2 ^ 1 ≤ 2 ^ (t.2 + 1) := Nat.pow_le_pow_right (by omega) (by omega)
    simp only [peakPosF, List.map_cons, rootsF_cons]
    congr 1
    · have hb : buf (sizeF A + (2 ^ (t.2 + 1) - 1) - 1)
          = (flatF (A ++ t :: R')).getD (sizeF A + (2 ^ (t.2 + 1) - 1) - 1) default := by
        apply hbuf
        rw [flatF_length hwf, sizeF_append]
        simp only [sizeF]
        omega
      rw [hb, flatF_append]
      simp only [flatF]
      rw [List.getD_append_right _ _ _ _ (by rw [flatF_length hwfA]; omega)]
      rw [flatF_length hwfA]
      have hidx : sizeF A + (2 ^ (t.2 + 1) - 1) - 1 - sizeF A = 2 ^ (t.2 + 1) - 2 := by
        omega
      rw [hidx]
      rw [List.getD_append _ _ _ _ (by rw [PTree.flat_length, hst]; omega)]
      have h3 : (2 : Nat) ^ (t.2 + 1) - 2 = t.1.sizeT - 1 := by
        rw [hst]
        omega
      rw [h3]
      exact getD_flat_root t.1 default
    · have hassoc : A ++ t :: R' = (A ++ [t]) ++ R' := by simp
      rw [hassoc] at hwf hbuf
      have hih := ih (A ++ [t]) hwf hbuf
      have hsz1 : sizeF (A ++ [t]) = sizeF A + (2 ^ (t.2 + 1) - 1) := by
        rw [sizeF_append]
        simp [sizeF]
      rw [hsz1] at hih
      exact hih

/-! ### Correctness of binary_search on strictly sorted arrays -/

theorem bsAux_sound (arr : List Nat) (target : Nat) :
    ∀ fuel b e, b < e → e ≤ arr.length → 0 ≤ bsAux arr target fuel b e →
      target ∈ arr := by
  intro fuel
  induction fuel with
  | zero =>
    intro b e _ _ h
    simp only [bsAux] at h
    omega
  | succ fuel ih =>
    intro b e hbe hel h
    simp only [bsAux] at h
    by_cases hne : b + 1 ≠ e
    · rw [if_pos hne] at h
      by_cases h1 : arr.getD ((b + e) / 2) 0 < target
      · rw [if_pos h1] at h
        exact ih ((b + e) / 2) e (by omega) hel h
      · rw [if_neg h1] at h
        by_cases h2 : arr.getD ((b + e) / 2) 0 > target
        · rw [if_pos h2] at h
          exact ih b ((b + e) / 2) (by omega) (by omega) h
        · rw [if_neg h2] at h
          have heq : arr.getD ((b + e) / 2) 0 = target := by omega
          have hlt : (b + e) / 2 < arr.length := by omega
          rw [← heq, List.getD_eq_getElem arr 0 hlt]
          exact List.getElem_mem _
    · rw [if_neg hne] at h
      by_cases h1 : arr.getD b 0 = target
      · have hlt : b < arr.length := by omega
        rw [← h1, List.getD_eq_getElem arr 0 hlt]
        exact List.getElem_mem _
      · rw [if_neg h1] at h
        by_cases h2 : e < arr.length ∧ arr.getD e 0 = target
        · obtain ⟨h2a, h2b⟩ := h2
          rw [← h2b, List.getD_eq_getElem arr 0 h2a]
          exact List.getElem_mem _
        · rw [if_neg h2] at h
          omega

theorem bsAux_complete (arr : List Nat) (target : Nat)
    (hs : ∀ i j, i < j → j < arr.length → arr.getD i 0 < arr.getD j 0) :
    ∀ fuel b e j0, b < e → e ≤ arr.length → b ≤ j0 → j0 < e →
      arr.getD j0 0 = target → e - b + 1 ≤ fuel →
      0 ≤ bsAux arr target fuel b e := by
  intro fuel
  induction fuel with
  | zero =>
    intro b e j0 hbe _ _ _ _ hf
    omega
  | succ fuel ih =>
    intro b e j0 hbe hel hbj hje hj0 hf
    simp only [bsAux]
    by_cases hne : b + 1 ≠ e
    · rw [if_pos hne]
      by_cases h1 : arr.getD ((b + e) / 2) 0 < target
      · rw [if_pos h1]
        have hij : (b + e) / 2 < j0 := by
          rcases Nat.lt_or_ge j0 ((b + e) / 2) with hlt | hge
          · have := hs j0 ((b + e) / 2) hlt (by omega)
            omega
          · rcases Nat.eq_or_lt_of_le hge with hjeq | hlt2
            · rw [← hjeq] at hj0
              omega
            · omega
        exact ih ((b + e) / 2) e j0 (by omega) hel (by omega) hje hj0 (by omega)
      · rw [if_neg h1]
        by_cases h2 : arr.getD ((b + e) / 2) 0 > target
        · rw [if_pos h2]
          have hij : j0 < (b + e) / 2 := by
            rcases Nat.lt_or_ge j0 ((b + e) / 2) with hlt | hge
            · omega
            · rcases Nat.eq_or_lt_of_le hge with hjeq | hlt2
              · rw [← hjeq] at hj0
                omega
              · have := hs ((b + e) / 2) j0 hlt2 (by omega)
                omega
          exact ih b ((b + e) / 2) j0 (by omega) (by omega) hbj hij hj0 (by omega)
        · rw [if_neg h2]
          omega
    · rw [if_neg hne]
      have hj0b : j0 = b := by omega
      rw [if_pos (by rw [← hj0b]; exact hj0)]
      omega

theorem binary_search_sound {arr : List Nat} {target : Nat}
    (h : 0 ≤ binary_search arr target) : target ∈ arr := by
  unfold binary_search at h
  by_cases h0 : arr.length = 0
  · rw [if_pos h0] at h
    exact absurd h (by omega)
  · rw [if_neg h0] at h
    exact bsAux_sound arr target (arr.length + 1) 0 arr.length (by omega) (le_refl _) h

theorem binary_search_neg {arr : List Nat} {target : Nat} (h : target ∉ arr) :
    binary_search arr target < 0 := by
  by_contra hc
  exact h (binary_search_sound (by omega))

theorem binary_search_pos {arr : List Nat} {target : Nat}
    (hs : ∀ i j, i < j → j < arr.length → arr.getD i 0 < arr.getD j 0)
    (h : target ∈ arr) : 0 ≤ binary_search arr target := by
  obtain ⟨j0, hj0l, hj0⟩ := List.mem_iff_getElem.mp h
  have hlen : ¬ arr.length = 0 := by omega
  unfold binary_search
  rw [if_neg hlen]
  refine bsAux_complete arr target hs (arr.length + 1) 0 arr.length j0 (by omega) (le_refl _)
    (by omega) hj0l ?_ (by omega)
  rw [List.getD_eq_getElem arr 0 hj0l]
  exact hj0

theorem pairwise_getD_lt {l : List Nat} (hp : List.Pairwise (· < ·) l) :
    ∀ i j, i < j → j < l.length → l.getD i 0 < l.getD j 0 := by
  intro i j hij hj
  rw [List.getD_eq_getElem l 0 (by omega), List.getD_eq_getElem l 0 hj]
  exact List.pairwise_iff_getElem.mp hp i j (by omega) hj hij

/-! ### The climbing loop of mmr_gen_proof -/

theorem genClimbAux_congr (S : Nat) :
    ∀ fuel1 fuel2 pos h, S + 1 ≤ fuel1 + pos → S + 1 ≤ fuel2 + pos →
      genClimbAux S fuel1 pos h = genClimbAux S fuel2 pos h := by
  intro fuel1
  induction fuel1 with
  | zero =>
    intro fuel2 pos h h1 h2
    cases fuel2 with
    | zero => rfl
    | succ f2 =>
      simp only [genClimbAux]
      rw [if_neg (by omega : ¬ pos < S)]
  | succ f1 ih =>
    intro fuel2 pos h h1 h2
    cases fuel2 with
    | zero =>
      simp only [genClimbAux]
      rw [if_neg (by omega : ¬ pos < S)]
    | succ f2 =>
      simp only [genClimbAux]
      by_cases hp : pos < S
      · rw [if_pos hp, if_pos hp]
        by_cases hdir : pos_height_in_tree pos < pos_height_in_tree (pos + 1)
        · simp only [if_pos hdir]
          by_cases hsib : pos - sibling_offset h > S - 1
          · rw [if_pos hsib, if_pos hsib]
          · rw [if_neg hsib, if_neg hsib]
            rw [ih f2 (pos + 1) (h + 1) (by omega) (by omega)]
        · simp only [if_neg hdir]
          by_cases hsib : pos + sibling_offset h > S - 1
          · rw [if_pos hsib, if_pos hsib]
          · rw [if_neg hsib, if_neg hsib]
            have hpo : 1 ≤ parent_offset h := by
              rw [parent_offset_eq]
              have := Nat.one_le_two_pow (n := h + 1)
              omega
            rw [ih f2 (pos + parent_offset h) (h + 1) (by omega) (by omega)]
      · rw [if_neg hp, if_neg hp]

/-- Climbing from any leaf of a well-formed tree collects exactly the sibling
positions along the path and arrives at the tree root with the tree height. -/
theorem climb_tree {D : Type} {merge : D → D → D} (S : Nat) :
    ∀ {t : PTree D} {H : Nat}, WfT merge t H → ∀ {b p : Nat} {d : D},
      Strip b (2 ^ (H + 1) - 1) → LeafAt t b p d → b + 2 ^ (H + 1) - 1 ≤ S →
      genClimbAux S (S + 1) p 0 =
        (sibsOf t b p ++ (genClimbAux S (S + 1) (b + 2 ^ (H + 1) - 2) H).1,
         (genClimbAux S (S + 1) (b + 2 ^ (H + 1) - 2) H).2) := by
  intro t H hwt
  induction hwt with
  | leaf d0 =>
    intro b p d _ hleaf _
    cases hleaf
    have harith : b + 2 ^ (0 + 1) - 2 = b := by norm_num
    rw [harith]
    show genClimbAux S (S + 1) b 0
        = ([] ++ (genClimbAux S (S + 1) b 0).1, (genClimbAux S (S + 1) b 0).2)
    rw [List.nil_append]
  | node hl hr ihl ihr =>
    rename_i l r hh
    intro b p d hstrip hleaf hin
    have hsl : l.sizeT = 2 ^ (hh + 1) - 1 := sizeT_of_wf hl
    have hsr : r.sizeT = 2 ^ (hh + 1) - 1 := sizeT_of_wf hr
    have hs2 : 2 ^ 1 ≤ 2 ^ (hh + 1) := Nat.pow_le_pow_right (by omega) (by omega)
    cases hleaf with
    | inl hpl =>
      obtain ⟨hpge, hplt⟩ := LeafAt_range hpl
      have hstrip_l : Strip b (2 ^ (hh + 1) - 1) := Strip_mono hstrip (by omega)
      have ihx := ihl hstrip_l hpl (by omega)
      have hph : pos_height_in_tree (b + 2 ^ (hh + 1) - 2) = hh := by
        unfold pos_height_in_tree
        have he : b + 2 ^ (hh + 1) - 2 + 1 = b + (2 ^ (hh + 1) - 1) := by omega
        rw [he, hstrip (2 ^ (hh + 1) - 1) (by omega) (by omega)]
        exact hIdx_all_ones hh
      have hnh : pos_height_in_tree (b + 2 ^ (hh + 1) - 2 + 1) = 0 := by
        unfold pos_height_in_tree
        have he : b + 2 ^ (hh + 1) - 2 + 1 + 1 = b + 2 ^ (hh + 1) := by omega
        rw [he, hstrip (2 ^ (hh + 1)) (by omega) (by omega)]
        exact hIdx_pow (by omega)
      have hg : genClimbAux S (S + 1) (b + 2 ^ (hh + 1) - 2) hh =
          ((b + (2 ^ (hh + 1) - 1) + (2 ^ (hh + 1) - 1) - 1) ::
            (genClimbAux S (S + 1) (b + 2 ^ (hh + 1 + 1) - 2) (hh + 1)).1,
           (genClimbAux S (S + 1) (b + 2 ^ (hh + 1 + 1) - 2) (hh + 1)).2) := by
        conv_lhs => rw [genClimbAux]
        rw [if_pos (show b + 2 ^ (hh + 1) - 2 < S from by omega)]
        rw [hph, hnh]
        simp only [if_neg (show ¬ (0 > hh) from by omega)]
        rw [if_neg (show ¬ b + 2 ^ (hh + 1) - 2 + sibling_offset hh > S - 1 from by
          rw [sibling_offset_eq]; omega)]
        have hnext : b + 2 ^ (hh + 1) - 2 + parent_offset hh = b + 2 ^ (hh + 1 + 1) - 2 := by
          rw [parent_offset_eq]; omega
        rw [hnext]
        rw [genClimbAux_congr S S (S + 1) (b + 2 ^ (hh + 1 + 1) - 2) (hh + 1)
          (by omega) (by omega)]
        have hsib0 : b + 2 ^ (hh + 1) - 2 + sibling_offset hh
            = b + (2 ^ (hh + 1) - 1) + (2 ^ (hh + 1) - 1) - 1 := by
          rw [sibling_offset_eq]; omega
        rw [hsib0]
      rw [ihx, hg]
      dsimp only
      simp only [sibsOf]
      rw [if_pos hplt]
      rw [hsl, hsr]
      rw [List.append_cons]
    | inr hpr =>
      rw [hsl] at hpr
      obtain ⟨hpge, hplt⟩ := LeafAt_range hpr
      have hstrip_r : Strip (b + (2 ^ (hh + 1) - 1)) (2 ^ (hh + 1) - 1) :=
        Strip_tree (Strip_mono hstrip (by omega)) (by omega)
      have ihx := ihr hstrip_r hpr (by omega)
      have hph : pos_height_in_tree (b + (2 ^ (hh + 1) - 1) + 2 ^ (hh + 1) - 2) = hh := by
        unfold pos_height_in_tree
        have he : b + (2 ^ (hh + 1) - 1) + 2 ^ (hh + 1) - 2 + 1
            = b + (2 ^ (hh + 1) - 1 + (2 ^ (hh + 1) - 1)) := by omega
        rw [he, hstrip (2 ^ (hh + 1) - 1 + (2 ^ (hh + 1) - 1)) (by omega) (by omega)]
        rw [hIdx_strip hh (2 ^ (hh + 1) - 1) (by omega) (by omega)]
        exact hIdx_all_ones hh
      have hnh : pos_height_in_tree (b + (2 ^ (hh + 1) - 1) + 2 ^ (hh + 1) - 2 + 1)
          = hh + 1 := by
        unfold pos_height_in_tree
        have he : b + (2 ^ (hh + 1) - 1) + 2 ^ (hh + 1) - 2 + 1 + 1
            = b + (2 ^ (hh + 1 + 1) - 1) := by omega
        rw [he, hstrip (2 ^ (hh + 1 + 1) - 1) (by omega) (by omega)]
        exact hIdx_all_ones (hh + 1)
      have hg : genClimbAux S (S + 1) (b + (2 ^ (hh + 1) - 1) + 2 ^ (hh + 1) - 2) hh =
          ((b + (2 ^ (hh + 1) - 1) - 1) ::
            (genClimbAux S (S + 1) (b + 2 ^ (hh + 1 + 1) - 2) (hh + 1)).1,
           (genClimbAux S (S + 1) (b + 2 ^ (hh + 1 + 1) - 2) (hh + 1)).2) := by
        conv_lhs => rw [genClimbAux]
        rw [if_pos (show b + (2 ^ (hh + 1) - 1) + 2 ^ (hh + 1) - 2 < S from by omega)]
        rw [hph, hnh]
        simp only [if_pos (show hh < hh + 1 from by omega)]
        rw [if_neg (show ¬ b + (2 ^ (hh + 1) - 1) + 2 ^ (hh + 1) - 2 - sibling_offset hh
            > S - 1 from by rw [sibling_offset_eq]; omega)]
        have hnext : b + (2 ^ (hh + 1) - 1) + 2 ^ (hh + 1) - 2 + 1
            = b + 2 ^ (hh + 1 + 1) - 2 := by omega
        rw [hnext]
        rw [genClimbAux_congr S S (S + 1) (b + 2 ^ (hh + 1 + 1) - 2) (hh + 1)
          (by omega) (by omega)]
        have hsib0 : b + (2 ^ (hh + 1) - 1) + 2 ^ (hh + 1) - 2 - sibling_offset hh
            = b + (2 ^ (hh + 1) - 1) - 1 := by
          rw [sibling_offset_eq]; omega
        rw [hsib0]
      rw [ihx, hg]
      dsimp only
      simp only [sibsOf]
      rw [if_neg (show ¬ p < b + l.sizeT from by rw [hsl]; omega)]
      rw [hsl]
      rw [List.append_cons]

/-- The climbing loop halts at the root of the peak's tree: the candidate
sibling position lies beyond the mmr. -/
theorem climb_peak {D : Type} {merge : D → D → D} {S : Nat}
    {A : List (PTree D × Nat)} {t : PTree D × Nat} {B : List (PTree D × Nat)}
    (hwf : WfF merge (A ++ t :: B)) (hS : S = sizeF (A ++ t :: B)) :
    genClimbAux S (S + 1) (sizeF A + 2 ^ (t.2 + 1) - 2) t.2 =
      ([], sizeF A + 2 ^ (t.2 + 1) - 2) := by
  obtain ⟨hwfA, hwfTB, hcross⟩ := WfF_append.mp hwf
  obtain ⟨hwt, hbelow, hB⟩ := hwfTB
  have hs2 : 2 ^ 1 ≤ 2 ^ (t.2 + 1) := Nat.pow_le_pow_right (by omega) (by omega)
  have hsB : sizeF B ≤ 2 ^ (t.2 + 1) - 2 := sizeF_tail_le hB hbelow
  have hSx : S = sizeF A + (2 ^ (t.2 + 1) - 1) + sizeF B := by
    rw [hS, sizeF_append]
    simp only [sizeF]
    omega
  have hstrip : Strip (sizeF A) (2 ^ (t.2 + 1)) :=
    @forest_strip0 D merge A hwfA (t.2 + 1)
      (fun a ha => by have := hcross t (List.mem_cons_self _ _) a ha; omega)
      (2 ^ (t.2 + 1)) (by omega)
  have hph : pos_height_in_tree (sizeF A + 2 ^ (t.2 + 1) - 2) = t.2 := by
    unfold pos_height_in_tree
    have he : sizeF A + 2 ^ (t.2 + 1) - 2 + 1 = sizeF A + (2 ^ (t.2 + 1) - 1) := by omega
    rw [he, hstrip (2 ^ (t.2 + 1) - 1) (by omega) (by omega)]
    exact hIdx_all_ones t.2
  have hnh : pos_height_in_tree (sizeF A + 2 ^ (t.2 + 1) - 2 + 1) = 0 := by
    unfold pos_height_in_tree
    have he : sizeF A + 2 ^ (t.2 + 1) - 2 + 1 + 1 = sizeF A + 2 ^ (t.2 + 1) := by omega
    rw [he, hstrip (2 ^ (t.2 + 1)) (by omega) (by omega)]
    exact hIdx_pow (by omega)
  simp only [genClimbAux]
  rw [if_pos (show sizeF A + 2 ^ (t.2 + 1) - 2 < S from by omega)]
  rw [hph, hnh]
  simp only [if_neg (show ¬ (0 > t.2) from by omega)]
  rw [if_pos (show sizeF A + 2 ^ (t.2 + 1) - 2 + sibling_offset t.2 > S - 1 from by
    rw [sibling_offset_eq]; omega)]

/-- Full characterization of the climbing phase for a leaf of the `j`-th tree:
exactly the tree-internal siblings are collected, and the final position is
that tree's root. -/
theorem climb_full {D : Type} {merge : D → D → D} {S : Nat}
    {A : List (PTree D × Nat)} {t : PTree D × Nat} {B : List (PTree D × Nat)}
    (hwf : WfF merge (A ++ t :: B)) (hS : S = sizeF (A ++ t :: B))
    {p : Nat} {d : D} (hleaf : LeafAt t.1 (sizeF A) p d) :
    genClimbAux S (S + 1) p 0 = (sibsOf t.1 (sizeF A) p, sizeF A + 2 ^ (t.2 + 1) - 2) := by
  obtain ⟨hwfA, hwfTB, hcross⟩ := WfF_append.mp hwf
  obtain ⟨hwt, hbelow, hB⟩ := hwfTB
  have hs2 : 2 ^ 1 ≤ 2 ^ (t.2 + 1) := Nat.pow_le_pow_right (by omega) (by omega)
  have hSx : S = sizeF A + (2 ^ (t.2 + 1) - 1) + sizeF B := by
    rw [hS, sizeF_append]
    simp only [sizeF]
    omega
  have hstrip : Strip (sizeF A) (2 ^ (t.2 + 1) - 1) :=
    @forest_strip0 D merge A hwfA (t.2 + 1)
      (fun a ha => by have := hcross t (List.mem_cons_self _ _) a ha; omega)
      (2 ^ (t.2 + 1) - 1) (by omega)
  rw [climb_tree S hwt hstrip hleaf (by omega), climb_peak hwf hS]
  simp

/-! ### The verifier: compute_peak_root rebuilds a peak from a leaf and its siblings -/

theorem sizeT_pos {D : Type} (t : PTree D) : 1 ≤ t.sizeT := by
  induction t with
  | leaf d => simp [PTree.sizeT]
  | node l r d ihl ihr =>
    simp only [PTree.sizeT]
    omega

theorem sibsOf_range {D : Type} :
    ∀ {t : PTree D} {b p : Nat} {d : D}, LeafAt t b p d →
      ∀ q ∈ sibsOf t b p, b ≤ q ∧ q < b + t.sizeT := by
  intro t b p d h
  induction h with
  | leaf d0 b0 =>
    intro q hq
    simp [sibsOf] at hq
  | inl hl ih =>
    rename_i l r dd b2 p2 d2
    obtain ⟨hge, hlt⟩ := LeafAt_range hl
    intro q hq
    simp only [sibsOf, if_pos hlt, List.mem_append, List.mem_singleton] at hq
    have hrpos := sizeT_pos r
    rcases hq with hq | rfl
    · obtain ⟨h1, h2⟩ := ih q hq
      simp only [PTree.sizeT]
      omega
    · simp only [PTree.sizeT]
      omega
  | inr hr ih =>
    rename_i l r dd b2 p2 d2
    obtain ⟨hge, hlt⟩ := LeafAt_range hr
    intro q hq
    have hnl : ¬ p2 < b2 + l.sizeT := by omega
    simp only [sibsOf, if_neg hnl, List.mem_append, List.mem_singleton] at hq
    have hlpos := sizeT_pos l
    rcases hq with hq | rfl
    · obtain ⟨h1, h2⟩ := ih q hq
      simp only [PTree.sizeT]
      omega
    · simp only [PTree.sizeT]
      omega

theorem map_getD_sibsOf {D : Type} (d0 : D) :
    ∀ {t : PTree D} {b p : Nat} {d : D}, LeafAt t b p d →
      (sibsOf t b p).map (fun q => t.flat.getD (q - b) d0) = proofD t b p := by
  intro t b p d h
  induction h with
  | leaf d1 b1 => rfl
  | inl hl ih =>
    rename_i l r dd b2 p2 d2
    obtain ⟨hge, hlt⟩ := LeafAt_range hl
    simp only [sibsOf, proofD, if_pos hlt]
    rw [List.map_append]
    congr 1
    · rw [← ih]
      apply List.map_congr_left
      intro q hq
      obtain ⟨hq1, hq2⟩ := sibsOf_range hl q hq
      simp only [PTree.flat]
      rw [List.append_assoc]
      rw [List.getD_append _ _ _ _ (by rw [PTree.flat_length]; omega)]
    · simp only [List.map_cons, List.map_nil, PTree.flat]
      have hrpos := sizeT_pos r
      rw [List.append_assoc]
      have hidx : b2 + l.sizeT + r.sizeT - 1 - b2 = l.sizeT + (r.sizeT - 1) := by omega
      rw [hidx]
      rw [List.getD_append_right _ _ _ _ (by rw [PTree.flat_length]; omega)]
      rw [PTree.flat_length]
      have hidx2 : l.sizeT + (r.sizeT - 1) - l.sizeT = r.sizeT - 1 := by omega
      rw [hidx2]
      rw [List.getD_append _ _ _ _ (by rw [PTree.flat_length]; omega)]
      rw [getD_flat_root]
  | inr hr ih =>
    rename_i l r dd b2 p2 d2
    obtain ⟨hge, hlt⟩ := LeafAt_range hr
    have hnl : ¬ p2 < b2 + l.sizeT := by omega
    simp only [sibsOf, proofD, if_neg hnl]
    rw [List.map_append]
    congr 1
    · rw [← ih]
      apply List.map_congr_left
      intro q hq
      obtain ⟨hq1, hq2⟩ := sibsOf_range hr q hq
      simp only [PTree.flat]
      rw [List.append_assoc]
      rw [List.getD_append_right _ _ _ _ (by rw [PTree.flat_length]; omega)]
      rw [PTree.flat_length]
      have hidx : q - b2 - l.sizeT = q - (b2 + l.sizeT) := by omega
      rw [hidx]
      rw [List.getD_append _ _ _ _ (by rw [PTree.flat_length]; omega)]
    · simp only [List.map_cons, List.map_nil, PTree.flat]
      have hlpos := sizeT_pos l
      rw [List.append_assoc]
      have hidx : b2 + l.sizeT - 1 - b2 = l.sizeT - 1 := by omega
      rw [hidx]
      rw [List.getD_append _ _ _ _ (by rw [PTree.flat_length]; omega)]
      rw [getD_flat_root]

theorem proofD_length {D : Type} {merge : D → D → D} :
    ∀ {t : PTree D} {H : Nat}, WfT merge t H → ∀ {b p : Nat} {d : D},
      LeafAt t b p d → (proofD t b p).length = H := by
  intro t H hwt
  induction hwt with
  | leaf d0 =>
    intro b p d h
    rfl
  | node hl hr ihl ihr =>
    rename_i l r hh
    intro b p d hleaf
    cases hleaf with
    | inl hpl =>
      obtain ⟨_, hlt⟩ := LeafAt_range hpl
      simp only [proofD, if_pos hlt, List.length_append, List.length_cons, List.length_nil,
        ihl hpl]
    | inr hpr =>
      obtain ⟨hge, _⟩ := LeafAt_range hpr
      have hnl : ¬ p < b + l.sizeT := by omega
      simp only [proofD, if_neg hnl, List.length_append, List.length_cons, List.length_nil,
        ihr hpr]

theorem map_buf_sibsOf {D : Type} [Inhabited D] {merge : D → D → D}
    {A : List (PTree D × Nat)} {t : PTree D × Nat} {B : List (PTree D × Nat)}
    (hwf : WfF merge (A ++ t :: B)) {buf : Nat → D}
    (hbuf : bufMatches buf (flatF (A ++ t :: B)))
    {p : Nat} {d : D} (hleaf : LeafAt t.1 (sizeF A) p d) :
    (sibsOf t.1 (sizeF A) p).map buf = proofD t.1 (sizeF A) p := by
  obtain ⟨hwfA, hwfTB, hcross⟩ := WfF_append.mp hwf
  obtain ⟨hwt, hbelow, hB⟩ := hwfTB
  rw [← map_getD_sibsOf default hleaf]
  apply List.map_congr_left
  intro q hq
  obtain ⟨hq1, hq2⟩ := sibsOf_range hleaf q hq
  have hlenA : (flatF A).length = sizeF A := flatF_length hwfA
  have hlen : (flatF (A ++ t :: B)).length = sizeF (A ++ t :: B) := flatF_length hwf
  have hsz : sizeF (A ++ t :: B) = sizeF A + ((2 ^ (t.2 + 1) - 1) + sizeF B) := by
    rw [sizeF_append]
    simp only [sizeF]
  have hst : t.1.sizeT = 2 ^ (t.2 + 1) - 1 := sizeT_of_wf hwt
  have hql : q < (flatF (A ++ t :: B)).length := by
    rw [hlen, hsz]
    omega
  rw [hbuf q hql]
  rw [flatF_append]
  simp only [flatF]
  rw [List.getD_append_right _ _ _ _ (by rw [hlenA]; omega)]
  rw [hlenA]
  rw [List.getD_append _ _ _ _ (by rw [PTree.flat_length]; omega)]

/-- `compute_peak_root` over the sibling digests of a leaf: it consumes
exactly the tree-internal items, rebuilds each internal digest, and continues
at the tree root with the tree height. -/
theorem cpr_tree {D : Type} {merge : D → D → D} (peaks : List Nat) :
    ∀ {t : PTree D} {H : Nat}, WfT merge t H → ∀ {b p : Nat} {d : D},
      Strip b (2 ^ (H + 1) - 1) → LeafAt t b p d →
      (∀ q, b ≤ q → q < b + 2 ^ (H + 1) - 2 → binary_search peaks q < 0) →
      ∀ ext : List D,
      compute_peak_root merge peaks d p 0 (proofD t b p ++ ext) =
        ((compute_peak_root merge peaks t.rt (b + 2 ^ (H + 1) - 2) H ext).1,
         (compute_peak_root merge peaks t.rt (b + 2 ^ (H + 1) - 2) H ext).2.1,
         (compute_peak_root merge peaks t.rt (b + 2 ^ (H + 1) - 2) H ext).2.2 + H) := by
  intro t H hwt
  induction hwt with
  | leaf d0 =>
    intro b p d _ hleaf _ ext
    cases hleaf
    have harith : b + 2 ^ (0 + 1) - 2 = b := by norm_num
    rw [harith]
    rfl
  | node hl hr ihl ihr =>
    rename_i l r hh
    intro b p d hstrip hleaf hpk ext
    have hsl : l.sizeT = 2 ^ (hh + 1) - 1 := sizeT_of_wf hl
    have hsr : r.sizeT = 2 ^ (hh + 1) - 1 := sizeT_of_wf hr
    have hs2 : 2 ^ 1 ≤ 2 ^ (hh + 1) := Nat.pow_le_pow_right (by omega) (by omega)
    cases hleaf with
    | inl hpl =>
      obtain ⟨hpge, hplt⟩ := LeafAt_range hpl
      have hstrip_l : Strip b (2 ^ (hh + 1) - 1) := Strip_mono hstrip (by omega)
      have hpk_l : ∀ q, b ≤ q → q < b + 2 ^ (hh + 1) - 2 → binary_search peaks q < 0 :=
        fun q h1 h2 => hpk q h1 (by omega)
      have hph : pos_height_in_tree (b + 2 ^ (hh + 1) - 2) = hh := by
        unfold pos_height_in_tree
        have he : b + 2 ^ (hh + 1) - 2 + 1 = b + (2 ^ (hh + 1) - 1) := by omega
        rw [he, hstrip (2 ^ (hh + 1) - 1) (by omega) (by omega)]
        exact hIdx_all_ones hh
      have hnh : pos_height_in_tree (b + 2 ^ (hh + 1) - 2 + 1) = 0 := by
        unfold pos_height_in_tree
        have he : b + 2 ^ (hh + 1) - 2 + 1 + 1 = b + 2 ^ (hh + 1) := by omega
        rw [he, hstrip (2 ^ (hh + 1)) (by omega) (by omega)]
        exact hIdx_pow (by omega)
      have hsplit : proofD (PTree.node l r (merge l.rt r.rt)) b p ++ ext
          = proofD l b p ++ (r.rt :: ext) := by
        simp only [proofD, if_pos hplt, List.append_assoc, List.singleton_append]
      rw [hsplit]
      rw [ihl hstrip_l hpl hpk_l (r.rt :: ext)]
      have hstep : compute_peak_root merge peaks l.rt (b + 2 ^ (hh + 1) - 2) hh (r.rt :: ext)
          = ((compute_peak_root merge peaks (merge l.rt r.rt) (b + 2 ^ (hh + 1 + 1) - 2)
                (hh + 1) ext).1,
             (compute_peak_root merge peaks (merge l.rt r.rt) (b + 2 ^ (hh + 1 + 1) - 2)
                (hh + 1) ext).2.1,
             (compute_peak_root merge peaks (merge l.rt r.rt) (b + 2 ^ (hh + 1 + 1) - 2)
                (hh + 1) ext).2.2 + 1) := by
        conv_lhs => rw [compute_peak_root]
        rw [if_neg (show ¬ binary_search peaks (b + 2 ^ (hh + 1) - 2) ≥ 0 from by
          have := hpk (b + 2 ^ (hh + 1) - 2) (by omega) (by omega)
          omega)]
        dsimp only
        rw [hph, hnh]
        rw [if_neg (show ¬ (0 > hh) from by omega)]
        have hnext : b + 2 ^ (hh + 1) - 2 + parent_offset hh = b + 2 ^ (hh + 1 + 1) - 2 := by
          rw [parent_offset_eq]
          omega
        rw [hnext]
      rw [hstep]
      dsimp only
      simp only [PTree.rt]
      rw [show ∀ n : Nat, n + 1 + hh = n + (hh + 1) from fun n => by omega]
    | inr hpr =>
      rw [hsl] at hpr
      obtain ⟨hpge, hplt⟩ := LeafAt_range hpr
      have hstrip_r : Strip (b + (2 ^ (hh + 1) - 1)) (2 ^ (hh + 1) - 1) :=
        Strip_tree (Strip_mono hstrip (by omega)) (by omega)
      have hpk_r : ∀ q, b + (2 ^ (hh + 1) - 1) ≤ q →
          q < b + (2 ^ (hh + 1) - 1) + 2 ^ (hh + 1) - 2 → binary_search peaks q < 0 :=
        fun q h1 h2 => hpk q (by omega) (by omega)
      have hph : pos_height_in_tree (b + (2 ^ (hh + 1) - 1) + 2 ^ (hh + 1) - 2) = hh := by
        unfold pos_height_in_tree
        have he : b + (2 ^ (hh + 1) - 1) + 2 ^ (hh + 1) - 2 + 1
            = b + (2 ^ (hh + 1) - 1 + (2 ^ (hh + 1) - 1)) := by omega
        rw [he, hstrip (2 ^ (hh + 1) - 1 + (2 ^ (hh + 1) - 1)) (by omega) (by omega)]
        rw [hIdx_strip hh (2 ^ (hh + 1) - 1) (by omega) (by omega)]
        exact hIdx_all_ones hh
      have hnh : pos_height_in_tree (b + (2 ^ (hh + 1) - 1) + 2 ^ (hh + 1) - 2 + 1)
          = hh + 1 := by
        unfold pos_height_in_tree
        have he : b + (2 ^ (hh + 1) - 1) + 2 ^ (hh + 1) - 2 + 1 + 1
            = b + (2 ^ (hh + 1 + 1) - 1) := by omega
        rw [he, hstrip (2 ^ (hh + 1 + 1) - 1) (by omega) (by omega)]
        exact hIdx_all_ones (hh + 1)
      have hsplit : proofD (PTree.node l r (merge l.rt r.rt)) b p ++ ext
          = proofD r (b + (2 ^ (hh + 1) - 1)) p ++ (l.rt :: ext) := by
        simp only [proofD]
        rw [if_neg (show ¬ p < b + l.sizeT from by rw [hsl]; omega), hsl,
          List.append_assoc, List.singleton_append]
      rw [hsplit]
      rw [ihr hstrip_r hpr hpk_r (l.rt :: ext)]
      have hstep : compute_peak_root merge peaks r.rt
            (b + (2 ^ (hh + 1) - 1) + 2 ^ (hh + 1) - 2) hh (l.rt :: ext)
          = ((compute_peak_root merge peaks (merge l.rt r.rt) (b + 2 ^ (hh + 1 + 1) - 2)
                (hh + 1) ext).1,
             (compute_peak_root merge peaks (merge l.rt r.rt) (b + 2 ^ (hh + 1 + 1) - 2)
                (hh + 1) ext).2.1,
             (compute_peak_root merge peaks (merge l.rt r.rt) (b + 2 ^ (hh + 1 + 1) - 2)
                (hh + 1) ext).2.2 + 1) := by
        conv_lhs => rw [compute_peak_root]
        rw [if_neg (show ¬ binary_search peaks (b + (2 ^ (hh + 1) - 1) + 2 ^ (hh + 1) - 2)
            ≥ 0 from by
          have := hpk (b + (2 ^ (hh + 1) - 1) + 2 ^ (hh + 1) - 2) (by omega) (by omega)
          omega)]
        dsimp only
        rw [hph, hnh]
        rw [if_pos (show hh < hh + 1 from by omega)]
        have hnext : b + (2 ^ (hh + 1) - 1) + 2 ^ (hh + 1) - 2 + 1
            = b + 2 ^ (hh + 1 + 1) - 2 := by omega
        rw [hnext]
      rw [hstep]
      dsimp only
      simp only [PTree.rt]
      rw [show ∀ n : Nat, n + 1 + hh = n + (hh + 1) from fun n => by omega]

/-- The rebuilding loop stops as soon as it sits on a peak position. -/
theorem cpr_peak {D : Type} {merge : D → D → D} (peaks : List Nat) (acc : D)
    (pos h : Nat) (hbs : binary_search peaks pos ≥ 0) :
    ∀ ext : List D, compute_peak_root merge peaks acc pos h ext = (acc, pos, 0) := by
  intro ext
  cases ext with
  | nil => rfl
  | cons i rest =>
    conv_lhs => rw [compute_peak_root]
    rw [if_pos hbs]

theorem baggingLoop_left {D : Type} (merge : D → D → D) :
    ∀ (items : List D) (acc : D), baggingLoop merge acc true items = items.foldl merge acc := by
  intro items
  induction items with
  | nil =>
    intro acc
    rfl
  | cons i rest ih =>
    intro acc
    simp only [baggingLoop, List.foldl_cons, if_true]
    exact ih (merge acc i)

/-- Main verifier lemma: on the canonical proof layout (tree siblings, then
the bagged right peaks if any, then the left peaks right to left),
`mmr_compute_proof_root` returns the bagged root of the forest. -/
theorem verify_forest {D : Type} [Inhabited D] {merge : D → D → D}
    {A : List (PTree D × Nat)} {t : PTree D × Nat} {B : List (PTree D × Nat)}
    (hwf : WfF merge (A ++ t :: B)) {buf : Nat → D}
    (hbuf : bufMatches buf (flatF (A ++ t :: B)))
    {p : Nat} {d : D} (hleaf : LeafAt t.1 (sizeF A) p d) :
    (mmr_compute_proof_root merge (sizeF (A ++ t :: B)) d p
        ((sibsOf t.1 (sizeF A) p).map buf
          ++ ((if B.isEmpty then [] else [rootD merge B]) ++ (rootsF A).reverse))).1
      = rootD merge (A ++ t :: B) := by
  obtain ⟨hwfA, hwfTB, hcross⟩ := WfF_append.mp hwf
  obtain ⟨hwt, hbelow, hB⟩ := hwfTB
  have hs2 : 2 ^ 1 ≤ 2 ^ (t.2 + 1) := Nat.pow_le_pow_right (by omega) (by omega)
  have hSx : sizeF (A ++ t :: B) = sizeF A + (2 ^ (t.2 + 1) - 1) + sizeF B := by
    rw [sizeF_append]
    simp only [sizeF]
    omega
  have hpeaks := get_peaks_forest (A ++ t :: B) hwf (by simp)
  have hsorted := pairwise_getD_lt (peakPosF_sorted (A ++ t :: B) 0)
  have hsplitp : peakPosF (A ++ t :: B) 0 = peakPosF A 0 ++
      ((sizeF A + (2 ^ (t.2 + 1) - 1) - 1) ::
        peakPosF B (sizeF A + (2 ^ (t.2 + 1) - 1))) := by
    rw [peakPosF_append]
    simp only [Nat.zero_add, peakPosF]
  have hbs_int : ∀ q, sizeF A ≤ q → q < sizeF A + 2 ^ (t.2 + 1) - 2 →
      binary_search (peakPosF (A ++ t :: B) 0) q < 0 := by
    intro q hq1 hq2
    apply binary_search_neg
    intro hmem
    rw [hsplitp] at hmem
    rcases List.mem_append.mp hmem with hm | hm
    · obtain ⟨_, hub⟩ := peakPosF_bounds A 0 q hm
      omega
    · rcases List.mem_cons.mp hm with heq | hm2
      · omega
      · obtain ⟨hlb, _⟩ := peakPosF_bounds B _ q hm2
        omega
  have hbs_peak : binary_search (peakPosF (A ++ t :: B) 0)
      (sizeF A + 2 ^ (t.2 + 1) - 2) ≥ 0 := by
    apply binary_search_pos hsorted
    rw [hsplitp]
    refine List.mem_append_right _ ?_
    have harith : sizeF A + (2 ^ (t.2 + 1) - 1) - 1 = sizeF A + 2 ^ (t.2 + 1) - 2 := by omega
    rw [harith]
    exact List.mem_cons_self _ _
  have hstrip : Strip (sizeF A) (2 ^ (t.2 + 1) - 1) :=
    @forest_strip0 D merge A hwfA (t.2 + 1)
      (fun a ha => by have := hcross t (List.mem_cons_self _ _) a ha; omega)
      (2 ^ (t.2 + 1) - 1) (by omega)
  have hmap : (sibsOf t.1 (sizeF A) p).map buf = proofD t.1 (sizeF A) p :=
    map_buf_sibsOf hwf hbuf hleaf
  have hlen : (proofD t.1 (sizeF A) p).length = t.2 := proofD_length hwt hleaf
  simp only [mmr_compute_proof_root]
  rw [hpeaks, hmap]
  rw [cpr_tree (peakPosF (A ++ t :: B) 0) hwt hstrip hleaf hbs_int
    ((if B.isEmpty then [] else [rootD merge B]) ++ (rootsF A).reverse)]
  rw [cpr_peak _ _ _ _ hbs_peak]
  dsimp only
  have hdrop : (proofD t.1 (sizeF A) p ++
      ((if B.isEmpty then [] else [rootD merge B]) ++ (rootsF A).reverse)).drop (0 + t.2)
      = (if B.isEmpty then [] else [rootD merge B]) ++ (rootsF A).reverse := by
    rw [Nat.zero_add, ← hlen, List.drop_left]
  rw [hdrop]
  by_cases hBe : B.isEmpty = true
  · have hBnil : B = [] := by
      cases B with
      | nil => rfl
      | cons b0 B' => simp [List.isEmpty] at hBe
    subst hBnil
    rw [if_pos hBe]
    simp only [List.nil_append]
    have hs0 : sizeF ([] : List (PTree D × Nat)) = 0 := by simp [sizeF]
    have hflag : ((sizeF A + 2 ^ (t.2 + 1) - 2)
        == sizeF (A ++ t :: ([] : List (PTree D × Nat))) - 1) = true := by
      rw [beq_iff_eq]
      omega
    rw [hflag, baggingLoop_left]
    have hroots : rootsF (A ++ [t]) = rootsF A ++ [t.1.rt] := by
      simp [rootsF]
    unfold rootD
    rw [hroots, List.reverse_append]
    simp only [List.reverse_cons, List.reverse_nil, List.nil_append, List.singleton_append,
      List.headD_cons, List.tail_cons]
  · have hBne : B ≠ [] := by
      intro h
      rw [h] at hBe
      exact hBe rfl
    rw [if_neg hBe]
    have hrne : (rootsF B).reverse ≠ [] := by
      simp [rootsF, hBne]
    obtain ⟨rB, restB, hrB⟩ := List.exists_cons_of_ne_nil hrne
    have hBpos : 1 ≤ sizeF B := by
      match B, hBne with
      | b0 :: B', _ =>
        simp only [sizeF]
        have h2 : 2 ^ 1 ≤ 2 ^ (b0.2 + 1) := Nat.pow_le_pow_right (by omega) (by omega)
        omega
    have hflag : ((sizeF A + 2 ^ (t.2 + 1) - 2) == sizeF (A ++ t :: B) - 1) = false := by
      rw [beq_eq_false_iff_ne]
      omega
    rw [hflag]
    simp only [List.singleton_append]
    conv_lhs => rw [baggingLoop]
    rw [if_neg (show ¬ false = true from by simp)]
    rw [baggingLoop_left]
    have hrootDB : rootD merge B = restB.foldl merge rB := by
      unfold rootD
      rw [hrB]
      simp only [List.headD_cons, List.tail_cons]
    rw [hrootDB]
    have hroots : rootsF (A ++ t :: B) = rootsF A ++ t.1.rt :: rootsF B := by
      simp [rootsF]
    unfold rootD
    rw [hroots, List.reverse_append, List.reverse_cons, hrB]
    simp only [List.cons_append, List.headD_cons, List.tail_cons]
    rw [List.foldl_append, List.foldl_append]
    simp only [List.foldl_cons, List.foldl_nil]

/-! ### The proof generator and the root accessor on a well-formed forest -/

theorem filter_gt_all_le (k : Nat) : ∀ l : List Nat, (∀ x ∈ l, x ≤ k) →
    l.filter (fun q => q > k) = [] := by
  intro l
  induction l with
  | nil => intro _; rfl
  | cons a l ih =>
    intro h
    have ha := h a (List.mem_cons_self _ _)
    rw [List.filter_cons]
    rw [if_neg (show ¬ (decide (a > k) = true) from by
      simp only [decide_eq_true_eq]
      omega)]
    exact ih (fun x hx => h x (List.mem_cons_of_mem _ hx))

theorem filter_gt_all_gt (k : Nat) : ∀ l : List Nat, (∀ x ∈ l, k < x) →
    l.filter (fun q => q > k) = l := by
  intro l
  induction l with
  | nil => intro _; rfl
  | cons a l ih =>
    intro h
    have ha := h a (List.mem_cons_self _ _)
    rw [List.filter_cons]
    rw [if_pos (show decide (a > k) = true from by
      simp only [decide_eq_true_eq]
      omega)]
    rw [ih (fun x hx => h x (List.mem_cons_of_mem _ hx))]

theorem filter_lt_all_ge (k : Nat) : ∀ l : List Nat, (∀ x ∈ l, k ≤ x) →
    l.filter (fun q => q < k) = [] := by
  intro l
  induction l with
  | nil => intro _; rfl
  | cons a l ih =>
    intro h
    have ha := h a (List.mem_cons_self _ _)
    rw [List.filter_cons]
    rw [if_neg (show ¬ (decide (a < k) = true) from by
      simp only [decide_eq_true_eq]
      omega)]
    exact ih (fun x hx => h x (List.mem_cons_of_mem _ hx))

theorem filter_lt_all_lt (k : Nat) : ∀ l : List Nat, (∀ x ∈ l, x < k) →
    l.filter (fun q => q < k) = l := by
  intro l
  induction l with
  | nil => intro _; rfl
  | cons a l ih =>
    intro h
    have ha := h a (List.mem_cons_self _ _)
    rw [List.filter_cons]
    rw [if_pos (show decide (a < k) = true from by
      simp only [decide_eq_true_eq]
      omega)]
    rw [ih (fun x hx => h x (List.mem_cons_of_mem _ hx))]

theorem bufMatches_append_left {D : Type} [Inhabited D] {buf : Nat → D}
    {X Y : List D} (h : bufMatches buf (X ++ Y)) : bufMatches buf X := by
  intro p hp
  rw [h p (by rw [List.length_append]; omega), List.getD_append _ _ _ _ hp]

/-- `mmr_get_root` on a builder that realizes a nonempty well-formed forest
returns the bagged root. -/
theorem root_forest {D : Type} [Inhabited D] {merge : D → D → D} {ctx : MMRContext D}
    {F : List (PTree D × Nat)} (hinv : Inv merge ctx F) (hne : F ≠ []) :
    mmr_get_root merge ctx = some (rootD merge F) := by
  obtain ⟨hwf, hsz, hbuf⟩ := hinv
  match F, hne, hwf, hsz, hbuf with
  | t :: rest, _, hwf, hsz, hbuf =>
    obtain ⟨hwt, hbelow, hrest⟩ := hwf
    have hs2 : 2 ^ 1 ≤ 2 ^ (t.2 + 1) := Nat.pow_le_pow_right (by omega) (by omega)
    have hszc : sizeF (t :: rest) = 2 ^ (t.2 + 1) - 1 + sizeF rest := by simp [sizeF]
    rcases Nat.eq_or_lt_of_le (show 1 ≤ sizeF (t :: rest) from by omega) with h1 | h2
    · -- size one: single leaf
      have ht0 : t.2 = 0 := by
        by_contra hc
        have : 2 ^ 2 ≤ 2 ^ (t.2 + 1) := Nat.pow_le_pow_right (by omega) (by omega)
        omega
      have hrnil : rest = [] := by
        have hlen := length_le_sizeF rest
        have : sizeF rest = 0 := by omega
        cases rest with
        | nil => rfl
        | cons x xs => simp at hlen; omega
      subst hrnil
      have hst : t.1.sizeT = 1 := by
        rw [sizeT_of_wf hwt, ht0]
        norm_num
      rw [mmr_get_root, if_neg (by omega), if_pos (by omega : ctx.mmr_size = 1)]
      have hflen : (flatF [t]).length = 1 := by
        simp [flatF, PTree.flat_length, hst]
      have hval : ctx.tree_buf 0 = rootD merge [t] := by
        rw [hbuf 0 (by rw [hflen]; omega)]
        simp only [flatF]
        rw [List.getD_append _ _ _ _ (by rw [PTree.flat_length, hst]; omega)]
        rw [show (0 : Nat) = t.1.sizeT - 1 from by omega]
        rw [getD_flat_root]
        unfold rootD
        simp [rootsF]
      rw [hval]
    · -- size at least 2: all peaks are bagged
      have ht1 : 1 ≤ t.2 := by
        by_contra hc
        have ht0 : t.2 = 0 := by omega
        have hrnil : rest = [] := by
          cases rest with
          | nil => rfl
          | cons x xs =>
            have := hbelow x (List.mem_cons_self _ _)
            omega
        subst hrnil
        have hs0 : sizeF ([] : List (PTree D × Nat)) = 0 := by simp [sizeF]
        rw [ht0] at hszc
        norm_num [hs0] at hszc
        omega
      rw [mmr_get_root, if_neg (by omega), if_neg (by omega)]
      dsimp only
      rw [hsz]
      rw [get_peaks_forest (t :: rest) ⟨hwt, hbelow, hrest⟩ (by simp)]
      simp only [bag_rhs_peaks]
      rw [filter_gt_all_gt 0 _ (peakPosF_pos t rest ht1)]
      have hmapall : (peakPosF (t :: rest) 0).map ctx.tree_buf = rootsF (t :: rest) := by
        have h := map_buf_peakPosF (t :: rest) [] ⟨hwt, hbelow, hrest⟩ hbuf
        have hs0 : sizeF ([] : List (PTree D × Nat)) = 0 := by simp [sizeF]
        rwa [hs0] at h
      rw [hmapall]
      have hrne : (rootsF (t :: rest)).reverse ≠ [] := by simp [rootsF]
      obtain ⟨r0, rest0, hr0⟩ := List.exists_cons_of_ne_nil hrne
      rw [hr0]
      have hrd : rootD merge (t :: rest) = rest0.foldl merge r0 := by
        unfold rootD
        rw [hr0]
        simp only [List.headD_cons, List.tail_cons]
      rw [hrd]

/-- When `mmr_gen_proof` succeeds on a leaf of the `j`-th tree, the proof it
returns is exactly the canonical layout: sibling digests bottom-up, then the
bagged right peaks (if any), then the left peak digests right to left. -/
theorem gen_forest {D : Type} [Inhabited D] {merge : D → D → D} {ctx : MMRContext D}
    {A : List (PTree D × Nat)} {t : PTree D × Nat} {B : List (PTree D × Nat)}
    (hinv : Inv merge ctx (A ++ t :: B)) {p : Nat} {d : D}
    (hleaf : LeafAt t.1 (sizeF A) p d) (max : Nat) {proof : List D}
    (hsome : mmr_gen_proof merge ctx max p = some proof) :
    proof = (sibsOf t.1 (sizeF A) p).map ctx.tree_buf
      ++ ((if B.isEmpty then [] else [rootD merge B]) ++ (rootsF A).reverse) := by
  obtain ⟨hwf, hsz, hbuf⟩ := hinv
  obtain ⟨hwfA, hwfTB, hcross⟩ := WfF_append.mp hwf
  obtain ⟨hwt, hbelow, hB⟩ := hwfTB
  have hs2 : 2 ^ 1 ≤ 2 ^ (t.2 + 1) := Nat.pow_le_pow_right (by omega) (by omega)
  have hSx : sizeF (A ++ t :: B) = sizeF A + (2 ^ (t.2 + 1) - 1) + sizeF B := by
    rw [sizeF_append]
    simp only [sizeF]
    omega
  have hsplitp : peakPosF (A ++ t :: B) 0 = peakPosF A 0 ++
      ((sizeF A + (2 ^ (t.2 + 1) - 1) - 1) ::
        peakPosF B (sizeF A + (2 ^ (t.2 + 1) - 1))) := by
    rw [peakPosF_append]
    simp only [Nat.zero_add, peakPosF]
  have hclimb := climb_full hwf rfl hleaf
  simp only [mmr_gen_proof] at hsome
  rw [hsz, hclimb] at hsome
  dsimp only at hsome
  rw [get_peaks_forest (A ++ t :: B) hwf (by simp)] at hsome
  -- evaluate the bagged right peaks
  have hfilter1 : (peakPosF (A ++ t :: B) 0).filter
      (fun q => q > sizeF A + 2 ^ (t.2 + 1) - 2)
      = peakPosF B (sizeF A + (2 ^ (t.2 + 1) - 1)) := by
    rw [hsplitp, List.filter_append]
    rw [filter_gt_all_le _ _ (fun x hx => by
      obtain ⟨_, hub⟩ := peakPosF_bounds A 0 x hx
      omega)]
    rw [List.filter_cons_of_neg (by simpa using by omega)]
    rw [filter_gt_all_gt _ _ (fun x hx => by
      obtain ⟨hlb, _⟩ := peakPosF_bounds B _ x hx
      omega)]
    rw [List.nil_append]
  have hmapB : (peakPosF B (sizeF A + (2 ^ (t.2 + 1) - 1))).map ctx.tree_buf
      = rootsF B := by
    have hassoc : A ++ t :: B = (A ++ [t]) ++ B := by simp
    rw [hassoc] at hwf hbuf
    have h := map_buf_peakPosF B (A ++ [t]) hwf hbuf
    have hsz1 : sizeF (A ++ [t]) = sizeF A + (2 ^ (t.2 + 1) - 1) := by
      rw [sizeF_append]
      simp [sizeF]
    rwa [hsz1] at h
  have hbufA : bufMatches ctx.tree_buf (flatF A) := by
    have h := hbuf
    rw [flatF_append] at h
    exact bufMatches_append_left h
  have hmapA : (peakPosF A 0).map ctx.tree_buf = rootsF A := by
    have h := map_buf_peakPosF A [] hwfA hbufA
    have hs0 : sizeF ([] : List (PTree D × Nat)) = 0 := by simp [sizeF]
    rwa [hs0] at h
  -- evaluate the left peaks
  have hfilter2 : (peakPosF (A ++ t :: B) 0).reverse.filter
      (fun q => q < sizeF A + 2 ^ (t.2 + 1) - 2)
      = (peakPosF A 0).reverse := by
    rw [hsplitp, List.reverse_append, List.reverse_cons, List.filter_append,
      List.filter_append]
    rw [filter_lt_all_ge _ _ (fun x hx => by
      obtain ⟨hlb, _⟩ := peakPosF_bounds B _ x (List.mem_reverse.mp hx)
      omega)]
    rw [filter_lt_all_ge _ _ (fun x hx => by
      rcases List.mem_singleton.mp hx with rfl
      omega)]
    rw [filter_lt_all_lt _ _ (fun x hx => by
      obtain ⟨_, hub⟩ := peakPosF_bounds A 0 x (List.mem_reverse.mp hx)
      omega)]
    rw [List.nil_append, List.nil_append]
  rw [hfilter2] at hsome
  simp only [bag_rhs_peaks] at hsome
  rw [hfilter1, hmapB] at hsome
  rw [List.map_reverse, hmapA] at hsome
  by_cases hBe : B.isEmpty = true
  · have hBnil : B = [] := by
      cases B with
      | nil => rfl
      | cons b0 B' => simp [List.isEmpty] at hBe
    subst hBnil
    rw [if_pos hBe]
    have hre : (rootsF ([] : List (PTree D × Nat))).reverse = [] := by simp [rootsF]
    rw [hre] at hsome
    split at hsome
    · exact absurd hsome (by simp)
    · split at hsome
      · exact absurd hsome (by simp)
      · have h := Option.some.inj hsome
        rw [← h]
        simp
  · have hBne : B ≠ [] := by
      intro h
      rw [h] at hBe
      exact hBe rfl
    rw [if_neg hBe]
    have hrne : (rootsF B).reverse ≠ [] := by simp [rootsF, hBne]
    obtain ⟨rB, restB, hrB⟩ := List.exists_cons_of_ne_nil hrne
    rw [hrB] at hsome
    have hrootDB : rootD merge B = restB.foldl merge rB := by
      unfold rootD
      rw [hrB]
      simp only [List.headD_cons, List.tail_cons]
    rw [hrootDB]
    split at hsome
    · exact absurd hsome (by simp)
    · split at hsome
      · exact absurd hsome (by simp)
      · have h := Option.some.inj hsome
        rw [← h]
        simp

/-! ### The push simulation: mmr_push realizes the forest carry -/

theorem WfR_iff {D : Type} {merge : D → D → D} :
    ∀ G : List (PTree D × Nat), WfR merge G ↔ WfF merge G.reverse := by
  intro G
  induction G with
  | nil => simp [WfR, WfF]
  | cons t G' ih =>
    simp only [WfR, List.reverse_cons, WfF_append, ih]
    constructor
    · rintro ⟨hwt, hlt, hG⟩
      refine ⟨hG, ⟨hwt, by simp, trivial⟩, ?_⟩
      intro b hb a ha
      rcases List.mem_singleton.mp hb with rfl
      exact hlt a (List.mem_reverse.mp ha)
    · rintro ⟨hG, ⟨hwt, _, _⟩, hcross⟩
      refine ⟨hwt, ?_, hG⟩
      intro x hx
      exact hcross t (List.mem_singleton.mpr rfl) x (List.mem_reverse.mpr hx)

/-- Writing the next free slot extends the matched prefix by one digest. -/
theorem bufMatches_snoc {D : Type} [Inhabited D] {buf : Nat → D} {l : List D} {v : D}
    (h : bufMatches buf l) : bufMatches (writeBuf buf l.length v) (l ++ [v]) := by
  intro q hq
  rw [List.length_append, List.length_cons, List.length_nil] at hq
  unfold writeBuf
  by_cases hql : q = l.length
  · rw [if_pos hql, hql]
    rw [List.getD_append_right _ _ _ _ (le_refl _)]
    simp
  · rw [if_neg hql]
    rw [List.getD_append _ _ _ _ (by omega)]
    exact h q (by omega)

theorem carry_wfR {D : Type} (merge : D → D → D) :
    ∀ (G : List (PTree D × Nat)) (c : PTree D) (j : Nat), WfT merge c j → WfR merge G →
      (∀ x ∈ G, j ≤ x.2) → WfR merge (carryR merge (c, j) G) := by
  intro G
  induction G with
  | nil =>
    intro c j hwc _ _
    exact ⟨hwc, by simp, trivial⟩
  | cons t G' ih =>
    intro c j hwc hwr hge
    obtain ⟨hwt, hinc, hG'⟩ := hwr
    have hjt : j ≤ t.2 := hge t (List.mem_cons_self _ _)
    by_cases ht : t.2 = j
    · simp only [carryR]
      rw [if_pos (show t.2 = ((c : PTree D), j).2 from ht)]
      rw [ht] at hwt
      exact ih (PTree.node t.1 c (merge t.1.rt c.rt)) (j + 1) (WfT.node hwt hwc) hG'
        (fun x hx => by have := hinc x hx; omega)
    · simp only [carryR]
      rw [if_neg (show ¬ t.2 = ((c : PTree D), j).2 from ht)]
      refine ⟨hwc, ?_, hwt, hinc, hG'⟩
      intro x hx
      show j < x.2
      rcases List.mem_cons.mp hx with rfl | hx2
      · omega
      · have := hinc x hx2
        omega

theorem carry_size_ge {D : Type} (merge : D → D → D) :
    ∀ (G : List (PTree D × Nat)) (c : PTree D) (j : Nat),
      sizeF G + 2 ^ (j + 1) ≤ sizeF (carryR merge (c, j) G) + 1 := by
  intro G
  induction G with
  | nil =>
    intro c j
    have hs1 : sizeF [((c : PTree D), j)] = 2 ^ (j + 1) - 1 := by simp [sizeF]
    have hs0 : sizeF ([] : List (PTree D × Nat)) = 0 := by simp [sizeF]
    rw [show carryR merge ((c : PTree D), j) [] = [(c, j)] from rfl, hs1, hs0]
    have := Nat.one_le_two_pow (n := j + 1)
    omega
  | cons t G' ih =>
    intro c j
    have hszc : sizeF (t :: G') = 2 ^ (t.2 + 1) - 1 + sizeF G' := by simp [sizeF]
    by_cases ht : t.2 = j
    · simp only [carryR]
      rw [if_pos (show t.2 = ((c : PTree D), j).2 from ht)]
      have hih := ih (PTree.node t.1 c (merge t.1.rt c.rt)) (j + 1)
      rw [ht] at hszc
      have hp : 2 ^ (j + 1 + 1) = 2 ^ (j + 1) * 2 := by rw [← Nat.pow_succ]
      omega
    · simp only [carryR]
      rw [if_neg (show ¬ t.2 = ((c : PTree D), j).2 from ht)]
      have hs3 : sizeF (((c : PTree D), j) :: t :: G')
          = 2 ^ (j + 1) - 1 + sizeF (t :: G') := by
        simp [sizeF]
      rw [hs3]
      have := Nat.one_le_two_pow (n := j + 1)
      omega

theorem carry_leaves {D : Type} (merge : D → D → D) :
    ∀ (G : List (PTree D × Nat)) (c : PTree D) (j : Nat),
      leavesF (carryR merge (c, j) G) = leavesF G + 2 ^ j := by
  intro G
  induction G with
  | nil =>
    intro c j
    have hs1 : leavesF [((c : PTree D), j)] = 2 ^ j := by simp [leavesF]
    have hs0 : leavesF ([] : List (PTree D × Nat)) = 0 := by simp [leavesF]
    rw [show carryR merge ((c : PTree D), j) [] = [(c, j)] from rfl, hs1, hs0]
    omega
  | cons t G' ih =>
    intro c j
    have hszc : leavesF (t :: G') = 2 ^ t.2 + leavesF G' := by simp [leavesF]
    by_cases ht : t.2 = j
    · simp only [carryR]
      rw [if_pos (show t.2 = ((c : PTree D), j).2 from ht)]
      have hih := ih (PTree.node t.1 c (merge t.1.rt c.rt)) (j + 1)
      rw [ht] at hszc
      have hp : 2 ^ (j + 1) = 2 ^ j * 2 := by rw [← Nat.pow_succ]
      omega
    · simp only [carryR]
      rw [if_neg (show ¬ t.2 = ((c : PTree D), j).2 from ht)]
      have hs3 : leavesF (((c : PTree D), j) :: t :: G')
          = 2 ^ j + leavesF (t :: G') := by
        simp [leavesF]
      rw [hs3]
      omega

/-- The merge cascade of `mmr_push`, started with carry tree `c` (height `j`,
already stored after the remaining forest `G.reverse`): it either fails with
`-1` because the capacity cannot hold the carried forest, or terminates with
code 0 having materialized exactly `carryR merge (c, j) G`. -/
theorem pushLoop_main {D : Type} [Inhabited D] {merge : D → D → D} {cap : Nat} :
    ∀ (G : List (PTree D × Nat)) (fuel : Nat) (c : PTree D) (j : Nat) (buf : Nat → D),
      WfT merge c j → WfR merge G → (∀ x ∈ G, j ≤ x.2) →
      bufMatches buf (flatF G.reverse ++ c.flat) →
      G.length + 1 ≤ fuel →
      (cap < sizeF (carryR merge (c, j) G) ∧
        (pushLoop merge cap fuel buf (sizeF G + 2 ^ (j + 1) - 2) j).1 = -1) ∨
      (∃ buf2, pushLoop merge cap fuel buf (sizeF G + 2 ^ (j + 1) - 2) j
          = (0, buf2, sizeF (carryR merge (c, j) G) - 1) ∧
        bufMatches buf2 (flatF ((carryR merge (c, j) G).reverse))) := by
  intro G
  induction G with
  | nil =>
    intro fuel c j buf hwc _ _ hbuf hfuel
    obtain ⟨f, rfl⟩ : ∃ f, fuel = f + 1 := ⟨fuel - 1, by omega⟩
    have hs2 : 2 ^ 1 ≤ 2 ^ (j + 1) := Nat.pow_le_pow_right (by omega) (by omega)
    have hs0 : sizeF ([] : List (PTree D × Nat)) = 0 := by simp [sizeF]
    have hs1 : sizeF [((c : PTree D), j)] = 2 ^ (j + 1) - 1 := by simp [sizeF]
    have hcond : pos_height_in_tree (sizeF ([] : List (PTree D × Nat))
        + 2 ^ (j + 1) - 2 + 1) = 0 := by
      unfold pos_height_in_tree
      rw [hs0]
      have he : 0 + 2 ^ (j + 1) - 2 + 1 + 1 = 2 ^ (j + 1) := by omega
      rw [he]
      exact hIdx_pow (by omega)
    refine Or.inr ⟨buf, ?_, ?_⟩
    · conv_lhs => rw [pushLoop]
      rw [hcond]
      rw [if_neg (show ¬ (0 > j) from by omega)]
      rw [show carryR merge ((c : PTree D), j) [] = [(c, j)] from rfl]
      rw [hs0, hs1]
      rw [show (0 : Nat) + 2 ^ (j + 1) - 2 = 2 ^ (j + 1) - 1 - 1 from by omega]
    · rw [show carryR merge ((c : PTree D), j) [] = [(c, j)] from rfl]
      have hfl : flatF (([((c : PTree D), j)]).reverse)
          = flatF (([] : List (PTree D × Nat)).reverse) ++ c.flat := by
        simp [flatF]
      rw [hfl]
      exact hbuf
  | cons t G' ih =>
    intro fuel c j buf hwc hwr hge hbuf hfuel
    obtain ⟨f, rfl⟩ : ∃ f, fuel = f + 1 := ⟨fuel - 1, by omega⟩
    obtain ⟨hwt, hinc, hG'⟩ := hwr
    have hjt : j ≤ t.2 := hge t (List.mem_cons_self _ _)
    have hs2 : 2 ^ 1 ≤ 2 ^ (j + 1) := Nat.pow_le_pow_right (by omega) (by omega)
    have hszc : sizeF (t :: G') = 2 ^ (t.2 + 1) - 1 + sizeF G' := by simp [sizeF]
    have hwfG' : WfF merge G'.reverse := (WfR_iff G').mp hG'
    have hfuel2 : G'.length + 1 ≤ f := by
      simp only [List.length_cons] at hfuel
      omega
    by_cases ht : t.2 = j
    · -- the carry merges with the rightmost remaining tree
      rw [ht] at hszc
      have hstrip : Strip (sizeF G'.reverse) (2 ^ (j + 1 + 1) - 1) :=
        @forest_strip0 D merge G'.reverse hwfG' (j + 1)
          (fun a ha => by
            have := hinc a (List.mem_reverse.mp ha)
            omega)
          (2 ^ (j + 1 + 1) - 1) (by omega)
      rw [sizeF_reverse] at hstrip
      have hcond : pos_height_in_tree (sizeF (t :: G') + 2 ^ (j + 1) - 2 + 1) = j + 1 := by
        unfold pos_height_in_tree
        have he : sizeF (t :: G') + 2 ^ (j + 1) - 2 + 1 + 1
            = sizeF G' + (2 ^ (j + 1 + 1) - 1) := by omega
        rw [he, hstrip (2 ^ (j + 1 + 1) - 1) (by omega) (by omega)]
        exact hIdx_all_ones (j + 1)
      have hcR : carryR merge ((c : PTree D), j) (t :: G')
          = carryR merge (PTree.node t.1 c (merge t.1.rt c.rt), j + 1) G' := by
        simp only [carryR]
        rw [if_pos (show t.2 = ((c : PTree D), j).2 from ht)]
      by_cases hcap : sizeF (t :: G') + 2 ^ (j + 1) - 2 + 1 ≥ cap
      · have hpl : pushLoop merge cap (f + 1) buf (sizeF (t :: G') + 2 ^ (j + 1) - 2) j
            = (-1, buf, sizeF (t :: G') + 2 ^ (j + 1) - 2 + 1) := by
          conv_lhs => rw [pushLoop]
          rw [hcond, if_pos (show j + 1 > j from by omega), if_pos hcap]
        rw [hpl, hcR]
        refine Or.inl ⟨?_, rfl⟩
        have hge2 := carry_size_ge merge G' (PTree.node t.1 c (merge t.1.rt c.rt)) (j + 1)
        omega
      · have hfl : flatF ((t :: G').reverse) = flatF G'.reverse ++ t.1.flat := by
          rw [List.reverse_cons, flatF_append]
          simp [flatF]
        have hlenG' : (flatF G'.reverse).length = sizeF G' := by
          rw [flatF_length hwfG', sizeF_reverse]
        have hst : t.1.sizeT = 2 ^ (j + 1) - 1 := by
          rw [sizeT_of_wf hwt, ht]
        have hsc : c.sizeT = 2 ^ (j + 1) - 1 := sizeT_of_wf hwc
        have hcontentlen : (flatF ((t :: G').reverse) ++ c.flat).length
            = sizeF (t :: G') + 2 ^ (j + 1) - 1 := by
          rw [List.length_append, hfl, List.length_append, hlenG',
            PTree.flat_length, PTree.flat_length, hst, hsc]
          omega
        have hleft : buf (sizeF (t :: G') + 2 ^ (j + 1) - 2 + 1 - parent_offset j)
            = t.1.rt := by
          have harg : sizeF (t :: G') + 2 ^ (j + 1) - 2 + 1 - parent_offset j
              = sizeF G' + 2 ^ (j + 1) - 2 := by
            rw [parent_offset_eq]
            omega
          rw [harg]
          rw [hbuf _ (by rw [hcontentlen]; omega)]
          rw [hfl, List.append_assoc]
          rw [List.getD_append_right _ _ _ _ (by rw [hlenG']; omega)]
          rw [hlenG']
          rw [List.getD_append _ _ _ _ (by rw [PTree.flat_length, hst]; omega)]
          rw [show sizeF G' + 2 ^ (j + 1) - 2 - sizeF G' = t.1.sizeT - 1 from by
            rw [hst]; omega]
          exact getD_flat_root t.1 default
        have hright : buf (sizeF (t :: G') + 2 ^ (j + 1) - 2 + 1 - parent_offset j
            + sibling_offset j) = c.rt := by
          have harg : sizeF (t :: G') + 2 ^ (j + 1) - 2 + 1 - parent_offset j
              + sibling_offset j = sizeF (t :: G') + 2 ^ (j + 1) - 2 := by
            rw [parent_offset_eq, sibling_offset_eq]
            omega
          rw [harg]
          rw [hbuf _ (by rw [hcontentlen]; omega)]
          rw [List.getD_append_right _ _ _ _ (by
            rw [hfl, List.length_append, hlenG', PTree.flat_length, hst]
            omega)]
          rw [hfl, List.length_append, hlenG', PTree.flat_length, hst]
          rw [show sizeF (t :: G') + 2 ^ (j + 1) - 2 - (sizeF G' + (2 ^ (j + 1) - 1))
              = c.sizeT - 1 from by rw [hsc]; omega]
          exact getD_flat_root c default
        have hbuf2 : bufMatches
            (writeBuf buf (sizeF (t :: G') + 2 ^ (j + 1) - 2 + 1)
              (merge (buf (sizeF (t :: G') + 2 ^ (j + 1) - 2 + 1 - parent_offset j))
                (buf (sizeF (t :: G') + 2 ^ (j + 1) - 2 + 1 - parent_offset j
                  + sibling_offset j))))
            (flatF G'.reverse ++ (PTree.node t.1 c (merge t.1.rt c.rt)).flat) := by
          rw [hleft, hright]
          have hlist : flatF G'.reverse ++ (PTree.node t.1 c (merge t.1.rt c.rt)).flat
              = (flatF ((t :: G').reverse) ++ c.flat) ++ [merge t.1.rt c.rt] := by
            rw [hfl]
            simp only [PTree.flat]
            simp [List.append_assoc]
          rw [hlist]
          have hpos : sizeF (t :: G') + 2 ^ (j + 1) - 2 + 1
              = (flatF ((t :: G').reverse) ++ c.flat).length := by
            rw [hcontentlen]
            omega
          rw [hpos]
          exact bufMatches_snoc hbuf
        have hwc' : WfT merge (PTree.node t.1 c (merge t.1.rt c.rt)) (j + 1) := by
          rw [ht] at hwt
          exact WfT.node hwt hwc
        have hge' : ∀ x ∈ G', j + 1 ≤ x.2 := fun x hx => by
          have := hinc x hx
          omega
        have hrec := ih f (PTree.node t.1 c (merge t.1.rt c.rt)) (j + 1)
          (writeBuf buf (sizeF (t :: G') + 2 ^ (j + 1) - 2 + 1)
            (merge (buf (sizeF (t :: G') + 2 ^ (j + 1) - 2 + 1 - parent_offset j))
              (buf (sizeF (t :: G') + 2 ^ (j + 1) - 2 + 1 - parent_offset j
                + sibling_offset j))))
          hwc' hG' hge' hbuf2 hfuel2
        have hpl : pushLoop merge cap (f + 1) buf (sizeF (t :: G') + 2 ^ (j + 1) - 2) j
            = pushLoop merge cap f
                (writeBuf buf (sizeF (t :: G') + 2 ^ (j + 1) - 2 + 1)
                  (merge (buf (sizeF (t :: G') + 2 ^ (j + 1) - 2 + 1 - parent_offset j))
                    (buf (sizeF (t :: G') + 2 ^ (j + 1) - 2 + 1 - parent_offset j
                      + sibling_offset j))))
                (sizeF (t :: G') + 2 ^ (j + 1) - 2 + 1) (j + 1) := by
          conv_lhs => rw [pushLoop]
          rw [hcond, if_pos (show j + 1 > j from by omega), if_neg hcap]
        have hposeq : sizeF (t :: G') + 2 ^ (j + 1) - 2 + 1
            = sizeF G' + 2 ^ (j + 1 + 1) - 2 := by omega
        rw [← hposeq] at hrec
        rw [hpl, hcR]
        exact hrec
    · -- the carry does not merge: the loop exits at once
      have hwfT : WfF merge ((t :: G').reverse) :=
        (WfR_iff (t :: G')).mp ⟨hwt, hinc, hG'⟩
      have hstrip : Strip (sizeF ((t :: G').reverse)) (2 ^ (j + 1)) :=
        @forest_strip0 D merge (t :: G').reverse hwfT (j + 1)
          (fun a ha => by
            rcases List.mem_cons.mp (List.mem_reverse.mp ha) with rfl | ha2
            · omega
            · have := hinc a ha2
              omega)
          (2 ^ (j + 1)) (by omega)
      rw [sizeF_reverse] at hstrip
      have hcond : pos_height_in_tree (sizeF (t :: G') + 2 ^ (j + 1) - 2 + 1) = 0 := by
        unfold pos_height_in_tree
        have he : sizeF (t :: G') + 2 ^ (j + 1) - 2 + 1 + 1
            = sizeF (t :: G') + 2 ^ (j + 1) := by omega
        rw [he, hstrip (2 ^ (j + 1)) (by omega) (by omega)]
        exact hIdx_pow (by omega)
      have hpl : pushLoop merge cap (f + 1) buf (sizeF (t :: G') + 2 ^ (j + 1) - 2) j
          = (0, buf, sizeF (t :: G') + 2 ^ (j + 1) - 2) := by
        conv_lhs => rw [pushLoop]
        rw [hcond]
        rw [if_neg (show ¬ (0 > j) from by omega)]
      have hcR : carryR merge ((c : PTree D), j) (t :: G') = (c, j) :: t :: G' := by
        simp only [carryR]
        rw [if_neg (show ¬ t.2 = ((c : PTree D), j).2 from ht)]
      have hsz3 : sizeF (((c : PTree D), j) :: t :: G')
          = 2 ^ (j + 1) - 1 + sizeF (t :: G') := by
        simp [sizeF]
      refine Or.inr ⟨buf, ?_, ?_⟩
      · rw [hpl, hcR]
        rw [show sizeF (((c : PTree D), j) :: t :: G') - 1
            = sizeF (t :: G') + 2 ^ (j + 1) - 2 from by rw [hsz3]; omega]
      · rw [hcR]
        have hfl2 : flatF ((((c : PTree D), j) :: t :: G').reverse)
            = flatF ((t :: G').reverse) ++ c.flat := by
          rw [List.reverse_cons, flatF_append]
          simp [flatF]
        rw [hfl2]
        exact hbuf

/-- Characterization of a single `mmr_push` against the forest model: it
fails (with `-1`) exactly into contexts whose capacity cannot hold the pushed
forest, and on success realizes `fpush`. -/
theorem mmr_push_char {D : Type} [Inhabited D] {merge : D → D → D} {ctx : MMRContext D}
    {F : List (PTree D × Nat)} (hinv : Inv merge ctx F) (l : D) :
    (ctx.tree_buf_size < sizeF (fpush merge F l) ∧ (mmr_push merge ctx l).1 = -1) ∨
    ((mmr_push merge ctx l).1 = 0 ∧ Inv merge (mmr_push merge ctx l).2 (fpush merge F l) ∧
      (mmr_push merge ctx l).2.tree_buf_size = ctx.tree_buf_size) := by
  obtain ⟨hwf, hsz, hbuf⟩ := hinv
  have hfp : sizeF (fpush merge F l) = sizeF (carryR merge (PTree.leaf l, 0) F.reverse) := by
    unfold fpush
    rw [sizeF_reverse]
  have hfpsize : sizeF F + 1 ≤ sizeF (fpush merge F l) := by
    have := carry_size_ge merge F.reverse (PTree.leaf l) 0
    rw [sizeF_reverse] at this
    rw [hfp]
    norm_num at this
    omega
  simp only [mmr_push]
  by_cases h0 : ctx.mmr_size ≥ ctx.tree_buf_size
  · rw [if_pos h0]
    exact Or.inl ⟨by omega, rfl⟩
  · rw [if_neg h0]
    have hbuf0 : bufMatches (writeBuf ctx.tree_buf ctx.mmr_size l)
        (flatF (F.reverse.reverse) ++ (PTree.leaf l).flat) := by
      rw [List.reverse_reverse]
      show bufMatches (writeBuf ctx.tree_buf ctx.mmr_size l) (flatF F ++ [l])
      have hlen := flatF_length hwf
      rw [hsz, ← hlen]
      exact bufMatches_snoc hbuf
    have hlenb : F.reverse.length + 1 ≤ ctx.tree_buf_size + 2 := by
      rw [List.length_reverse]
      have := length_le_sizeF F
      omega
    have hmain := @pushLoop_main D _ merge ctx.tree_buf_size F.reverse
      (ctx.tree_buf_size + 2) (PTree.leaf l) 0
      (writeBuf ctx.tree_buf ctx.mmr_size l) (WfT.leaf l)
      ((WfR_iff F.reverse).mpr (by rw [List.reverse_reverse]; exact hwf))
      (by simp) hbuf0 hlenb
    have hposeq : sizeF F.reverse + 2 ^ (0 + 1) - 2 = ctx.mmr_size := by
      rw [sizeF_reverse, hsz]
      norm_num
    rw [hposeq] at hmain
    rcases hmain with ⟨hlt, hm1⟩ | ⟨buf2, heq, hb2⟩
    · rw [if_neg (show ¬ (pushLoop merge ctx.tree_buf_size (ctx.tree_buf_size + 2)
          (writeBuf ctx.tree_buf ctx.mmr_size l) ctx.mmr_size 0).1 = 0 from by
        rw [hm1]
        decide)]
      refine Or.inl ⟨?_, rfl⟩
      rw [hfp]
      omega
    · rw [heq]
      rw [if_pos (show ((0 : Int), buf2,
          sizeF (carryR merge (PTree.leaf l, 0) F.reverse) - 1).1 = 0 from rfl)]
      refine Or.inr ⟨rfl, ⟨?_, ?_, ?_⟩, rfl⟩
      · -- well-formed
        have hwr := carry_wfR merge F.reverse (PTree.leaf l) 0 (WfT.leaf l)
          ((WfR_iff F.reverse).mpr (by rw [List.reverse_reverse]; exact hwf))
          (by simp)
        exact (WfR_iff _).mp hwr
      · -- size field
        show sizeF (carryR merge (PTree.leaf l, 0) F.reverse) - 1 + 1 = sizeF (fpush merge F l)
        rw [hfp]
        omega
      · -- buffer contents
        show bufMatches buf2 (flatF (fpush merge F l))
        exact hb2

theorem sizeF_foldl_fpush_mono {D : Type} (merge : D → D → D) :
    ∀ (L : List D) (F : List (PTree D × Nat)),
      sizeF F ≤ sizeF (L.foldl (fpush merge) F) := by
  intro L
  induction L with
  | nil =>
    intro F
    rw [List.foldl_nil]
  | cons x L' ih =>
    intro F
    rw [List.foldl_cons]
    have h1 : sizeF F ≤ sizeF (fpush merge F x) := by
      have := carry_size_ge merge F.reverse (PTree.leaf x) 0
      rw [sizeF_reverse] at this
      unfold fpush
      rw [sizeF_reverse]
      norm_num at this
      omega
    exact le_trans h1 (ih (fpush merge F x))

/-- Pushing a whole list with sufficient capacity: the builder tracks the
folded forest, capacity is preserved, and every push reports success. -/
theorem pushAll_inv {D : Type} [Inhabited D] {merge : D → D → D} :
    ∀ (L : List D) (ctx : MMRContext D) (F : List (PTree D × Nat)), Inv merge ctx F →
      ctx.tree_buf_size ≥ sizeF (L.foldl (fpush merge) F) →
      Inv merge (pushAll merge ctx L) (L.foldl (fpush merge) F) ∧
      (pushAll merge ctx L).tree_buf_size = ctx.tree_buf_size ∧
      pushAllOk merge ctx L = true := by
  intro L
  induction L with
  | nil =>
    intro ctx F hinv hcap
    exact ⟨hinv, rfl, rfl⟩
  | cons x L' ihL =>
    intro ctx F hinv hcap
    rw [List.foldl_cons] at hcap ⊢
    have hmono := sizeF_foldl_fpush_mono merge L' (fpush merge F x)
    rcases mmr_push_char hinv x with ⟨hlt, _⟩ | ⟨hcode, hinv', hcapeq⟩
    · exfalso
      omega
    · have hstep : pushAll merge ctx (x :: L') = pushAll merge (mmr_push merge ctx x).2 L' := by
        unfold pushAll
        rw [List.foldl_cons]
      rw [hstep]
      have hrec := ihL (mmr_push merge ctx x).2 (fpush merge F x) hinv'
        (by rw [hcapeq]; exact hcap)
      refine ⟨hrec.1, by rw [hrec.2.1, hcapeq], ?_⟩
      show ((mmr_push merge ctx x).1 == 0 && pushAllOk merge (mmr_push merge ctx x).2 L') = true
      rw [hcode, hrec.2.2]
      rfl

theorem forestOf_wf {D : Type} {merge : D → D → D} (L : List D) :
    WfF merge (forestOf merge L) := by
  have hgen : ∀ (M : List D) (F : List (PTree D × Nat)), WfF merge F →
      WfF merge (M.foldl (fpush merge) F) := by
    intro M
    induction M with
    | nil =>
      intro F h
      rw [List.foldl_nil]
      exact h
    | cons x M' ih =>
      intro F h
      rw [List.foldl_cons]
      refine ih (fpush merge F x) ?_
      have hwr := carry_wfR merge F.reverse (PTree.leaf x) 0 (WfT.leaf x)
        ((WfR_iff F.reverse).mpr (by rw [List.reverse_reverse]; exact h))
        (by simp)
      exact (WfR_iff _).mp hwr
  exact hgen L [] trivial

theorem leavesF_forestOf {D : Type} {merge : D → D → D} (L : List D) :
    leavesF (forestOf merge L) = L.length := by
  have hgen : ∀ (M : List D) (F : List (PTree D × Nat)),
      leavesF (M.foldl (fpush merge) F) = leavesF F + M.length := by
    intro M
    induction M with
    | nil =>
      intro F
      rw [List.foldl_nil, List.length_nil]
      omega
    | cons x M' ih =>
      intro F
      rw [List.foldl_cons, ih]
      have hone : leavesF (fpush merge F x) = leavesF F + 1 := by
        unfold fpush
        rw [leavesF_reverse]
        rw [carry_leaves merge F.reverse (PTree.leaf x) 0, leavesF_reverse]
        norm_num
      rw [hone, List.length_cons]
      omega
  have h := hgen L []
  have h0 : leavesF ([] : List (PTree D × Nat)) = 0 := by simp [leavesF]
  rw [forestOf]
  rw [h, h0]
  omega

theorem sizeF_forestOf_le {D : Type} {merge : D → D → D} (L : List D) :
    sizeF (forestOf merge L) ≤ 2 * L.length := by
  have h1 := sizeF_le_two_leavesF (forestOf merge L)
  rw [leavesF_forestOf] at h1
  exact h1

/-! ### Tracking leaves across pushes -/

theorem sizeTF_nil {D : Type} : sizeTF ([] : List (PTree D × Nat)) = 0 := by
  simp [sizeTF]

theorem sizeTF_cons {D : Type} (t : PTree D × Nat) (F : List (PTree D × Nat)) :
    sizeTF (t :: F) = t.1.sizeT + sizeTF F := by
  simp [sizeTF]

theorem sizeTF_reverse {D : Type} (F : List (PTree D × Nat)) :
    sizeTF F.reverse = sizeTF F := by
  simp [sizeTF, List.sum_reverse]

theorem sizeTF_append {D : Type} (A B : List (PTree D × Nat)) :
    sizeTF (A ++ B) = sizeTF A + sizeTF B := by
  simp [sizeTF]

theorem sizeTF_eq_sizeF {D : Type} {merge : D → D → D} :
    ∀ {F : List (PTree D × Nat)}, WfF merge F → sizeTF F = sizeF F := by
  intro F
  induction F with
  | nil =>
    intro _
    simp [sizeTF, sizeF]
  | cons t rest ih =>
    intro hwf
    obtain ⟨hwt, _, hrest⟩ := hwf
    rw [sizeTF_cons, ih hrest, sizeT_of_wf hwt]
    simp [sizeF]

theorem LeafAt_leaf_iff {D : Type} {v : D} {b p : Nat} {d : D} :
    LeafAt (PTree.leaf v) b p d ↔ p = b ∧ d = v := by
  constructor
  · intro h
    cases h
    exact ⟨rfl, rfl⟩
  · rintro ⟨rfl, rfl⟩
    exact LeafAt.leaf _ _

theorem LeafAt_node_iff {D : Type} {l r : PTree D} {dd : D} {b p : Nat} {d : D} :
    LeafAt (PTree.node l r dd) b p d ↔ LeafAt l b p d ∨ LeafAt r (b + l.sizeT) p d := by
  constructor
  · intro h
    cases h with
    | inl h => exact Or.inl h
    | inr h => exact Or.inr h
  · rintro (h | h)
    · exact LeafAt.inl h
    · exact LeafAt.inr h

theorem FLeafAt_append {D : Type} {p : Nat} {d : D} :
    ∀ (A B : List (PTree D × Nat)) (b : Nat),
      FLeafAt (A ++ B) b p d ↔ FLeafAt A b p d ∨ FLeafAt B (b + sizeTF A) p d := by
  intro A
  induction A with
  | nil =>
    intro B b
    rw [sizeTF_nil]
    simp only [List.nil_append, FLeafAt]
    constructor
    · intro h
      exact Or.inr (by rw [Nat.add_zero]; exact h)
    · rintro (h | h)
      · exact absurd h (by simp [FLeafAt])
      · rw [Nat.add_zero] at h
        exact h
  | cons t A' ih =>
    intro B b
    simp only [List.cons_append, FLeafAt, List.append_eq, ih (B) (b + t.1.sizeT)]
    rw [sizeTF_cons]
    constructor
    · rintro (h | h | h)
      · exact Or.inl (Or.inl h)
      · exact Or.inl (Or.inr h)
      · refine Or.inr ?_
        rw [show b + (t.1.sizeT + sizeTF A') = b + t.1.sizeT + sizeTF A' from by omega]
        exact h
    · rintro ((h | h) | h)
      · exact Or.inl h
      · exact Or.inr (Or.inl h)
      · refine Or.inr (Or.inr ?_)
        rw [show b + t.1.sizeT + sizeTF A' = b + (t.1.sizeT + sizeTF A') from by omega]
        exact h

/-- The carry cascade neither moves nor changes any stored leaf, and places
the incoming tree's leaves right after the untouched forest. -/
theorem carry_fleafat {D : Type} {merge : D → D → D} {p : Nat} {d : D} :
    ∀ (G : List (PTree D × Nat)) (c : PTree D) (j : Nat),
      FLeafAt ((carryR merge (c, j) G).reverse) 0 p d ↔
        FLeafAt G.reverse 0 p d ∨ LeafAt c (sizeTF G.reverse) p d := by
  intro G
  induction G with
  | nil =>
    intro c j
    rw [show carryR merge ((c : PTree D), j) [] = [(c, j)] from rfl]
    rw [show (([((c : PTree D), j)]).reverse) = [(c, j)] from rfl]
    rw [show (([] : List (PTree D × Nat)).reverse) = [] from rfl]
    rw [sizeTF_nil]
    simp only [FLeafAt]
    constructor
    · rintro (h | h)
      · exact Or.inr h
      · exact absurd h (by simp [FLeafAt])
    · rintro (h | h)
      · exact absurd h (by simp [FLeafAt])
      · exact Or.inl h
  | cons t G' ih =>
    intro c j
    by_cases ht : t.2 = j
    · rw [show carryR merge ((c : PTree D), j) (t :: G')
          = carryR merge (PTree.node t.1 c (merge t.1.rt c.rt), j + 1) G' from by
        simp only [carryR]
        rw [if_pos (show t.2 = ((c : PTree D), j).2 from ht)]]
      rw [ih (PTree.node t.1 c (merge t.1.rt c.rt)) (j + 1)]
      rw [LeafAt_node_iff]
      rw [show ((t :: G').reverse) = G'.reverse ++ [t] from List.reverse_cons t G']
      rw [FLeafAt_append]
      simp only [FLeafAt, sizeTF_append, sizeTF_reverse, sizeTF_cons, sizeTF_nil,
        Nat.add_zero, Nat.zero_add, or_false]
      constructor
      · rintro (h | h | h)
        · exact Or.inl (Or.inl h)
        · exact Or.inl (Or.inr h)
        · exact Or.inr h
      · rintro ((h | h) | h)
        · exact Or.inl h
        · exact Or.inr (Or.inl h)
        · exact Or.inr (Or.inr h)
    · rw [show carryR merge ((c : PTree D), j) (t :: G') = (c, j) :: t :: G' from by
        simp only [carryR]
        rw [if_neg (show ¬ t.2 = ((c : PTree D), j).2 from ht)]]
      rw [show (((c : PTree D), j) :: t :: G').reverse = (t :: G').reverse ++ [(c, j)] from
        List.reverse_cons _ _]
      rw [FLeafAt_append]
      simp only [FLeafAt, sizeTF_reverse, Nat.zero_add, or_false]

theorem fpush_wf {D : Type} {merge : D → D → D} {F : List (PTree D × Nat)}
    (h : WfF merge F) (l : D) : WfF merge (fpush merge F l) := by
  have hwr := carry_wfR merge F.reverse (PTree.leaf l) 0 (WfT.leaf l)
    ((WfR_iff F.reverse).mpr (by rw [List.reverse_reverse]; exact h))
    (by simp)
  exact (WfR_iff _).mp hwr

/-- Pushing a leaf keeps all old leaves in place and stores the new one at
position `sizeF F` (node-count indexing). -/
theorem fpush_fleafat {D : Type} {merge : D → D → D} {F : List (PTree D × Nat)}
    (hwf : WfF merge F) (l : D) (p : Nat) (d : D) :
    FLeafAt (fpush merge F l) 0 p d ↔ FLeafAt F 0 p d ∨ (p = sizeF F ∧ d = l) := by
  rw [fpush]
  have h := @carry_fleafat D merge p d F.reverse (PTree.leaf l) 0
  rw [List.reverse_reverse] at h
  rw [h, LeafAt_leaf_iff, sizeTF_eq_sizeF hwf]

theorem fpush_sizeF_lt {D : Type} {merge : D → D → D} (F : List (PTree D × Nat))
    (l : D) : sizeF F < sizeF (fpush merge F l) := by
  have h := carry_size_ge merge F.reverse (PTree.leaf l) 0
  rw [fpush, sizeF_reverse]
  have h2 : (2 : Nat) ^ (0 + 1) = 2 := by norm_num
  rw [h2] at h
  rw [← sizeF_reverse F]
  omega

/-- After pushing the leaves of `L` in order, leaf `i` of `L` sits at
position `leafPos L i` of the resulting forest. -/
theorem FLeafAt_forestOf {D : Type} (merge : D → D → D) (dflt : D) :
    ∀ (L : List D) (i : Nat), i < L.length →
      FLeafAt (forestOf merge L) 0 (leafPos merge L i) (L.getD i dflt) := by
  intro L
  induction L using List.reverseRecOn with
  | nil =>
    intro i hi
    simp at hi
  | append_singleton L' x ih =>
    intro i hi
    rw [List.length_append, List.length_cons, List.length_nil] at hi
    have hforest : forestOf merge (L' ++ [x]) = fpush merge (forestOf merge L') x := by
      rw [forestOf, List.foldl_append, List.foldl_cons, List.foldl_nil, forestOf]
    rw [hforest]
    rw [fpush_fleafat (forestOf_wf L') x]
    by_cases hle : i < L'.length
    · refine Or.inl ?_
      have htake : (L' ++ [x]).take i = L'.take i :=
        List.take_append_of_le_length (by omega)
      have hgd : (L' ++ [x]).getD i dflt = L'.getD i dflt :=
        List.getD_append _ _ _ _ hle
      rw [leafPos, htake, hgd, ← leafPos]
      exact ih i hle
    · refine Or.inr ?_
      have hieq : i = L'.length := by omega
      subst hieq
      have htake : (L' ++ [x]).take L'.length = L' := List.take_left _ _
      have hgd : (L' ++ [x]).getD L'.length dflt = x := by
        rw [List.getD_append_right _ _ _ _ (Nat.le_refl _), Nat.sub_self]
        rfl
      rw [leafPos, htake, hgd]
      exact ⟨rfl, rfl⟩

/-- A forest leaf occurrence decomposes the forest around the tree holding it. -/
theorem FLeafAt_decomp {D : Type} {p : Nat} {d : D} :
    ∀ (F : List (PTree D × Nat)) (b : Nat), FLeafAt F b p d →
      ∃ A t B, F = A ++ t :: B ∧ LeafAt t.1 (b + sizeTF A) p d := by
  intro F
  induction F with
  | nil =>
    intro b h
    exact absurd h (by simp [FLeafAt])
  | cons t F' ih =>
    intro b h
    have h' : LeafAt t.1 b p d ∨ FLeafAt F' (b + t.1.sizeT) p d := h
    rcases h' with h' | h'
    · refine ⟨[], t, F', rfl, ?_⟩
      rw [sizeTF_nil, Nat.add_zero]
      exact h'
    · obtain ⟨A, u, B, hEq, hLeaf⟩ := ih (b + t.1.sizeT) h'
      refine ⟨t :: A, u, B, by rw [hEq, List.cons_append], ?_⟩
      rw [sizeTF_cons, show b + (t.1.sizeT + sizeTF A) = b + t.1.sizeT + sizeTF A from by omega]
      exact hLeaf

theorem forestOf_ne_nil {D : Type} {merge : D → D → D} {L : List D} (hne : L ≠ []) :
    forestOf merge L ≠ [] := by
  intro hc
  have hlf := @leavesF_forestOf D merge L
  rw [hc] at hlf
  have h0 : leavesF ([] : List (PTree D × Nat)) = 0 := by simp [leavesF]
  rw [h0] at hlf
  exact hne (List.length_eq_zero.mp hlf.symm)

theorem initial_inv {D : Type} [Inhabited D] (merge : D → D → D) (cap : Nat) (d0 : D) :
    Inv merge (initialContext cap d0) ([] : List (PTree D × Nat)) := by
  refine ⟨trivial, ?_, ?_⟩
  · simp [initialContext, sizeF]
  · intro p hp
    simp [flatF] at hp

/-- C1: round-trip proof — push any nonempty list `L` of leaves into an empty
builder whose capacity covers the final mmr size (`2·|L|` suffices); then for
every leaf index `i < |L|`, verifying the proof generated by `mmr_gen_proof`
for that leaf's storage position against the leaf's digest with
`mmr_compute_proof_root` yields exactly the root that `mmr_get_root`
reported. -/
theorem c1_round_trip {D : Type} [Inhabited D] (merge : D → D → D) (cap : Nat) (d0 : D)
    (L : List D) (hcap : 2 * L.length ≤ cap) (hne : L ≠ [])
    (i : Nat) (hi : i < L.length) (max : Nat) (proof : List D) (root : D)
    (hgen : mmr_gen_proof merge (pushAll merge (initialContext cap d0) L) max
        (leafPos merge L i) = some proof)
    (hroot : mmr_get_root merge (pushAll merge (initialContext cap d0) L) = some root) :
    (mmr_compute_proof_root merge (pushAll merge (initialContext cap d0) L).mmr_size
        (L.getD i default) (leafPos merge L i) proof).1 = root := by
  have hcap' : (initialContext cap d0).tree_buf_size
      ≥ sizeF (L.foldl (fpush merge) ([] : List (PTree D × Nat))) := by
    have h1 := @sizeF_forestOf_le D merge L
    rw [forestOf] at h1
    simpa [initialContext] using le_trans h1 hcap
  have hmain := pushAll_inv L (initialContext cap d0) [] (initial_inv merge cap d0) hcap'
  rw [← forestOf] at hmain
  obtain ⟨hinv, -, -⟩ := hmain
  have hfle := FLeafAt_forestOf merge default L i hi
  obtain ⟨A, t, B, hdecomp, hleaf0⟩ := FLeafAt_decomp (forestOf merge L) 0 hfle
  rw [hdecomp] at hinv
  have hwfA : WfF merge A := (WfF_append.mp hinv.1).1
  rw [Nat.zero_add, sizeTF_eq_sizeF hwfA] at hleaf0
  have hproof := gen_forest hinv hleaf0 max hgen
  have hver := verify_forest hinv.1 hinv.2.2 hleaf0
  have hr2 := root_forest hinv (by simp)
  rw [hroot] at hr2
  rw [hproof, hinv.2.1, Option.some.inj hr2]
  exact hver

theorem c1_round_trip_witness :
    2 * ([10, 20, 30] : List Nat).length ≤ 8 ∧ ([10, 20, 30] : List Nat) ≠ [] ∧
    1 < ([10, 20, 30] : List Nat).length ∧
    mmr_gen_proof (fun a b : Nat => 2 * a + 3 * b)
        (pushAll (fun a b : Nat => 2 * a + 3 * b) (initialContext 8 0) [10, 20, 30]) 8
        (leafPos (fun a b : Nat => 2 * a + 3 * b) [10, 20, 30] 1) = some [10, 30] ∧
    mmr_get_root (fun a b : Nat => 2 * a + 3 * b)
        (pushAll (fun a b : Nat => 2 * a + 3 * b) (initialContext 8 0) [10, 20, 30])
      = some 300 ∧
    (mmr_compute_proof_root (fun a b : Nat => 2 * a + 3 * b)
        (pushAll (fun a b : Nat => 2 * a + 3 * b) (initialContext 8 0) [10, 20, 30]).mmr_size
        (([10, 20, 30] : List Nat).getD 1 default)
        (leafPos (fun a b : Nat => 2 * a + 3 * b) [10, 20, 30] 1) [10, 30]).1 = 300 :=
  ⟨by decide, by decide, by decide, by decide, by decide,
    c1_round_trip (fun a b : Nat => 2 * a + 3 * b) 8 0 [10, 20, 30] (by decide) (by decide)
      1 (by decide) 8 [10, 30] 300 (by decide) (by decide)⟩

/-- C3 (amended): for every reachable MMR context with at least two peaks,
`mmr_get_root` equals the right-to-left fold over the peak digests whose
initial accumulator is the rightmost peak's digest and whose step passes the
accumulated right side as the FIRST (left) argument of the merge callback:
`bag(acc, next) = merge(acc, next)`. -/
theorem c3_bagging_order {D : Type} [Inhabited D] {merge : D → D → D}
    {ctx : MMRContext D} {F : List (PTree D × Nat)} (hinv : Inv merge ctx F)
    (hlen : 2 ≤ F.length) :
    mmr_get_root merge ctx
      = specC3FoldAmended merge
          ((get_peaks (left_peak_height_pos ctx.mmr_size) ctx.mmr_size).map
            ctx.tree_buf) := by
  obtain ⟨hwf, hsz, hbuf⟩ := hinv
  have hne : F ≠ [] := by
    intro hc
    rw [hc] at hlen
    simp at hlen
  have hroot := root_forest ⟨hwf, hsz, hbuf⟩ hne
  rw [hroot, hsz, get_peaks_forest F hwf hne]
  have hmap := map_buf_peakPosF F [] (by rw [List.nil_append]; exact hwf)
    (by rw [List.nil_append]; exact hbuf)
  rw [show sizeF ([] : List (PTree D × Nat)) = 0 from rfl] at hmap
  rw [hmap]
  obtain ⟨y, ys, hy⟩ : ∃ y ys, (rootsF F).reverse = y :: ys := by
    cases hrv : (rootsF F).reverse with
    | nil =>
      exfalso
      have : rootsF F = [] := by
        have := congrArg List.reverse hrv
        rwa [List.reverse_reverse] at this
      rw [rootsF] at this
      exact hne (List.map_eq_nil.mp this)
    | cons y ys => exact ⟨y, ys, rfl⟩
  rw [specC3FoldAmended, hy, rootD, hy]
  rfl

theorem c3_bagging_order_witness :
    2 ≤ (forestOf (fun a b : Nat => 2 * a + 3 * b) [1, 2, 3]).length ∧
    mmr_get_root (fun a b : Nat => 2 * a + 3 * b)
        (pushAll (fun a b : Nat => 2 * a + 3 * b) (initialContext 8 0) [1, 2, 3])
      = specC3FoldAmended (fun a b : Nat => 2 * a + 3 * b)
          ((get_peaks
              (left_peak_height_pos
                (pushAll (fun a b : Nat => 2 * a + 3 * b) (initialContext 8 0)
                  [1, 2, 3]).mmr_size)
              (pushAll (fun a b : Nat => 2 * a + 3 * b) (initialContext 8 0)
                [1, 2, 3]).mmr_size).map
            (pushAll (fun a b : Nat => 2 * a + 3 * b) (initialContext 8 0)
              [1, 2, 3]).tree_buf) :=
  ⟨by decide,
    c3_bagging_order
      (pushAll_inv [1, 2, 3] (initialContext 8 0) []
        (initial_inv (fun a b : Nat => 2 * a + 3 * b) 8 0) (by decide)).1
      (by decide)⟩

/-! ### The internal-node equation of the storage layout -/

/-- Inside one well-formed tree (post-order layout, 1-based index `r`), every
internal node is the merge of its left child (`2 ^ height` slots back) and its
right child (the previous slot). -/
theorem internal_node_eq {D : Type} {merge : D → D → D} (d0 : D) :
    ∀ {t : PTree D} {H : Nat}, WfT merge t H →
      ∀ r, 1 ≤ r → r ≤ 2 ^ (H + 1) - 1 → 1 ≤ hIdx r →
        t.flat.getD (r - 1) d0
          = merge (t.flat.getD (r - 1 - 2 ^ hIdx r) d0) (t.flat.getD (r - 2) d0) := by
  intro t H hwt
  induction hwt with
  | leaf d =>
    intro r h1 h2 hh
    have hr : r = 1 := by
      have hx : (2:Nat) ^ (0 + 1) - 1 = 1 := by norm_num
      omega
    subst hr
    rw [hIdx_one] at hh
    omega
  | node hl hr ihl ihr =>
    rename_i l rr hh
    intro r h1 h2 hhp
    have hsl : l.sizeT = 2 ^ (hh + 1) - 1 := sizeT_of_wf hl
    have hsr : rr.sizeT = 2 ^ (hh + 1) - 1 := sizeT_of_wf hr
    have hflen : l.flat.length = 2 ^ (hh + 1) - 1 := by rw [PTree.flat_length, hsl]
    have hfrlen : rr.flat.length = 2 ^ (hh + 1) - 1 := by rw [PTree.flat_length, hsr]
    have hs2 : 2 ^ 1 ≤ 2 ^ (hh + 1) := Nat.pow_le_pow_right (by omega) (by omega)
    have htot : (2:Nat) ^ (hh + 1 + 1) = 2 ^ (hh + 1) + 2 ^ (hh + 1) := by
      rw [Nat.pow_succ]
      omega
    have hflat : (PTree.node l rr (merge l.rt rr.rt)).flat
        = l.flat ++ (rr.flat ++ [merge l.rt rr.rt]) := by
      simp [PTree.flat]
    have hgetL : ∀ k, k < 2 ^ (hh + 1) - 1 →
        (PTree.node l rr (merge l.rt rr.rt)).flat.getD k d0 = l.flat.getD k d0 := by
      intro k hk
      rw [hflat, List.getD_append _ _ _ _ (by omega)]
    have hgetR : ∀ k, 2 ^ (hh + 1) - 1 ≤ k → k < 2 * (2 ^ (hh + 1) - 1) →
        (PTree.node l rr (merge l.rt rr.rt)).flat.getD k d0
          = rr.flat.getD (k - (2 ^ (hh + 1) - 1)) d0 := by
      intro k hk1 hk2
      rw [hflat, List.getD_append_right _ _ _ _ (by omega), hflen,
        List.getD_append _ _ _ _ (by omega)]
    by_cases hcl : r ≤ 2 ^ (hh + 1) - 1
    · have hrge : 2 ^ (hIdx r + 1) - 1 ≤ r := hIdx_ge h1
      have hpow : (2:Nat) ^ (hIdx r + 1) = 2 * 2 ^ hIdx r := by
        rw [Nat.pow_succ]
        omega
      have h1pow : (1:Nat) ≤ 2 ^ hIdx r := Nat.one_le_two_pow
      rw [hgetL (r - 1) (by omega), hgetL (r - 1 - 2 ^ hIdx r) (by omega),
        hgetL (r - 2) (by omega)]
      exact ihl r h1 hcl hhp
    · by_cases hcr : r ≤ 2 * (2 ^ (hh + 1) - 1)
      · have hr2 : r = (2 ^ (hh + 1) - 1) + (r - (2 ^ (hh + 1) - 1)) := by omega
        have hstr : hIdx r = hIdx (r - (2 ^ (hh + 1) - 1)) := by
          rw [show r = 2 ^ (hh + 1) - 1 + (r - (2 ^ (hh + 1) - 1)) from by omega]
          rw [hIdx_strip hh (r - (2 ^ (hh + 1) - 1)) (by omega) (by omega)]
          rw [show 2 ^ (hh + 1) - 1 + (r - (2 ^ (hh + 1) - 1)) - (2 ^ (hh + 1) - 1)
            = r - (2 ^ (hh + 1) - 1) from by omega]
        have hhp2 : 1 ≤ hIdx (r - (2 ^ (hh + 1) - 1)) := by omega
        have hrge : 2 ^ (hIdx (r - (2 ^ (hh + 1) - 1)) + 1) - 1 ≤ r - (2 ^ (hh + 1) - 1) :=
          hIdx_ge (by omega)
        have hpow : (2:Nat) ^ (hIdx (r - (2 ^ (hh + 1) - 1)) + 1)
            = 2 * 2 ^ hIdx (r - (2 ^ (hh + 1) - 1)) := by
          rw [Nat.pow_succ]
          omega
        have h1pow : (1:Nat) ≤ 2 ^ hIdx (r - (2 ^ (hh + 1) - 1)) := Nat.one_le_two_pow
        have h2pow : (2:Nat) ≤ 2 ^ (hIdx (r - (2 ^ (hh + 1) - 1)) + 1) := by
          have hx := Nat.pow_le_pow_right (show 0 < 2 from by omega)
            (show 1 ≤ hIdx (r - (2 ^ (hh + 1) - 1)) + 1 from by omega)
          simpa using hx
        have hd2 : (2:Nat) ≤ 2 ^ hIdx (r - (2 ^ (hh + 1) - 1)) := by
          have hx := Nat.pow_le_pow_right (show 0 < 2 from by omega) hhp2
          simpa using hx
        rw [hstr]
        rw [hgetR (r - 1) (by omega) (by omega),
          hgetR (r - 1 - 2 ^ hIdx (r - (2 ^ (hh + 1) - 1))) (by omega) (by omega),
          hgetR (r - 2) (by omega) (by omega)]
        rw [show r - 1 - (2 ^ (hh + 1) - 1) = r - (2 ^ (hh + 1) - 1) - 1 from by omega,
          show r - 1 - 2 ^ hIdx (r - (2 ^ (hh + 1) - 1)) - (2 ^ (hh + 1) - 1)
            = r - (2 ^ (hh + 1) - 1) - 1 - 2 ^ hIdx (r - (2 ^ (hh + 1) - 1)) from by omega,
          show r - 2 - (2 ^ (hh + 1) - 1) = r - (2 ^ (hh + 1) - 1) - 2 from by omega]
        exact ihr (r - (2 ^ (hh + 1) - 1)) (by omega) (by omega) hhp2
      · have hreq : r = 2 ^ (hh + 1 + 1) - 1 := by omega
        have hhr : hIdx r = hh + 1 := by
          rw [hreq]
          exact hIdx_all_ones (hh + 1)
        rw [hhr]
        have hpow : (2:Nat) ^ (hh + 1) ≤ 2 ^ (hh + 1) := le_refl _
        have hroot : (PTree.node l rr (merge l.rt rr.rt)).flat.getD (r - 1) d0
            = merge l.rt rr.rt := by
          rw [hflat, List.getD_append_right _ _ _ _ (by omega), hflen,
            List.getD_append_right _ _ _ _ (by omega), hfrlen]
          rw [show r - 1 - (2 ^ (hh + 1) - 1) - (2 ^ (hh + 1) - 1) = 0 from by omega]
          rfl
        have hrt : (PTree.node l rr (merge l.rt rr.rt)).flat.getD (r - 2) d0 = rr.rt := by
          rw [hgetR (r - 2) (by omega) (by omega)]
          rw [show r - 2 - (2 ^ (hh + 1) - 1) = rr.sizeT - 1 from by omega]
          exact getD_flat_root rr d0
        have hlt : (PTree.node l rr (merge l.rt rr.rt)).flat.getD (r - 1 - 2 ^ (hh + 1)) d0
            = l.rt := by
          rw [hgetL (r - 1 - 2 ^ (hh + 1)) (by omega)]
          rw [show r - 1 - 2 ^ (hh + 1) = l.sizeT - 1 from by omega]
          exact getD_flat_root l d0
        rw [hroot, hrt, hlt]

/-- Forest version: in the full storage layout of a well-formed forest, every
position of positive height is the merge of the digests `2 ^ height` back and
one back. -/
theorem forest_internal {D : Type} [Inhabited D] {merge : D → D → D} :
    ∀ (F : List (PTree D × Nat)), WfF merge F →
      ∀ p, p < sizeF F → 1 ≤ pos_height_in_tree p →
        (flatF F).getD p default
          = merge ((flatF F).getD (p - 2 ^ pos_height_in_tree p) default)
              ((flatF F).getD (p - 1) default) := by
  intro F
  induction F with
  | nil =>
    intro _ p hp
    rw [show sizeF ([] : List (PTree D × Nat)) = 0 from rfl] at hp
    omega
  | cons t rest ih =>
    intro hwf p hp hph
    obtain ⟨hwt, hbelow, hrest⟩ := hwf
    have hsl : t.1.sizeT = 2 ^ (t.2 + 1) - 1 := sizeT_of_wf hwt
    have hflen : t.1.flat.length = 2 ^ (t.2 + 1) - 1 := by rw [PTree.flat_length, hsl]
    have hs2 : 2 ^ 1 ≤ 2 ^ (t.2 + 1) := Nat.pow_le_pow_right (by omega) (by omega)
    have hszc : sizeF (t :: rest) = 2 ^ (t.2 + 1) - 1 + sizeF rest := by simp [sizeF]
    have hflatc : flatF (t :: rest) = t.1.flat ++ flatF rest := rfl
    rw [pos_height_in_tree] at hph ⊢
    by_cases hcl : p < 2 ^ (t.2 + 1) - 1
    · have hrge : 2 ^ (hIdx (p + 1) + 1) - 1 ≤ p + 1 := hIdx_ge (by omega)
      have hpow : (2:Nat) ^ (hIdx (p + 1) + 1) = 2 * 2 ^ hIdx (p + 1) := by
        rw [Nat.pow_succ]
        omega
      have h1pow : (1:Nat) ≤ 2 ^ hIdx (p + 1) := Nat.one_le_two_pow
      rw [hflatc, List.getD_append _ _ _ _ (by omega),
        List.getD_append _ _ _ _ (by omega), List.getD_append _ _ _ _ (by omega)]
      have hmain := internal_node_eq default hwt (p + 1) (by omega) (by omega) hph
      rw [show p + 1 - 1 = p from by omega, show p + 1 - 2 = p - 1 from by omega] at hmain
      exact hmain
    · have hp2lt : p - (2 ^ (t.2 + 1) - 1) < sizeF rest := by omega
      have hbnd := sizeF_bound rest hrest 0 t.2 (by omega)
        (fun x hx => ⟨by omega, hbelow x hx⟩)
      have hstr : hIdx (p + 1) = hIdx (p - (2 ^ (t.2 + 1) - 1) + 1) := by
        rw [show p + 1 = 2 ^ (t.2 + 1) - 1 + (p - (2 ^ (t.2 + 1) - 1) + 1) from by omega]
        exact hIdx_strip t.2 (p - (2 ^ (t.2 + 1) - 1) + 1) (by omega) (by omega)
      rw [hstr] at hph ⊢
      have hrge : 2 ^ (hIdx (p - (2 ^ (t.2 + 1) - 1) + 1) + 1) - 1
          ≤ p - (2 ^ (t.2 + 1) - 1) + 1 := hIdx_ge (by omega)
      have hpow : (2:Nat) ^ (hIdx (p - (2 ^ (t.2 + 1) - 1) + 1) + 1)
          = 2 * 2 ^ hIdx (p - (2 ^ (t.2 + 1) - 1) + 1) := by
        rw [Nat.pow_succ]
        omega
      have h1pow : (1:Nat) ≤ 2 ^ hIdx (p - (2 ^ (t.2 + 1) - 1) + 1) := Nat.one_le_two_pow
      have h2pow : (2:Nat) ≤ 2 ^ (hIdx (p - (2 ^ (t.2 + 1) - 1) + 1) + 1) := by
        have hx := Nat.pow_le_pow_right (show 0 < 2 from by omega)
          (show 1 ≤ hIdx (p - (2 ^ (t.2 + 1) - 1) + 1) + 1 from by omega)
        simpa using hx
      have hd2 : (2:Nat) ≤ 2 ^ hIdx (p - (2 ^ (t.2 + 1) - 1) + 1) := by
        have hx := Nat.pow_le_pow_right (show 0 < 2 from by omega) (show 1 ≤ hIdx (p - (2 ^ (t.2 + 1) - 1) + 1) from by omega)
        simpa using hx
      rw [hflatc, List.getD_append_right _ _ _ _ (by omega),
        List.getD_append_right _ _ _ _ (by omega),
        List.getD_append_right _ _ _ _ (by omega), hflen]
      have hmain := ih hrest (p - (2 ^ (t.2 + 1) - 1)) hp2lt (by rw [pos_height_in_tree]; omega)
      rw [pos_height_in_tree] at hmain
      rw [show p - 2 ^ hIdx (p - (2 ^ (t.2 + 1) - 1) + 1) - (2 ^ (t.2 + 1) - 1)
          = p - (2 ^ (t.2 + 1) - 1) - 2 ^ hIdx (p - (2 ^ (t.2 + 1) - 1) + 1) from by omega,
        show p - 1 - (2 ^ (t.2 + 1) - 1) = p - (2 ^ (t.2 + 1) - 1) - 1 from by omega]
      exact hmain

/-- C6: pushing any list of leaves into an empty builder with sufficient
capacity (so every `mmr_push` succeeds), every position `p < mmr_size` of the
tree buffer holds the digest of the corresponding node of the forest layout,
and every internal position (positive `pos_height_in_tree`) holds exactly the
merge of its left child (`2 ^ height` slots back) and its right child (the
previous slot). -/
theorem c6_push_invariant {D : Type} [Inhabited D] (merge : D → D → D) (cap : Nat)
    (d0 : D) (L : List D) (hcap : 2 * L.length ≤ cap) (p : Nat)
    (hp : p < (pushAll merge (initialContext cap d0) L).mmr_size) :
    (pushAll merge (initialContext cap d0) L).tree_buf p
        = (flatF (forestOf merge L)).getD p default ∧
      (1 ≤ pos_height_in_tree p →
        (pushAll merge (initialContext cap d0) L).tree_buf p
          = merge
              ((pushAll merge (initialContext cap d0) L).tree_buf
                (p - 2 ^ pos_height_in_tree p))
              ((pushAll merge (initialContext cap d0) L).tree_buf (p - 1))) := by
  have hcap' : (initialContext cap d0).tree_buf_size
      ≥ sizeF (L.foldl (fpush merge) ([] : List (PTree D × Nat))) := by
    have h1 := @sizeF_forestOf_le D merge L
    rw [forestOf] at h1
    simpa [initialContext] using le_trans h1 hcap
  have hmain := pushAll_inv L (initialContext cap d0) [] (initial_inv merge cap d0) hcap'
  rw [← forestOf] at hmain
  obtain ⟨⟨hwf, hsz, hbuf⟩, -, -⟩ := hmain
  rw [hsz] at hp
  have hlen : (flatF (forestOf merge L)).length = sizeF (forestOf merge L) :=
    flatF_length hwf
  have hidx1 : p < (flatF (forestOf merge L)).length := by
    rw [hlen]
    exact hp
  have hidx2 : p - 2 ^ pos_height_in_tree p < (flatF (forestOf merge L)).length := by
    rw [hlen]
    exact lt_of_le_of_lt (Nat.sub_le _ _) hp
  have hidx3 : p - 1 < (flatF (forestOf merge L)).length := by
    rw [hlen]
    exact lt_of_le_of_lt (Nat.sub_le _ _) hp
  refine ⟨hbuf p hidx1, ?_⟩
  intro hph
  rw [hbuf p hidx1, hbuf (p - 2 ^ pos_height_in_tree p) hidx2, hbuf (p - 1) hidx3]
  exact forest_internal (forestOf merge L) hwf p hp hph

theorem c6_push_invariant_witness :
    2 * ([10, 20, 30] : List Nat).length ≤ 8 ∧
    2 < (pushAll (fun a b : Nat => 2 * a + 3 * b) (initialContext 8 0)
      [10, 20, 30]).mmr_size ∧
    ((pushAll (fun a b : Nat => 2 * a + 3 * b) (initialContext 8 0) [10, 20, 30]).tree_buf 2
        = (flatF (forestOf (fun a b : Nat => 2 * a + 3 * b) [10, 20, 30])).getD 2 default ∧
      (1 ≤ pos_height_in_tree 2 →
        (pushAll (fun a b : Nat => 2 * a + 3 * b) (initialContext 8 0)
            [10, 20, 30]).tree_buf 2
          = (fun a b : Nat => 2 * a + 3 * b)
              ((pushAll (fun a b : Nat => 2 * a + 3 * b) (initialContext 8 0)
                [10, 20, 30]).tree_buf (2 - 2 ^ pos_height_in_tree 2))
              ((pushAll (fun a b : Nat => 2 * a + 3 * b) (initialContext 8 0)
                [10, 20, 30]).tree_buf (2 - 1)))) :=
  ⟨by decide, by decide,
    c6_push_invariant (fun a b : Nat => 2 * a + 3 * b) 8 0 [10, 20, 30] (by decide)
      2 (by decide)⟩

/-! ### The carry cascade as a chain tree -/

/-- A carry cascade produces the chain tree over some prefix of the reversed
forest, followed by the untouched remainder. -/
theorem carry_last {D : Type} (merge : D → D → D) :
    ∀ (G : List (PTree D × Nat)) (c : PTree D) (j : Nat),
      ∃ M G', G = M ++ G' ∧
        carryR merge (c, j) G = (chainT merge M c, j + M.length) :: G' := by
  intro G
  induction G with
  | nil =>
    intro c j
    refine ⟨[], [], rfl, ?_⟩
    simp [carryR, chainT]
  | cons t rest ih =>
    intro c j
    by_cases ht : t.2 = j
    · obtain ⟨M, G', hsplit, heq⟩ := ih (.node t.1 c (merge t.1.rt c.rt)) (j + 1)
      refine ⟨t :: M, G', by rw [List.cons_append, ← hsplit], ?_⟩
      rw [show carryR merge (c, j) (t :: rest)
          = carryR merge (.node t.1 c (merge t.1.rt c.rt), j + 1) rest from by
        simp only [carryR]
        rw [if_pos (show t.2 = ((c : PTree D), j).2 from ht)]]
      rw [heq]
      have h1 : chainT merge (t :: M) c
          = chainT merge M (.node t.1 c (merge t.1.rt c.rt)) := rfl
      rw [h1, List.length_cons, show j + (M.length + 1) = j + 1 + M.length from by omega]
    · refine ⟨[], t :: rest, rfl, ?_⟩
      simp only [carryR]
      rw [if_neg (show ¬ t.2 = ((c : PTree D), j).2 from ht)]
      simp [chainT]

/-- The chain tree keeps the digests of the carried tree in place: `c` sits at
base `b + sizeTF M`. -/
theorem chainT_leafat {D : Type} {merge : D → D → D} {p : Nat} {d : D} :
    ∀ (M : List (PTree D × Nat)) (c : PTree D) (b : Nat),
      LeafAt c (b + sizeTF M) p d → LeafAt (chainT merge M c) b p d := by
  intro M
  induction M with
  | nil =>
    intro c b h
    rw [sizeTF_nil, Nat.add_zero] at h
    exact h
  | cons t M' ih =>
    intro c b h
    rw [show chainT merge (t :: M') c
      = chainT merge M' (.node t.1 c (merge t.1.rt c.rt)) from rfl]
    refine ih _ b (LeafAt.inr ?_)
    rw [sizeTF_cons] at h
    rw [show b + sizeTF M' + t.1.sizeT = b + (t.1.sizeT + sizeTF M') from by omega]
    exact h

/-- Sibling digests along the rightmost path of a chain tree: the proof of a
position inside the carried subtree is its proof there followed by the roots
of the merged trees, in merge order. -/
theorem chainT_proofD {D : Type} {merge : D → D → D} {p : Nat} :
    ∀ (M : List (PTree D × Nat)) (c : PTree D) (b : Nat),
      b + sizeTF M ≤ p →
      proofD (chainT merge M c) b p
        = proofD c (b + sizeTF M) p ++ M.map (fun t => t.1.rt) := by
  intro M
  induction M with
  | nil =>
    intro c b _
    rw [sizeTF_nil, Nat.add_zero]
    simp [chainT]
  | cons t M' ih =>
    intro c b hp
    rw [sizeTF_cons] at hp ⊢
    rw [List.map_cons]
    rw [show chainT merge (t :: M') c
      = chainT merge M' (.node t.1 c (merge t.1.rt c.rt)) from rfl]
    rw [ih _ b (by omega)]
    have hnode : proofD (.node t.1 c (merge t.1.rt c.rt)) (b + sizeTF M') p
        = proofD c (b + sizeTF M' + t.1.sizeT) p ++ [t.1.rt] := by
      simp only [proofD]
      rw [if_neg (show ¬ p < b + sizeTF M' + t.1.sizeT from by omega)]
    rw [hnode, List.append_assoc, List.singleton_append]
    rw [show b + sizeTF M' + t.1.sizeT = b + (t.1.sizeT + sizeTF M') from by omega]

/-- The two halves of a reversed-forest split carry exactly the reversed peak
digest list. -/
theorem roots_reverse_split {D : Type} (M G' F : List (PTree D × Nat))
    (h : F.reverse = M ++ G') :
    M.map (fun t => t.1.rt) ++ (rootsF G'.reverse).reverse = (rootsF F).reverse := by
  have h1 : (rootsF F).reverse = (F.reverse).map (fun t => t.1.rt) := by
    rw [rootsF, List.map_reverse]
  have h2 : (rootsF G'.reverse).reverse = G'.map (fun t => t.1.rt) := by
    rw [rootsF, List.map_reverse, List.reverse_reverse]
  rw [h1, h2, h, List.map_append]

/-- Rebuilding the last peak from the last tree's leaf proof:
`compute_peak_root` consumes exactly the tree siblings, stops on the
rightmost peak position, and returns that peak's digest. -/
theorem cpr_last {D : Type} [Inhabited D] {merge : D → D → D}
    {A : List (PTree D × Nat)} {t : PTree D × Nat}
    (hwf : WfF merge (A ++ [t])) {buf : Nat → D}
    (hbuf : bufMatches buf (flatF (A ++ [t])))
    {p : Nat} {d : D} (hleaf : LeafAt t.1 (sizeF A) p d) :
    compute_peak_root merge (peakPosF (A ++ [t]) 0) d p 0
        ((sibsOf t.1 (sizeF A) p).map buf ++ (rootsF A).reverse)
      = (t.1.rt, sizeF A + 2 ^ (t.2 + 1) - 2, 0 + t.2) := by
  obtain ⟨hwfA, hwfTB, hcross⟩ := WfF_append.mp hwf
  obtain ⟨hwt, hbelow, hB⟩ := hwfTB
  have hs2 : 2 ^ 1 ≤ 2 ^ (t.2 + 1) := Nat.pow_le_pow_right (by omega) (by omega)
  have hsorted := pairwise_getD_lt (peakPosF_sorted (A ++ [t]) 0)
  have hsplitp : peakPosF (A ++ [t]) 0 = peakPosF A 0 ++
      [sizeF A + (2 ^ (t.2 + 1) - 1) - 1] := by
    rw [peakPosF_append]
    simp only [Nat.zero_add, peakPosF]
  have hbs_int : ∀ q, sizeF A ≤ q → q < sizeF A + 2 ^ (t.2 + 1) - 2 →
      binary_search (peakPosF (A ++ [t]) 0) q < 0 := by
    intro q hq1 hq2
    apply binary_search_neg
    intro hmem
    rw [hsplitp] at hmem
    rcases List.mem_append.mp hmem with hm | hm
    · obtain ⟨_, hub⟩ := peakPosF_bounds A 0 q hm
      omega
    · rcases List.mem_cons.mp hm with heq | hm2
      · omega
      · exact absurd hm2 (List.not_mem_nil q)
  have hbs_peak : binary_search (peakPosF (A ++ [t]) 0)
      (sizeF A + 2 ^ (t.2 + 1) - 2) ≥ 0 := by
    apply binary_search_pos hsorted
    rw [hsplitp]
    refine List.mem_append_right _ ?_
    have harith : sizeF A + (2 ^ (t.2 + 1) - 1) - 1 = sizeF A + 2 ^ (t.2 + 1) - 2 := by omega
    rw [harith]
    exact List.mem_cons_self _ _
  have hstrip : Strip (sizeF A) (2 ^ (t.2 + 1) - 1) :=
    @forest_strip0 D merge A hwfA (t.2 + 1)
      (fun a ha => by have := hcross t (List.mem_cons_self _ _) a ha; omega)
      (2 ^ (t.2 + 1) - 1) (by omega)
  have hmap : (sibsOf t.1 (sizeF A) p).map buf = proofD t.1 (sizeF A) p :=
    map_buf_sibsOf hwf hbuf hleaf
  rw [hmap]
  rw [cpr_tree (peakPosF (A ++ [t]) 0) hwt hstrip hleaf hbs_int ((rootsF A).reverse)]
  rw [cpr_peak _ _ _ _ hbs_peak]

/-- C2: incremental equivalence — for a builder holding the nonempty leaf list
`L` (capacity covering one more push), feeding the generated proof of the last
leaf together with the new leaf's `(mmr_size, pos)` pair into
`mmr_compute_new_root_from_last_leaf_proof` yields exactly the root that
`mmr_get_root` reports after pushing the new leaf; and when the previous
`mmr_size` is 0 the function returns the new leaf itself. -/
theorem c2_incremental_root {D : Type} [Inhabited D] (merge : D → D → D) (cap : Nat)
    (d0 : D) (L : List D) (hcap : 2 * (L.length + 1) ≤ cap) (hne : L ≠ [])
    (max : Nat) (proof : List D) (x : D) (root : D)
    (hgen : mmr_gen_proof merge (pushAll merge (initialContext cap d0) L) max
        (leafPos merge L (L.length - 1)) = some proof)
    (hroot : mmr_get_root merge (pushAll merge (initialContext cap d0) (L ++ [x]))
        = some root) :
    (mmr_compute_new_root_from_last_leaf_proof merge
          (pushAll merge (initialContext cap d0) L).mmr_size
          (L.getD (L.length - 1) default) (leafPos merge L (L.length - 1)) proof x
          (sizeF (forestOf merge (L ++ [x])),
            (pushAll merge (initialContext cap d0) L).mmr_size)).1 = root
      ∧ ∀ (lh : D) (lp : Nat) (pr : List D) (nl : D) (np : Nat × Nat),
          (mmr_compute_new_root_from_last_leaf_proof merge 0 lh lp pr nl np).1 = nl := by
  refine ⟨?_, fun lh lp pr nl np => rfl⟩
  rcases List.eq_nil_or_concat L with rfl | ⟨L2, y, hL⟩
  · exact absurd rfl hne
  rw [List.concat_eq_append] at hL
  subst hL
  have hlenL : (L2 ++ [y]).length = L2.length + 1 := by simp
  have hforest1 : forestOf merge (L2 ++ [y]) = fpush merge (forestOf merge L2) y := by
    rw [forestOf, List.foldl_append, List.foldl_cons, List.foldl_nil, forestOf]
  have hforest2 : forestOf merge ((L2 ++ [y]) ++ [x])
      = fpush merge (forestOf merge (L2 ++ [y])) x := by
    rw [forestOf, List.foldl_append, List.foldl_cons, List.foldl_nil, forestOf]
  have hcapL : (initialContext cap d0).tree_buf_size
      ≥ sizeF ((L2 ++ [y]).foldl (fpush merge) ([] : List (PTree D × Nat))) := by
    have h1 := @sizeF_forestOf_le D merge (L2 ++ [y])
    rw [forestOf] at h1
    have h3 : sizeF ((L2 ++ [y]).foldl (fpush merge) ([] : List (PTree D × Nat))) ≤ cap := by
      omega
    simpa [initialContext] using h3
  have hcapX : (initialContext cap d0).tree_buf_size
      ≥ sizeF (((L2 ++ [y]) ++ [x]).foldl (fpush merge) ([] : List (PTree D × Nat))) := by
    have h1 := @sizeF_forestOf_le D merge ((L2 ++ [y]) ++ [x])
    rw [forestOf] at h1
    have h2 : ((L2 ++ [y]) ++ [x]).length = L2.length + 2 := by simp
    have h3 : sizeF (((L2 ++ [y]) ++ [x]).foldl (fpush merge)
        ([] : List (PTree D × Nat))) ≤ cap := by omega
    simpa [initialContext] using h3
  have hmainL := pushAll_inv (L2 ++ [y]) (initialContext cap d0) []
    (initial_inv merge cap d0) hcapL
  rw [← forestOf] at hmainL
  obtain ⟨hinvL, -, -⟩ := hmainL
  have hmainX := pushAll_inv ((L2 ++ [y]) ++ [x]) (initialContext cap d0) []
    (initial_inv merge cap d0) hcapX
  rw [← forestOf] at hmainX
  obtain ⟨hinvX, -, -⟩ := hmainX
  obtain ⟨M1, G1, hsplit1, hcarry1⟩ := carry_last merge (forestOf merge L2).reverse
    (.leaf y) 0
  have hFdec : forestOf merge (L2 ++ [y])
      = G1.reverse ++ [(chainT merge M1 (.leaf y), M1.length)] := by
    rw [hforest1, fpush, hcarry1, List.reverse_cons, Nat.zero_add]
  rw [hFdec] at hinvL
  obtain ⟨hwfF, hsz, hbuf⟩ := hinvL
  have hG2 : forestOf merge L2 = G1.reverse ++ M1.reverse := by
    have h := congrArg List.reverse hsplit1
    rwa [List.reverse_reverse, List.reverse_append] at h
  have hwfM1r : WfF merge M1.reverse := by
    have hwfG : WfF merge (forestOf merge L2) := forestOf_wf L2
    rw [hG2] at hwfG
    exact (WfF_append.mp hwfG).2.1
  have hsizeG : sizeF (forestOf merge L2) = sizeF G1.reverse + sizeTF M1 := by
    rw [hG2, sizeF_append, ← sizeTF_eq_sizeF hwfM1r, sizeTF_reverse]
  have hpos : leafPos merge (L2 ++ [y]) ((L2 ++ [y]).length - 1)
      = sizeF (forestOf merge L2) := by
    rw [leafPos, hlenL, Nat.add_sub_cancel, List.take_left]
  have hval : (L2 ++ [y]).getD ((L2 ++ [y]).length - 1) default = y := by
    rw [hlenL, Nat.add_sub_cancel, List.getD_append_right _ _ _ _ (Nat.le_refl _),
      Nat.sub_self]
    rfl
  have hleafF : LeafAt (chainT merge M1 (.leaf y)) (sizeF G1.reverse)
      (leafPos merge (L2 ++ [y]) ((L2 ++ [y]).length - 1)) y := by
    refine chainT_leafat M1 _ _ ?_
    rw [hpos, hsizeG]
    exact LeafAt.leaf y _
  have hproof := gen_forest ⟨hwfF, hsz, hbuf⟩ hleafF max hgen
  have hifnil : (if ([] : List (PTree D × Nat)).isEmpty then ([] : List D)
      else [rootD merge ([] : List (PTree D × Nat))]) = [] := rfl
  rw [hifnil, List.nil_append] at hproof
  have hS1pos : 1 ≤ sizeF (G1.reverse ++ [(chainT merge M1 (.leaf y), M1.length)]) := by
    rw [sizeF_append]
    have h2 : 2 ^ 1 ≤ 2 ^ (M1.length + 1) := Nat.pow_le_pow_right (by omega) (by omega)
    simp only [sizeF]
    omega
  have hstrip1 : Strip (sizeF (G1.reverse ++ [(chainT merge M1 (.leaf y), M1.length)])) 1 :=
    @forest_strip0 D merge _ hwfF 0 (fun a _ => Nat.zero_le _) 1 (by norm_num)
  have hph0 : pos_height_in_tree
      (sizeF (G1.reverse ++ [(chainT merge M1 (.leaf y), M1.length)])) = 0 := by
    rw [pos_height_in_tree, hstrip1 1 (le_refl _) (le_refl _), hIdx_one]
  rw [hval]
  simp only [mmr_compute_new_root_from_last_leaf_proof]
  rw [hsz]
  rw [if_neg (show ¬ sizeF (G1.reverse ++ [(chainT merge M1 (.leaf y), M1.length)]) = 0
    from by omega)]
  by_cases hM : M1.length = 0
  · -- the old last tree is a single leaf: the new leaf goes on a right branch
    obtain rfl : M1 = [] := List.length_eq_zero.mp hM
    have htF : ((chainT merge [] (PTree.leaf y) : PTree D),
        ([] : List (PTree D × Nat)).length) = ((PTree.leaf y : PTree D), 0) := rfl
    rw [htF] at hwfF hsz hbuf hproof hph0 hstrip1 hS1pos hFdec ⊢
    have htT : (chainT merge [] (PTree.leaf y) : PTree D) = PTree.leaf y := rfl
    rw [htT] at hleafF
    dsimp only at hproof
    have hcrossA : ∀ a ∈ G1.reverse, 1 ≤ a.2 := by
      intro a ha
      obtain ⟨hwfA, hwfT, hcross⟩ := WfF_append.mp hwfF
      have h3 : (0 : Nat) < a.2 :=
        hcross ((PTree.leaf y : PTree D), 0) (List.mem_cons_self _ _) a ha
      omega
    have hs1 : sizeF (G1.reverse ++ [((PTree.leaf y : PTree D), 0)]) = sizeF G1.reverse + 1 := by
      rw [sizeF_append]
      have h1 : (2:Nat) ^ (0 + 1) - 1 = 1 := by norm_num
      simp only [sizeF]
      omega
    have hwfA : WfF merge G1.reverse := (WfF_append.mp hwfF).1
    have hstrip3 : Strip (sizeF G1.reverse) 3 :=
      @forest_strip0 D merge G1.reverse hwfA 1 hcrossA 3 (by norm_num)
    have hnh1 : pos_height_in_tree
        (sizeF (G1.reverse ++ [((PTree.leaf y : PTree D), 0)]) + 1) = 1 := by
      rw [pos_height_in_tree]
      rw [show sizeF (G1.reverse ++ [((PTree.leaf y : PTree D), 0)]) + 1 + 1
        = sizeF G1.reverse + 3 from by omega]
      rw [hstrip3 3 (by omega) (le_refl _)]
      rw [show (3:Nat) = 2 ^ (1 + 1) - 1 from by norm_num, hIdx_all_ones]
    rw [hph0, hnh1]
    rw [if_pos (show (1:Nat) > 0 from by omega)]
    dsimp only
    -- the new forest: one carry cascade starting at the old last leaf
    obtain ⟨M3, G3, hsplit3, hcarry3⟩ := carry_last merge
      (G1.reverse ++ [((PTree.leaf y : PTree D), 0)]).reverse (.leaf x) 0
    have hF2 : forestOf merge ((L2 ++ [y]) ++ [x])
        = G3.reverse ++ [(chainT merge M3 (.leaf x), M3.length)] := by
      rw [hforest2, hFdec, fpush, hcarry3, List.reverse_cons, Nat.zero_add]
    rw [hF2] at hinvX
    obtain ⟨hwfX, hszX, hbufX⟩ := hinvX
    have hFrev : G1.reverse ++ [((PTree.leaf y : PTree D), 0)]
        = G3.reverse ++ M3.reverse := by
      have h := congrArg List.reverse hsplit3
      rwa [List.reverse_reverse, List.reverse_append] at h
    have hwfM3r : WfF merge M3.reverse := by
      have h := hwfF
      rw [hFrev] at h
      exact (WfF_append.mp h).2.1
    have hSX : sizeF (G1.reverse ++ [((PTree.leaf y : PTree D), 0)])
        = sizeF G3.reverse + sizeTF M3 := by
      rw [hFrev, sizeF_append, ← sizeTF_eq_sizeF hwfM3r, sizeTF_reverse]
    have hleafX : LeafAt (chainT merge M3 (.leaf x)) (sizeF G3.reverse)
        (sizeF (G1.reverse ++ [((PTree.leaf y : PTree D), 0)])) x := by
      refine chainT_leafat M3 _ _ ?_
      rw [hSX]
      exact LeafAt.leaf x _
    have hver := verify_forest hwfX hbufX hleafX
    rw [hifnil, List.nil_append] at hver
    have hmapX := map_buf_sibsOf hwfX hbufX hleafX
    have hchainD := @chainT_proofD D merge
      (sizeF (G1.reverse ++ [((PTree.leaf y : PTree D), 0)])) M3 (.leaf x)
      (sizeF G3.reverse) (by omega)
    have hleafD : proofD (PTree.leaf x) (sizeF G3.reverse + sizeTF M3)
        (sizeF (G1.reverse ++ [((PTree.leaf y : PTree D), 0)])) = ([] : List D) := rfl
    have hroots := roots_reverse_split M3 G3
      (G1.reverse ++ [((PTree.leaf y : PTree D), 0)]) hsplit3
    have hrootsF : (rootsF (G1.reverse ++ [((PTree.leaf y : PTree D), 0)])).reverse
        = y :: (rootsF G1.reverse).reverse := by
      simp [rootsF, PTree.rt]
    have hsiby : sibsOf (PTree.leaf y) (sizeF G1.reverse)
        (leafPos merge (L2 ++ [y]) ((L2 ++ [y]).length - 1)) = [] := rfl
    rw [hsiby, List.map_nil, List.nil_append] at hproof
    have hplist : y :: proof
        = (sibsOf (chainT merge M3 (.leaf x)) (sizeF G3.reverse)
            (sizeF (G1.reverse ++ [((PTree.leaf y : PTree D), 0)]))).map
              (pushAll merge (initialContext cap d0) ((L2 ++ [y]) ++ [x])).tree_buf
          ++ (rootsF G3.reverse).reverse := by
      rw [hmapX, hchainD, hleafD, List.nil_append, hroots, hrootsF, hproof]
    rw [hproof] at hplist
    rw [hproof, hF2, hplist]
    have hrootX := root_forest ⟨hwfX, hszX, hbufX⟩ (by simp)
    rw [hroot] at hrootX
    rw [Option.some.inj hrootX]
    exact hver
  · -- the old last tree has positive height: the new leaf starts a fresh peak
    have hall1 : ∀ a ∈ G1.reverse ++ [(chainT merge M1 (.leaf y), M1.length)], 1 ≤ a.2 := by
      intro a ha
      rcases List.mem_append.mp ha with hm | hm
      · obtain ⟨hwfA, hwfT, hcross⟩ := WfF_append.mp hwfF
        have h3 : M1.length < a.2 :=
          hcross (chainT merge M1 (.leaf y), M1.length) (List.mem_cons_self _ _) a hm
        omega
      · rcases List.mem_cons.mp hm with heq | hm2
        · rw [heq]
          omega
        · exact absurd hm2 (List.not_mem_nil a)
    have hstrip2 : Strip (sizeF (G1.reverse ++ [(chainT merge M1 (.leaf y), M1.length)])) 2 :=
      @forest_strip0 D merge _ hwfF 1 hall1 2 (by norm_num)
    have hnh0 : pos_height_in_tree
        (sizeF (G1.reverse ++ [(chainT merge M1 (.leaf y), M1.length)]) + 1) = 0 := by
      rw [pos_height_in_tree]
      rw [show sizeF (G1.reverse ++ [(chainT merge M1 (.leaf y), M1.length)]) + 1 + 1
        = sizeF (G1.reverse ++ [(chainT merge M1 (.leaf y), M1.length)]) + 2 from by omega]
      rw [hstrip2 2 (by omega) (le_refl _)]
      have h2 : hIdx 2 = 0 := by
        have h := hIdx_pow (le_refl 1)
        simpa using h
      exact h2
    rw [hph0, hnh0]
    rw [if_neg (show ¬ (0:Nat) > 0 from by omega)]
    dsimp only
    -- evaluate the peak-root reconstruction on the old proof
    have hpeaks := get_peaks_forest (G1.reverse ++ [(chainT merge M1 (.leaf y), M1.length)])
      hwfF (by simp)
    rw [hpeaks, hproof]
    have hwt : WfT merge (chainT merge M1 (.leaf y)) M1.length :=
      (WfF_append.mp hwfF).2.1.1
    rw [cpr_last hwfF hbuf hleafF]
    dsimp only
    have hmapF := map_buf_sibsOf hwfF hbuf hleafF
    have hdroplen : ((sibsOf (chainT merge M1 (.leaf y)) (sizeF G1.reverse)
        (leafPos merge (L2 ++ [y]) ((L2 ++ [y]).length - 1))).map
          (pushAll merge (initialContext cap d0) (L2 ++ [y])).tree_buf).length
        = M1.length := by
      rw [hmapF]
      exact proofD_length hwt hleafF
    have hdrop : (((sibsOf (chainT merge M1 (.leaf y)) (sizeF G1.reverse)
        (leafPos merge (L2 ++ [y]) ((L2 ++ [y]).length - 1))).map
          (pushAll merge (initialContext cap d0) (L2 ++ [y])).tree_buf)
        ++ (rootsF G1.reverse).reverse).drop (0 + M1.length)
        = (rootsF G1.reverse).reverse := by
      rw [Nat.zero_add, ← hdroplen, List.drop_left]
    rw [hdrop]
    -- the new forest appends the new leaf as a fresh final peak
    have hF2 : forestOf merge ((L2 ++ [y]) ++ [x])
        = (G1.reverse ++ [(chainT merge M1 (.leaf y), M1.length)])
          ++ [((PTree.leaf x : PTree D), 0)] := by
      rw [hforest2, hFdec, fpush]
      have hstep1 : (G1.reverse ++ [(chainT merge M1 (.leaf y), M1.length)]).reverse
          = (chainT merge M1 (.leaf y), M1.length) :: G1.reverse.reverse := by
        simp
      rw [hstep1]
      have hstep2 : carryR merge (.leaf x, 0)
          ((chainT merge M1 (.leaf y), M1.length) :: G1.reverse.reverse)
          = (.leaf x, 0) :: (chainT merge M1 (.leaf y), M1.length) :: G1.reverse.reverse := by
        simp only [carryR]
        rw [if_neg (show ¬ ((chainT merge M1 (.leaf y), M1.length) : PTree D × Nat).2
          = (((PTree.leaf x : PTree D), 0) : PTree D × Nat).2 from hM)]
      rw [hstep2, List.reverse_cons, List.reverse_cons, List.reverse_reverse]
    rw [hF2] at hinvX
    obtain ⟨hwfX, hszX, hbufX⟩ := hinvX
    have hleafX : LeafAt (PTree.leaf x)
        (sizeF (G1.reverse ++ [(chainT merge M1 (.leaf y), M1.length)]))
        (sizeF (G1.reverse ++ [(chainT merge M1 (.leaf y), M1.length)])) x :=
      LeafAt.leaf x _
    have hver := verify_forest hwfX hbufX hleafX
    rw [hifnil, List.nil_append] at hver
    have hsibx : sibsOf (PTree.leaf x)
        (sizeF (G1.reverse ++ [(chainT merge M1 (.leaf y), M1.length)]))
        (sizeF (G1.reverse ++ [(chainT merge M1 (.leaf y), M1.length)])) = [] := rfl
    rw [hsibx, List.map_nil, List.nil_append] at hver
    have hrootsEq : (chainT merge M1 (PTree.leaf y)).rt :: (rootsF G1.reverse).reverse
        = (rootsF (G1.reverse ++ [(chainT merge M1 (.leaf y), M1.length)])).reverse := by
      simp [rootsF]
    rw [hrootsEq, hF2]
    have hrootX := root_forest ⟨hwfX, hszX, hbufX⟩ (by simp)
    rw [hroot] at hrootX
    rw [Option.some.inj hrootX]
    exact hver

theorem c2_incremental_root_witness :
    2 * (([10, 20, 30] : List Nat).length + 1) ≤ 8 ∧ ([10, 20, 30] : List Nat) ≠ [] ∧
    mmr_gen_proof (fun a b : Nat => 2 * a + 3 * b)
        (pushAll (fun a b : Nat => 2 * a + 3 * b) (initialContext 8 0) [10, 20, 30]) 8
        (leafPos (fun a b : Nat => 2 * a + 3 * b) [10, 20, 30]
          (([10, 20, 30] : List Nat).length - 1)) = some [80] ∧
    mmr_get_root (fun a b : Nat => 2 * a + 3 * b)
        (pushAll (fun a b : Nat => 2 * a + 3 * b) (initialContext 8 0)
          ([10, 20, 30] ++ [40])) = some 700 ∧
    (mmr_compute_new_root_from_last_leaf_proof (fun a b : Nat => 2 * a + 3 * b)
        (pushAll (fun a b : Nat => 2 * a + 3 * b) (initialContext 8 0) [10, 20, 30]).mmr_size
        (([10, 20, 30] : List Nat).getD (([10, 20, 30] : List Nat).length - 1) default)
        (leafPos (fun a b : Nat => 2 * a + 3 * b) [10, 20, 30]
          (([10, 20, 30] : List Nat).length - 1)) [80] 40
        (sizeF (forestOf (fun a b : Nat => 2 * a + 3 * b) ([10, 20, 30] ++ [40])),
          (pushAll (fun a b : Nat => 2 * a + 3 * b) (initialContext 8 0)
            [10, 20, 30]).mmr_size)).1 = 700 ∧
    (mmr_compute_new_root_from_last_leaf_proof (fun a b : Nat => 2 * a + 3 * b)
      0 5 7 [9] 11 (1, 0)).1 = 11 :=
  ⟨by decide, by decide, by decide, by decide,
    (c2_incremental_root (fun a b : Nat => 2 * a + 3 * b) 8 0 [10, 20, 30] (by decide)
      (by decide) 8 [80] 40 700 (by decide) (by decide)).1,
    (c2_incremental_root (fun a b : Nat => 2 * a + 3 * b) 8 0 [10, 20, 30] (by decide)
      (by decide) 8 [80] 40 700 (by decide) (by decide)).2 5 7 [9] 11 (1, 0)⟩

end Mmr
